import Mathlib

/-!
# imv: the image cache of `src/trunk/imv.c`

A shallow embedding of the cache slot table, the decoder selection
(`decoder_choose`), the eviction pass (`flush_cache`), the orchestrator
operations (`queue_disk_command`, `advance`), one pass of each worker
loop (`diskload_task`, `decode_task` with `make_image`), the error and decoded
notification handlers of `MainWndProc`, the order of the writes of the two
workers, the row ranges of the resize subtasks, and the resize steps of the
main loop of `WinMain` (`queue_resize`).

Conventions of the embedding.

* A pointer to a cache slot (`ImageFile *`) is the index of the slot in the
  `cache` array; a nullable pointer is an `Option`.
* C `int` counters and priorities are integers. Signed overflow is undefined
  in C; the model computes in unbounded integers, so it describes the
  executions in which no signed overflow occurs.
* Byte counts and image dimensions (`len`, `x`, `y`, `stride`) are naturals:
  the program never stores a negative value in them.
* A function whose C execution can dereference a null pointer, index out of
  bounds, call `stb_fatal`, or loop forever returns `Except Fault`.
* Each function is modelled as it runs on its own thread with the lock
  discipline of the source; interference of other threads is an explicit
  parameter where the source has a retry path for it (`decoder_choose`).
* The file system and the image decoder (`stb_file`, `stbi_load_from_memory`)
  are parameters of the worker loops; a byte is a natural number below 256.
-/

namespace Imv

/-! ## Data model -/

/-- The `LOAD_*` enumeration, constructors in the order of the source. -/
inductive LoadStatus
  | LOAD_unused
  | LOAD_inactive
  | LOAD_reading_done
  | LOAD_error_reading
  | LOAD_error_decoding
  | LOAD_available
  | LOAD_resizing
  | LOAD_reading
  | LOAD_decoding
  deriving DecidableEq

open LoadStatus

/-- The integer value of an enumerator. -/
def LoadStatus.code : LoadStatus → Nat
  | LOAD_unused => 0
  | LOAD_inactive => 1
  | LOAD_reading_done => 2
  | LOAD_error_reading => 3
  | LOAD_error_decoding => 4
  | LOAD_available => 5
  | LOAD_resizing => 6
  | LOAD_reading => 7
  | LOAD_decoding => 8

/-- The `Image` struct; `pixels` is the pixel buffer as a byte list. -/
structure Image where
  x : Nat
  y : Nat
  stride : Nat
  frame : Int
  pixels : List Nat
  had_alpha : Int
  deriving DecidableEq

/-- The `ImageFile` struct: one cache slot. -/
structure ImageFile where
  filename : Option String
  filedata : Option (List Nat)
  len : Nat
  image : Option Image
  error : Option String
  status : LoadStatus
  bail : Int
  lru : Int
  deriving DecidableEq

/-- The macro `MAIN_OWNS(x)`: `x->status <= LOAD_available`. -/
def MAIN_OWNS (z : ImageFile) : Bool :=
  decide (z.status.code ≤ LOAD_available.code)

/-- The ways a modelled C execution fails to return normally. -/
inductive Fault
  | undefined_behaviour
  | fatal
  | diverges
  deriving DecidableEq

/-- The two `#define`d cache limits. -/
structure Limits where
  MAX_CACHED_IMAGES : Nat
  MIN_CACHE : Nat
  deriving DecidableEq

/-- The limits of the source: `MAX_CACHED_IMAGES 200`, `MIN_CACHE 3`. -/
def imv_limits : Limits := { MAX_CACHED_IMAGES := 200, MIN_CACHE := 3 }

/-! ## decoder_choose -/

/-- The scan loop of `decoder_choose` over `cache[i..]`, carrying the locals
`best` and `best_lru`. -/
def decoder_scan : List ImageFile → Nat → Option Nat × Int → Option Nat × Int
  | [], _, acc => acc
  | z :: rest, i, acc =>
    if z.status = LOAD_reading_done ∧ z.lru > acc.2 then
      decoder_scan rest (i + 1) (some i, z.lru)
    else
      decoder_scan rest (i + 1) acc

/-- The body of `decoder_choose` from the label `start:` on. `acc` holds the
locals `best` and `best_lru` (they are initialised before the label, so a
retry keeps them). `env k` is what the other threads did to the cache between
the scan of attempt `k` and the locked re-validation. The `Nat` fuel bounds
the number of passes through `start:`. -/
def decoder_choose_from (env : Nat → List ImageFile → List ImageFile) :
    Nat → Nat → List ImageFile → Option Nat × Int →
      Except Fault (Option Nat × List ImageFile)
  | 0, _, _, _ => .error Fault.diverges
  | fuel + 1, k, cache, acc =>
    let r := decoder_scan cache 0 acc
    match r.1 with
    | none => .ok (none, cache)
    | some b =>
      let cache1 := env k cache
      match cache1[b]? with
      | none => .error Fault.undefined_behaviour
      | some z =>
        if z.status = LOAD_reading_done then
          .ok (some b, cache1.set b { z with status := LOAD_decoding })
        else
          decoder_choose_from env fuel (k + 1) cache1 r

/-- The function `decoder_choose`: `best = NULL`, `best_lru = 0`, then the
body. -/
def decoder_choose (env : Nat → List ImageFile → List ImageFile) (fuel : Nat)
    (cache : List ImageFile) : Except Fault (Option Nat × List ImageFile) :=
  decoder_choose_from env fuel 0 cache (none, 0)

/-- No concurrent change: the other threads leave the cache alone. -/
def quiet : Nat → List ImageFile → List ImageFile := fun _ c => c

/-! ## The orchestrator state -/

/-- One entry of the `fileinfo` array. -/
structure FileInfo where
  filename : String
  lru : Int
  deriving DecidableEq

/-- The `DiskCommand` struct: `files` holds the first `num_files` entries of
the array `files[4]`. -/
structure DiskCommand where
  files : List Nat
  deriving DecidableEq

/-- The field `num_files` of a `DiskCommand`. -/
def DiskCommand.num_files (dc : DiskCommand) : Nat := dc.files.length

/-- The struct `queued_size`. -/
structure queued_size where
  x : Int
  y : Int
  w : Int
  h : Int
  deriving DecidableEq

/-- The display-side globals written by `set_error` and `size_to_current`:
`cur`, `cur_filename`, `display_error` and `qs`. -/
structure Display where
  cur : Option Image
  cur_filename : Option String
  display_error : String
  qs : queued_size
  deriving DecidableEq

/-- The globals of the main thread that the cache operations read or write. -/
structure State where
  cache : List ImageFile
  file_cache : List (String × Nat)
  fileinfo : Option (List FileInfo)
  cur_loc : Int
  lru_stamp : Int
  max_cache_bytes : Int
  dc_shared : DiskCommand
  source_c : Option Nat
  source : Option Image
  best_lru : Int
  filename : Option String
  display : Display
  deriving DecidableEq

/-- The services the cache code calls but does not define: the C library
`qsort` (any implementation that returns a sorted permutation, whatever it
does with ties), `stricmp`, the directory listing returned by
`stb_readdir_files_mask` for the current path, and the window-system side of
`size_to_current` (it writes display globals only). -/
structure Platform where
  qsort : (Nat → Nat → Int) → List Nat → List Nat
  qsort_perm : ∀ cmp l, List.Perm (qsort cmp l) l
  qsort_sorted : ∀ cmp l, (∀ a b, cmp a b ≤ 0 ∨ cmp b a ≤ 0) →
    (∀ a b c, cmp a b ≤ 0 → cmp b c ≤ 0 → cmp a c ≤ 0) →
    List.Pairwise (fun a b => cmp a b ≤ 0) (qsort cmp l)
  stricmp : String → String → Int
  stb_readdir_files_mask : Option (List String)
  size_to_current : Image → Option String → Display → Display

/-! ## The filename lookup -/

/-- Modelled from the spec: the filename to slot lookup (`stb_sdict` of
`stb.h`, which is not under `src/`), as an association list; `stb_sdict_get`
returns the slot a key maps to, or `none` for `NULL`. -/
def stb_sdict_get : List (String × Nat) → String → Option Nat
  | [], _ => none
  | e :: rest, k => if e.1 = k then some e.2 else stb_sdict_get rest k

/-- Modelled from the spec: `stb_sdict_remove` removes a key from the
filename lookup. -/
def stb_sdict_remove (d : List (String × Nat)) (k : String) : List (String × Nat) :=
  d.filter (fun e => decide (e.1 ≠ k))

/-- Modelled from the spec: `stb_sdict_add` adds a key that is not yet in the
filename lookup. -/
def stb_sdict_add (d : List (String × Nat)) (k : String) (v : Nat) : List (String × Nat) :=
  if (stb_sdict_get d k).isSome then d else (k, v) :: d

/-! ## flush_cache -/

/-- The comparator `ImageFilePtrCompare` on the two slots pointed to. -/
def ImageFilePtrCompare (a b : ImageFile) : Int :=
  if a.lru < b.lru then -1 else if a.lru > b.lru then 1 else 0

/-- A zero-initialised slot, the initial value of every entry of the static
array `cache`. -/
def zero_slot : ImageFile :=
  { filename := none, filedata := none, len := 0, image := none, error := none,
    status := LOAD_unused, bail := 0, lru := 0 }

/-- The comparator as `qsort` sees it: on pointers into `cache` (the entries
of `list` always point into the array). -/
def ptr_compare (cache : List ImageFile) (i j : Nat) : Int :=
  ImageFilePtrCompare (cache.getD i zero_slot) (cache.getD j zero_slot)

/-- The bytes a slot contributes to `total` in `flush_cache`:
`image->stride * image->y` when available (a null `image` is dereferenced),
`len` when reading_done, nothing otherwise. -/
def slot_bytes (z : ImageFile) : Except Fault Int :=
  if z.status = LOAD_available then
    match z.image with
    | none => .error Fault.undefined_behaviour
    | some im => .ok ((im.stride : Int) * (im.y : Int))
  else if z.status = LOAD_reading_done then .ok (z.len : Int)
  else .ok 0

/-- The locals `total`, `occupied_slots` and `list[0..n)` of `flush_cache`. -/
structure FlushVars where
  total : Int
  occupied_slots : Int
  list : List Nat
  deriving DecidableEq

/-- The counting loop of `flush_cache` over `cache[i..]`. -/
def flush_count : List ImageFile → Nat → FlushVars → Except Fault FlushVars
  | [], _, v => .ok v
  | z :: rest, i, v =>
    let occ := if z.status ≠ LOAD_unused then v.occupied_slots + 1 else v.occupied_slots
    if MAIN_OWNS z then
      match slot_bytes z with
      | .error e => .error e
      | .ok b => flush_count rest (i + 1) { total := v.total + b, occupied_slots := occ, list := v.list ++ [i] }
    else
      flush_count rest (i + 1) { v with occupied_slots := occ }

/-- What the eviction loop of `flush_cache` changes: the cache, the filename
lookup, and the locals `total` and `occupied_slots`. -/
structure FlushState where
  cache : List ImageFile
  file_cache : List (String × Nat)
  total : Int
  occupied_slots : Int
  deriving DecidableEq

/-- The slot after the assignments of the eviction branch. -/
def evicted (p : ImageFile) : ImageFile :=
  { p with bail := 1, filename := none, filedata := none, len := 0, image := none,
           error := none, status := LOAD_unused }

/-- The value of `limit` in `flush_cache`. -/
def Limits.limit (L : Limits) : Int := (L.MAX_CACHED_IMAGES : Int) - (L.MIN_CACHE : Int)

/-- The loop condition of the eviction loop, apart from `i < n`. -/
def flush_pressure (L : Limits) (max_cache_bytes : Int) (st : FlushState) : Bool :=
  decide (st.occupied_slots > (L.MIN_CACHE : Int) ∧
    (st.occupied_slots > L.limit ∨ st.total > max_cache_bytes))

/-- The eviction loop of `flush_cache` over the sorted `list[i..n)`. -/
def flush_evict (L : Limits) (max_cache_bytes : Int) :
    List Nat → FlushState → Except Fault FlushState
  | [], st => .ok st
  | i :: rest, st =>
    if flush_pressure L max_cache_bytes st then
      match st.cache[i]? with
      | none => .error Fault.undefined_behaviour
      | some p =>
        if MAIN_OWNS p ∧ p.status ≠ LOAD_unused then
          match p.filename, slot_bytes p with
          | some fn, .ok b =>
            flush_evict L max_cache_bytes rest
              { cache := st.cache.set i (evicted p),
                file_cache := stb_sdict_remove st.file_cache fn,
                total := st.total - b,
                occupied_slots := st.occupied_slots - 1 }
          | _, _ => .error Fault.undefined_behaviour
        else
          flush_evict L max_cache_bytes rest st
    else .ok st

/-- The function `flush_cache`. -/
def flush_cache (P : Platform) (L : Limits) (s : State) : Except Fault State :=
  match flush_count s.cache 0 { total := 0, occupied_slots := 0, list := [] } with
  | .error e => .error e
  | .ok v =>
    if ¬ (v.total > s.max_cache_bytes ∨ v.occupied_slots > L.limit) then .ok s
    else
      match flush_evict L s.max_cache_bytes (P.qsort (ptr_compare s.cache) v.list)
          { cache := s.cache, file_cache := s.file_cache, total := v.total,
            occupied_slots := v.occupied_slots } with
      | .error e => .error e
      | .ok st => .ok { s with cache := st.cache, file_cache := st.file_cache }

/-! ## Vocabulary of the cache properties -/

/-- A slot is occupied when its status is not `LOAD_unused`. -/
def occupied (z : ImageFile) : Bool := decide (z.status ≠ LOAD_unused)

/-- The resident bytes of a slot: `stride * y` of the image of an available
slot, `len` of a reading_done slot, nothing for any other slot. -/
def resident (z : ImageFile) : Int :=
  if z.status = LOAD_available then
    match z.image with
    | none => 0
    | some im => (im.stride : Int) * (im.y : Int)
  else if z.status = LOAD_reading_done then (z.len : Int)
  else 0

/-- The number of occupied slots of a cache. -/
def occupied_count (cache : List ImageFile) : Int :=
  (cache.map (fun z => if occupied z then (1 : Int) else 0)).sum

/-- The number of unused slots of a cache. -/
def unused_count (cache : List ImageFile) : Int :=
  (cache.map (fun z => if occupied z then (0 : Int) else 1)).sum

/-- The total resident bytes of a cache. -/
def total_resident (cache : List ImageFile) : Int :=
  (cache.map resident).sum

/-- The payload of a slot agrees with its status as far as `flush_cache`
relies on it: an available slot has an image, and an occupied slot has a
filename. -/
def slot_ok (z : ImageFile) : Bool :=
  (decide (z.status = LOAD_available → z.image.isSome)) &&
  (decide (z.status ≠ LOAD_unused → z.filename.isSome))


/-- The test of the eviction branch of `flush_cache`:
`MAIN_OWNS(list[i]) && list[i]->status != LOAD_unused`. -/
def evictable (z : ImageFile) : Bool := MAIN_OWNS z && occupied z

/-- The cache after the eviction branch has run, in order, for the slots of
`l` that pass its test (the loop of `flush_cache` without its stop
condition). -/
def evict_slots : List Nat → List ImageFile → List ImageFile
  | [], cs => cs
  | i :: rest, cs =>
    match cs[i]? with
    | some p => if evictable p then evict_slots rest (cs.set i (evicted p)) else evict_slots rest cs
    | none => evict_slots rest cs

/-- The filename lookup after the eviction branch has run, in order, for the
slots of `l` that pass its test. -/
def evict_names : List Nat → List ImageFile → List (String × Nat) → List (String × Nat)
  | [], _, d => d
  | i :: rest, cs, d =>
    match cs[i]? with
    | some p =>
      if evictable p then
        evict_names rest (cs.set i (evicted p))
          (match p.filename with
           | some fn => stb_sdict_remove d fn
           | none => d)
      else evict_names rest cs d
    | none => evict_names rest cs d

/-- The number of occupied slots of a cache whose priority is higher than
`v`. -/
def higher_count (cache : List ImageFile) (v : Int) : Int :=
  (cache.map (fun z => if occupied z = true ∧ z.lru > v then (1 : Int) else 0)).sum

/-- The resident bytes of the `MIN_CACHE` highest-priority occupied slots
alone: of the occupied slots that fewer than `MIN_CACHE` occupied slots
outrank. -/
def top_resident (L : Limits) (cache : List ImageFile) : Int :=
  (cache.map (fun z =>
    if occupied z = true ∧ higher_count cache z.lru < (L.MIN_CACHE : Int) then resident z
    else 0)).sum

/-- The filename lookup agrees with the slot table: no two occupied slots
have the same filename; every occupied slot has a filename, which the lookup
maps to that slot; and the lookup maps a name to a slot only when that slot
is occupied and holds that name. -/
def names_consistent (cache : List ImageFile) (file_cache : List (String × Nat)) : Prop :=
  (∀ (i j : Nat) (p q : ImageFile), cache[i]? = some p → cache[j]? = some q →
    p.status ≠ LOAD_unused → q.status ≠ LOAD_unused → p.filename = q.filename → i = j) ∧
  (∀ (i : Nat) (z : ImageFile), cache[i]? = some z → z.status ≠ LOAD_unused →
    ∃ k, z.filename = some k ∧ stb_sdict_get file_cache k = some i) ∧
  (∀ (k : String) (i : Nat), stb_sdict_get file_cache k = some i →
    ∃ z, cache[i]? = some z ∧ z.status ≠ LOAD_unused ∧ z.filename = some k)

/-! ## update_source and set_error -/

/-- The function `update_source` for the slot `q`; the call of
`size_to_current` writes display globals only. -/
def update_source (P : Platform) (s : State) (q : Nat) : Except Fault State :=
  match s.cache[q]? with
  | none => .error Fault.undefined_behaviour
  | some z =>
    let s1 : State :=
      { s with source := z.image, source_c := some q,
               best_lru := if z.lru > s.best_lru then z.lru else s.best_lru }
    match z.image with
    | some im => .ok { s1 with display := P.size_to_current im z.filename s1.display }
    | none => .ok s1

/-- The function `set_error` for the slot `z`; formatting or duplicating a
null string is undefined. -/
def set_error (s : State) (zi : Nat) : Except Fault State :=
  match s.cache[zi]? with
  | none => .error Fault.undefined_behaviour
  | some z =>
    match z.filename, z.error with
    | some fn, some err =>
      .ok { s with
        display :=
          { s.display with
            display_error := "File:\n" ++ fn ++ "\nError:\n" ++ err ++ "\n",
            cur := none, cur_filename := some fn },
        source_c := some zi, source := none }
    | _, _ => .error Fault.undefined_behaviour

/-! ## wrap and the file list -/

/-- The element `fileinfo[i]`; an index outside the array is undefined. -/
def fileinfo_at (fi : List FileInfo) (i : Int) : Except Fault FileInfo :=
  if 0 ≤ i then
    match fi[i.toNat]? with
    | some f => .ok f
    | none => .error Fault.undefined_behaviour
  else .error Fault.undefined_behaviour

/-- The assignment `fileinfo[i].lru = v`. -/
def set_lru (fi : List FileInfo) (i : Int) (v : Int) : Except Fault (List FileInfo) :=
  if 0 ≤ i then
    match fi[i.toNat]? with
    | some f => .ok (fi.set i.toNat { f with lru := v })
    | none => .error Fault.undefined_behaviour
  else .error Fault.undefined_behaviour

/-- The loop `while (z >= n) z = z - n` of `wrap`, with a bound on the number
of tests. -/
def wrap_loop (n : Int) : Nat → Int → Except Fault Int
  | 0, _ => .error Fault.diverges
  | fuel + 1, z => if z ≥ n then wrap_loop n fuel (z - n) else .ok z

/-- The function `wrap`, where `n = stb_arr_len(fileinfo)` (0 for a null
array). For `z >= 0` the loop makes at most `z + 1` tests when `n > 0` and
never ends when `n = 0`, so the bound `z + 1` is exhausted exactly when the C
loop does not terminate. -/
def wrap (fileinfo : Option (List FileInfo)) (z : Int) : Except Fault Int :=
  let n : Int :=
    match fileinfo with
    | some fi => (fi.length : Int)
    | none => 0
  if z < 0 then .ok (z + n) else wrap_loop n (z.toNat + 1) z

/-- The loop of `init_filelist` that looks for the current file: the last
index whose name `stricmp` finds equal to `filename`, else the start value. -/
def init_cur_loc (P : Platform) (filename : String) : List String → Nat → Int → Int
  | [], _, cur => cur
  | f :: rest, i, cur =>
    init_cur_loc P filename rest (i + 1) (if P.stricmp f filename = 0 then (i : Int) else cur)

/-- The function `init_filelist`. A failed directory read shows a message box
and goes on with an empty list. -/
def init_filelist (P : Platform) (s : State) : Except Fault State :=
  let r : Except Fault State :=
    match s.fileinfo with
    | some fi =>
      match fileinfo_at fi s.cur_loc with
      | .ok f => .ok { s with filename := some f.filename, fileinfo := none }
      | .error e => .error e
    | none => .ok s
  match r with
  | .error e => .error e
  | .ok s1 =>
    match P.stb_readdir_files_mask, s1.filename with
    | none, _ => .ok { s1 with fileinfo := some [], cur_loc := 0 }
    | some [], _ => .ok { s1 with fileinfo := some [], cur_loc := 0 }
    | some (_ :: _), none => .error Fault.undefined_behaviour
    | some (f :: fs), some fname =>
      .ok { s1 with
        fileinfo := some ((f :: fs).map (fun g => { filename := g, lru := 0 })),
        cur_loc := init_cur_loc P fname (f :: fs) 0 0 }

/-! ## queue_disk_command -/

/-- The search loop of `queue_disk_command` for the first unused slot of
`cache[i..]`; `none` when the loop ends with `i == MAX_CACHED_IMAGES`. -/
def find_unused : List ImageFile → Nat → Option Nat
  | [], _ => none
  | z :: rest, i => if z.status = LOAD_unused then some i else find_unused rest (i + 1)

/-- The slot after the assignments at the end of `queue_disk_command`:
`status = LOAD_inactive`, `image = NULL`, `bail = 0`, `lru` passed through. -/
def prepared (z : ImageFile) (lru : Int) : ImageFile :=
  { z with status := LOAD_inactive, image := none, bail := 0, lru := lru }

/-- The end of `queue_disk_command`: prepare the slot `zi` for loading and
append it to the command (there is room for four entries). -/
def queue_tail (s : State) (dc : DiskCommand) (zi : Nat) (fi : FileInfo) :
    Except Fault (State × DiskCommand) :=
  match s.cache[zi]? with
  | none => .error Fault.undefined_behaviour
  | some z =>
    if dc.num_files < 4 then
      .ok ({ s with cache := s.cache.set zi (prepared z fi.lru) },
           { files := dc.files ++ [zi] })
    else .error Fault.undefined_behaviour

/-- The function `queue_disk_command(dc, which, make_current)`. The call of
`stb_fatal` ends the run with `Fault.fatal`. -/
def queue_disk_command (P : Platform) (s : State) (dc : DiskCommand) (which : Int)
    (make_current : Bool) : Except Fault (State × DiskCommand) :=
  match s.fileinfo with
  | none => .error Fault.undefined_behaviour
  | some fis =>
    match fileinfo_at fis which with
    | .error e => .error e
    | .ok fi =>
      match stb_sdict_get s.file_cache fi.filename with
      | some zi =>
        match s.cache[zi]? with
        | none => .error Fault.undefined_behaviour
        | some z0 =>
          let z : ImageFile := { z0 with lru := fi.lru }
          let s1 : State := { s with cache := s.cache.set zi z }
          if MAIN_OWNS z = false then .ok (s1, dc)
          else if z.status = LOAD_reading_done then .ok (s1, dc)
          else if z.status = LOAD_available then
            if make_current then
              match update_source P s1 zi with
              | .ok s2 => .ok (s2, dc)
              | .error e => .error e
            else .ok (s1, dc)
          else if z.status ≠ LOAD_inactive then
            if make_current then
              match set_error s1 zi with
              | .ok s2 => .ok (s2, dc)
              | .error e => .error e
            else .ok (s1, dc)
          else queue_tail s1 dc zi fi
      | none =>
        match find_unused s.cache 0 with
        | none => .error Fault.fatal
        | some i =>
          match s.cache[i]? with
          | none => .error Fault.undefined_behaviour
          | some z0 =>
            let z : ImageFile :=
              { z0 with filename := some fi.filename, lru := 0, status := LOAD_inactive }
            let s1 : State :=
              { s with cache := s.cache.set i z,
                       file_cache := stb_sdict_add s.file_cache fi.filename i }
            queue_tail s1 dc i fi

/-! ## advance -/

/-- The first part of `advance(dir)`: build the file list if there is none,
move `cur_loc`, and stamp the priorities of the current file and its two
neighbours. -/
def advance_move (P : Platform) (s : State) (dir : Int) : Except Fault State :=
  match (if s.fileinfo.isNone then init_filelist P s else .ok s) with
  | .error e => .error e
  | .ok s0 =>
    match s0.fileinfo with
    | none => .error Fault.undefined_behaviour
    | some fi =>
      match wrap s0.fileinfo (s0.cur_loc + dir) with
      | .error e => .error e
      | .ok cur =>
        match wrap s0.fileinfo (cur - 1) with
        | .error e => .error e
        | .ok a =>
          match set_lru fi a s0.lru_stamp with
          | .error e => .error e
          | .ok fi1 =>
            match wrap s0.fileinfo (cur + 1) with
            | .error e => .error e
            | .ok b =>
              match set_lru fi1 b s0.lru_stamp with
              | .error e => .error e
              | .ok fi2 =>
                match set_lru fi2 cur (s0.lru_stamp + 1) with
                | .error e => .error e
                | .ok fi3 =>
                  .ok { s0 with cur_loc := cur, fileinfo := some fi3,
                                lru_stamp := s0.lru_stamp + 1 }

/-- The block of `advance(dir)` that fills the local command `dc`: the
current file, then for `dir != 0` the file in direction `dir` and the file
opposite to it; then `filename = fileinfo[cur_loc].filename`. -/
def advance_queue (P : Platform) (s : State) (dir : Int) :
    Except Fault (State × DiskCommand) :=
  match queue_disk_command P s { files := [] } s.cur_loc true with
  | .error e => .error e
  | .ok r1 =>
    let r : Except Fault (State × DiskCommand) :=
      if dir ≠ 0 then
        match wrap r1.1.fileinfo (r1.1.cur_loc + dir) with
        | .error e => .error e
        | .ok w1 =>
          match queue_disk_command P r1.1 r1.2 w1 false with
          | .error e => .error e
          | .ok r2 =>
            match wrap r2.1.fileinfo (r2.1.cur_loc - dir) with
            | .error e => .error e
            | .ok w2 => queue_disk_command P r2.1 r2.2 w2 false
      else .ok r1
    match r with
    | .error e => .error e
    | .ok r3 =>
      match r3.1.fileinfo with
      | none => .error Fault.undefined_behaviour
      | some fis =>
        match fileinfo_at fis r3.1.cur_loc with
        | .error e => .error e
        | .ok f => .ok ({ r3.1 with filename := some f.filename }, r3.2)

/-- The function `advance(dir)` up to the point where the local command `dc`
is complete; the result holds the state and `dc`. -/
def advance_command (P : Platform) (L : Limits) (s : State) (dir : Int) :
    Except Fault (State × DiskCommand) :=
  match advance_move P s dir with
  | .error e => .error e
  | .ok s0 =>
    match flush_cache P L s0 with
    | .error e => .error e
    | .ok s1 => advance_queue P s1 dir

/-- The last loop of `advance`: set `bail` on every slot whose priority is
below `lru_stamp - 1`. -/
def advance_bail (lru_stamp : Int) (cache : List ImageFile) : List ImageFile :=
  cache.map (fun z => if z.lru < lru_stamp - 1 then { z with bail := 1 } else z)

/-- The function `advance(dir)`: a non-empty `dc` is copied to `dc_shared`,
then the `bail` flags are set. -/
def advance (P : Platform) (L : Limits) (s : State) (dir : Int) : Except Fault State :=
  match advance_command P L s dir with
  | .error e => .error e
  | .ok r =>
    let s1 : State := if r.2.num_files ≠ 0 then { r.1 with dc_shared := r.2 } else r.1
    .ok { s1 with cache := advance_bail s1.lru_stamp s1.cache }

/-! ## The worker threads -/

/-- What a successful `stbi_load_from_memory(.., &x, &y, &n, BPP)` hands
back: the dimensions, the channel count `n` of the file, and the pixel
buffer (`BPP` bytes per pixel). -/
structure Decoded where
  x : Nat
  y : Nat
  n : Int
  data : List Nat
  deriving DecidableEq

/-- The macro `BPP`: bytes per pixel of a decoded image. -/
def BPP : Nat := 4

/-- The services the worker threads call but do not define: `stb_file` (the
bytes of the named file, `none` for a null result) and
`stbi_load_from_memory` on a buffer and its length (on failure the message of
`stbi_failure_reason`; on success a buffer of `x * y * BPP` bytes). -/
structure Loader where
  stb_file : String → Option (List Nat)
  stbi_load_from_memory : List Nat → Nat → Except String Decoded
  stbi_size : ∀ buf len dec, stbi_load_from_memory buf len = .ok dec →
    dec.data.length = dec.x * dec.y * BPP

/-- The claim loop of `diskload_task`, run under the lock:
`dc.files[i]->status = LOAD_reading` for every file of the command. -/
def diskload_claim : List Nat → List ImageFile → Except Fault (List ImageFile)
  | [], cs => .ok cs
  | i :: rest, cs =>
    match cs[i]? with
    | none => .error Fault.undefined_behaviour
    | some z => diskload_claim rest (cs.set i { z with status := LOAD_reading })

/-- The locked section of `diskload_task`: copy `dc_shared` to the local `dc`,
claim its files, and clear `dc_shared.num_files`. -/
def diskload_snapshot (s : State) : Except Fault (State × DiskCommand) :=
  match diskload_claim s.dc_shared.files s.cache with
  | .error e => .error e
  | .ok cs => .ok ({ s with cache := cs, dc_shared := { files := [] } }, s.dc_shared)

/-- The body of the file loop of `diskload_task` on the slot `dc.files[i]`:
give up when `bail` is set, else read the file and publish the bytes or the
error. Reading a null filename is undefined. -/
def diskload_slot (D : Loader) (z : ImageFile) : Except Fault ImageFile :=
  if z.bail ≠ 0 then .ok { z with status := LOAD_inactive }
  else
    match z.filename with
    | none => .error Fault.undefined_behaviour
    | some name =>
      match D.stb_file name with
      | none =>
        .ok { z with error := some "can't open", filedata := none, len := 0,
                     status := LOAD_error_reading }
      | some data =>
        .ok { z with error := none, filedata := some data, len := data.length,
                     status := LOAD_reading_done }

/-- One pass of the file loop of `diskload_task`, for the slot index `i`. -/
def diskload_file (D : Loader) (cs : List ImageFile) (i : Nat) :
    Except Fault (List ImageFile) :=
  match cs[i]? with
  | none => .error Fault.undefined_behaviour
  | some z =>
    match diskload_slot D z with
    | .error e => .error e
    | .ok z1 => .ok (cs.set i z1)

/-- The file loop of `diskload_task` over `dc.files[0..num_files)`. -/
def diskload_files (D : Loader) : List Nat → List ImageFile → Except Fault (List ImageFile)
  | [], cs => .ok cs
  | i :: rest, cs =>
    match diskload_file D cs i with
    | .error e => .error e
    | .ok cs1 => diskload_files D rest cs1

/-- One pass of the loop of `diskload_task` after the semaphore wait, with no
other thread writing in between: the locked section, then the file loop. -/
def diskload_task (D : Loader) (s : State) : Except Fault State :=
  match diskload_snapshot s with
  | .error e => .error e
  | .ok r =>
    match diskload_files D r.2.files r.1.cache with
    | .error e => .error e
    | .ok cs => .ok { r.1 with cache := cs }

/-- The table `alpha_background[r][c]`. -/
def alpha_background (r c : Nat) : Int :=
  match r, c with
  | 0, 0 => 200
  | 0, 1 => 40
  | 0, 2 => 200
  | 1, 0 => 150
  | 1, 1 => 30
  | 1, 2 => 150
  | _, _ => 0

/-- The update `p[c] += ((bg - (int) p[c]) * a) >> 8` on an `unsigned char`. -/
def blend (p : Nat) (bg a : Int) : Nat :=
  (((p : Int) + (((bg - (p : Int)) * a) >>> (8 : Nat))) % 256).toNat

/-- The body of the inner loop of `make_image` for pixel `(i, j)` at buffer
offset `k`: swap bytes 0 and 2, then for a four-channel source blend the three
colour bytes with the checkerboard background. An access past the buffer is
undefined. -/
def make_image_pixel (image_n : Int) (i j k : Nat) (d : List Nat) : Except Fault (List Nat) :=
  match d[k]?, d[k + 2]? with
  | some t, some u =>
    let d1 := (d.set k u).set (k + 2) t
    if image_n = 4 then
      match d1[k + 1]?, d1[k + 3]? with
      | some g, some al =>
        let a : Int := 255 - (al : Int)
        let r : Nat := if (i ^^^ j) &&& 8 ≠ 0 then 0 else 1
        .ok (((d1.set k (blend u (alpha_background r 2) a)).set (k + 1)
          (blend g (alpha_background r 1) a)).set (k + 2) (blend t (alpha_background r 0) a))
      | _, _ => .error Fault.undefined_behaviour
    else .ok d1
  | _, _ => .error Fault.undefined_behaviour

/-- The inner loop of `make_image` over the remaining `m` columns of row `j`,
from column `i` and offset `k`; it returns the offset reached and the
buffer. -/
def make_image_cols (image_n : Int) (j : Nat) :
    Nat → Nat → Nat → List Nat → Except Fault (Nat × List Nat)
  | 0, _, k, d => .ok (k, d)
  | m + 1, i, k, d =>
    match make_image_pixel image_n i j k d with
    | .error e => .error e
    | .ok d1 => make_image_cols image_n j m (i + 1) (k + BPP) d1

/-- The outer loop of `make_image` over the remaining `m` rows, from row `j`
and offset `k`. -/
def make_image_rows (image_n : Int) (image_x : Nat) :
    Nat → Nat → Nat → List Nat → Except Fault (List Nat)
  | 0, _, _, d => .ok d
  | m + 1, j, k, d =>
    match make_image_cols image_n j image_x 0 k d with
    | .error e => .error e
    | .ok r => make_image_rows image_n image_x m (j + 1) r.1 r.2

/-- The function `make_image(z, image_x, image_y, image_data, image_n)`; the
result is the `Image` written to `*z`, whose pixel buffer is `image_data`
converted in place. -/
def make_image (image_x image_y : Nat) (image_data : List Nat) (image_n : Int) :
    Except Fault Image :=
  match make_image_rows image_n image_x image_y 0 0 image_data with
  | .error e => .error e
  | .ok d =>
    .ok { pixels := d, x := image_x, y := image_y, stride := image_x * BPP, frame := 0,
          had_alpha := if image_n = 4 then 1 else 0 }

/-- The decode branch of `decode_task` for the claimed slot `f`: decode the
raw bytes, drop them, and publish the image or the error message. Decoding a
null buffer is undefined. -/
def decode_file (D : Loader) (cs : List ImageFile) (f : Nat) : Except Fault (List ImageFile) :=
  match cs[f]? with
  | none => .error Fault.undefined_behaviour
  | some z =>
    match z.filedata with
    | none => .error Fault.undefined_behaviour
    | some buf =>
      match D.stbi_load_from_memory buf z.len with
      | .error reason =>
        .ok (cs.set f { z with filedata := none, error := some reason,
                               status := LOAD_error_reading })
      | .ok dec =>
        match make_image dec.x dec.y dec.data dec.n with
        | .error e => .error e
        | .ok im =>
          .ok (cs.set f { z with filedata := none, image := some im,
                                 status := LOAD_available })

/-- One pass of the loop of `decode_task`: choose a slot; with none the task
blocks on `decode_queue` and the cache is as `decoder_choose` left it, else
the chosen slot is decoded. -/
def decode_task (D : Loader) (env : Nat → List ImageFile → List ImageFile) (fuel : Nat)
    (cs : List ImageFile) : Except Fault (List ImageFile) :=
  match decoder_choose env fuel cs with
  | .error e => .error e
  | .ok r =>
    match r.1 with
    | none => .ok r.2
    | some f => decode_file D r.2 f

/-! ## The notification handlers of MainWndProc -/

/-- The scan of the case `WM_APP_LOAD_ERROR` / `WM_APP_DECODE_ERROR` over
`cache[i..]`, carrying the locals `best` and `best_lru`. -/
def error_scan : List ImageFile → Nat → Option Nat × Int → Option Nat × Int
  | [], _, acc => acc
  | z :: rest, i, acc =>
    if z.lru > acc.2 ∧ MAIN_OWNS z = true ∧ z.status.code ≥ LOAD_error_reading.code then
      error_scan rest (i + 1) (some i, z.lru)
    else error_scan rest (i + 1) acc

/-- The case `WM_APP_LOAD_ERROR` / `WM_APP_DECODE_ERROR` of `MainWndProc`:
`best = NULL`, `best_lru = 0`, the scan, then `set_error(best)` when `best`
holds an error. `best` is dereferenced without a null test. -/
def on_error (s : State) : Except Fault State :=
  match (error_scan s.cache 0 (none, 0)).1 with
  | none => .error Fault.undefined_behaviour
  | some b =>
    match s.cache[b]? with
    | none => .error Fault.undefined_behaviour
    | some z =>
      if z.status = LOAD_error_reading ∨ z.status = LOAD_error_decoding then set_error s b
      else .ok s

/-- The scan of the case `WM_APP_DECODED` over `fileinfo[i..]`, carrying the
local `best` and the global `best_lru`. -/
def decoded_scan (cache : List ImageFile) (file_cache : List (String × Nat)) :
    List FileInfo → Option Nat × Int → Except Fault (Option Nat × Int)
  | [], acc => .ok acc
  | f :: rest, acc =>
    if f.lru > acc.2 then
      match stb_sdict_get file_cache f.filename with
      | none => decoded_scan cache file_cache rest acc
      | some zi =>
        match cache[zi]? with
        | none => .error Fault.undefined_behaviour
        | some z =>
          if z.status = LOAD_available then decoded_scan cache file_cache rest (some zi, f.lru)
          else decoded_scan cache file_cache rest acc
    else decoded_scan cache file_cache rest acc

/-- The case `WM_APP_DECODED` of `MainWndProc`: the scan (a null `fileinfo`
has length 0), `update_source(best)` when a best slot was found, then
`flush_cache`. -/
def on_decoded (P : Platform) (L : Limits) (s : State) : Except Fault State :=
  match decoded_scan s.cache s.file_cache (s.fileinfo.getD []) (none, s.best_lru) with
  | .error e => .error e
  | .ok r =>
    let s1 : State := { s with best_lru := r.2 }
    let u : Except Fault State :=
      match r.1 with
      | some b => update_source P s1 b
      | none => .ok s1
    match u with
    | .error e => .error e
    | .ok s2 => flush_cache P L s2

/-! ## The order of writes in the worker threads -/

/-- One step of a worker on the slot it owns, in program order: a write to a
field of the slot, a call of `barrier()`, or the notification of another
thread (`wake` or `stb_sem_release`). -/
inductive SlotEvent
  | set_error (v : Option String)
  | set_filedata (v : Option (List Nat))
  | set_len (v : Nat)
  | set_image (v : Option Image)
  | set_status (v : LoadStatus)
  | barrier
  | notify
  deriving DecidableEq

/-- The slot after one step. -/
def apply_event (e : SlotEvent) (z : ImageFile) : ImageFile :=
  match e with
  | .set_error v => { z with error := v }
  | .set_filedata v => { z with filedata := v }
  | .set_len v => { z with len := v }
  | .set_image v => { z with image := v }
  | .set_status v => { z with status := v }
  | .barrier => z
  | .notify => z

/-- The slot after a sequence of steps. -/
def apply_events : List SlotEvent → ImageFile → ImageFile
  | [], z => z
  | e :: rest, z => apply_events rest (apply_event e z)

/-- The statements of the body of the file loop of `diskload_task` on one
slot, in source order. -/
def diskload_slot_events (D : Loader) (z : ImageFile) : Except Fault (List SlotEvent) :=
  if z.bail ≠ 0 then .ok [.set_status LOAD_inactive]
  else
    match z.filename with
    | none => .error Fault.undefined_behaviour
    | some name =>
      match D.stb_file name with
      | none =>
        .ok [.set_error (some "can't open"), .set_filedata none, .set_len 0, .barrier,
          .set_status LOAD_error_reading, .notify]
      | some data =>
        .ok [.set_error none, .set_filedata (some data), .set_len data.length, .barrier,
          .set_status LOAD_reading_done, .notify]

/-- The statements of the decode branch of `decode_task` on the claimed slot,
in source order. The image is allocated and filled by `make_image` before the
barrier; the two are one step here. -/
def decode_slot_events (D : Loader) (z : ImageFile) : Except Fault (List SlotEvent) :=
  match z.filedata with
  | none => .error Fault.undefined_behaviour
  | some buf =>
    match D.stbi_load_from_memory buf z.len with
    | .error reason =>
      .ok [.set_filedata none, .set_error (some reason), .barrier,
        .set_status LOAD_error_reading, .notify]
    | .ok dec =>
      match make_image dec.x dec.y dec.data dec.n with
      | .error e => .error e
      | .ok im =>
        .ok [.set_filedata none, .set_image (some im), .barrier,
          .set_status LOAD_available, .notify]

/-- A step writes a payload field of the slot. -/
def SlotEvent.is_payload (e : SlotEvent) : Bool :=
  match e with
  | .set_error _ => true
  | .set_filedata _ => true
  | .set_len _ => true
  | .set_image _ => true
  | _ => false

/-! ## The row ranges of the resize subtasks -/

/-- The loop of `image_resize_bilinear` that fills `q[i].j0` and `q[i].j1`
for the remaining `m` subtasks from subtask `i`, with the locals `j0` and
`j1`; the last statement of the body is `j1 = j0`. The result lists the
pairs `(q[i].j0, q[i].j1)`. -/
def bilinear_ranges_from (dest_y resize_threads : Nat) :
    Nat → Nat → Nat × Nat → List (Nat × Nat)
  | 0, _, _ => []
  | m + 1, i, (j0, _) =>
    let j1 := dest_y * (i + 1) / resize_threads
    (j0, j1) :: bilinear_ranges_from dest_y resize_threads m (i + 1) (j0, j0)

/-- The row ranges `[j0, j1)` that `image_resize_bilinear` hands to its
`resize_threads` subtasks (`j0 = 0` before the loop). -/
def bilinear_ranges (dest_y resize_threads : Nat) : List (Nat × Nat) :=
  bilinear_ranges_from dest_y resize_threads resize_threads 0 (0, 0)

/-- The range `[k_start, k_end)` of `cubic_interp_1d_x_work(n)` for an output
of `out_y` rows. -/
def cubic_x_range (out_y resize_threads n : Nat) : Nat × Nat :=
  (out_y * n / resize_threads, out_y * (n + 1) / resize_threads)

/-- The range `[j, j_end)` of `cubic_interp_1d_y_work(n)` for an output of
`out_h` rows. -/
def cubic_y_range (out_h resize_threads n : Nat) : Nat × Nat :=
  (out_h * n / resize_threads, out_h * (n + 1) / resize_threads)

/-- The rows `j` with `j0 <= j < j1` that the loop of a subtask visits. -/
def range_rows (r : Nat × Nat) : List Nat := (List.range (r.2 - r.1)).map (fun j => r.1 + j)

/-! ## The resize steps of the main loop -/

/-- The macro `FRAME`. -/
def FRAME : Int := 3

/-- The struct `pending_resize`; `image_c` points into `cache`. -/
structure PendingResize where
  size : queued_size
  image : Option Image
  filename : Option String
  image_c : Option Nat
  deriving DecidableEq

/-- The globals the resize steps of the main loop read or write: those of
`State` (the cache, `source`, `source_c`, and in `display` the globals `cur`,
`cur_filename`, `display_error`, `qs`), `pending_resize` and `show_frame`. -/
structure Loop where
  st : State
  pending_resize : PendingResize
  show_frame : Bool
  deriving DecidableEq

/-- The function `queue_resize(w, h, src_c, immediate)`. `dest_ok` tells
whether `bmp_alloc` returns the destination bitmap; it returns `NULL` when
`malloc` fails, and `queue_resize` then returns at once (`if (!dest) return;`)
without touching the slot or `pending_resize`. `resizer w h src` is the image
`work_resize` returns; a non-immediate call leaves that work to the queue.
`src_c->image` is read before the null test of `src_c`, and `src->x` before
the allocation. -/
def queue_resize (resizer : Int → Int → Image → Image) (dest_ok : Bool) (lp : Loop) (w h : Int)
    (src_c : Option Nat) (immediate : Bool) : Except Fault Loop :=
  match src_c with
  | none => .error Fault.undefined_behaviour
  | some q =>
    match lp.st.cache[q]? with
    | none => .error Fault.undefined_behaviour
    | some z =>
      match z.image with
      | none => .error Fault.undefined_behaviour
      | some src =>
        if dest_ok = false then .ok lp
        else if immediate then
          .ok { lp with pending_resize := { lp.pending_resize with
                  image := some (resizer w h src) } }
        else
          match z.filename with
          | none => .error Fault.undefined_behaviour
          | some fn =>
            .ok { lp with
              st := { lp.st with cache := lp.st.cache.set q { z with status := LOAD_resizing } },
              pending_resize := { lp.pending_resize with
                image := none, image_c := some q, filename := some fn } }

/-- The function `cur_is_current`. -/
def cur_is_current (s : State) : Except Fault Bool :=
  match s.display.cur_filename with
  | none => .ok false
  | some cf =>
    match s.source_c with
    | none => .ok false
    | some q =>
      match s.cache[q]? with
      | none => .error Fault.undefined_behaviour
      | some z =>
        match z.filename with
        | none => .ok false
        | some fn => .ok (decide (cf = fn))

/-- The test of the main loop that the displayed image `cur` already fits the
request `qs`: `!cur || (qs.w == cur->x && qs.h >= cur->y) || (qs.h == cur->y
&& qs.w >= cur->x)`. -/
def fits_current (cur : Option Image) (qs : queued_size) : Bool :=
  match cur with
  | none => true
  | some c =>
    decide ((qs.w = (c.x : Int) ∧ qs.h ≥ (c.y : Int)) ∨ (qs.h = (c.y : Int) ∧ qs.w ≥ (c.x : Int)))

/-- The first block of the main loop of `WinMain`: start a resize when one is
requested (`qs.w != 0`) and none is pending (`pending_resize.size.w == 0`).
`pending_resize.size = qs` is written before the call of `queue_resize`;
`dest_ok` is the outcome of the allocation in that call. -/
def start_resize (resizer : Int → Int → Image → Image) (dest_ok : Bool) (lp : Loop) :
    Except Fault Loop :=
  let qs := lp.st.display.qs
  if qs.w ≠ 0 ∧ lp.pending_resize.size.w = 0 then
    let r : Except Fault Loop :=
      if lp.st.source.isSome then
        match cur_is_current lp.st with
        | .error e => .error e
        | .ok cc =>
          if cc && fits_current lp.st.display.cur qs then .ok lp
          else
            queue_resize resizer dest_ok
              { lp with pending_resize := { lp.pending_resize with size := qs } }
              qs.w qs.h lp.st.source_c false
      else .ok lp
    match r with
    | .error e => .error e
    | .ok l1 =>
      .ok { l1 with st := { l1.st with display := { l1.st.display with
              qs := { l1.st.display.qs with w := 0 } } } }
  else .ok lp

/-- The second block of the main loop, run when no message waits: with a
resize pending and its image delivered, install the image, give the slot back
(`status = LOAD_available`) and clear `pending_resize.size.w`; with the image
not yet delivered, sleep. -/
def complete_resize (lp : Loop) : Except Fault Loop :=
  if lp.pending_resize.size.w ≠ 0 then
    match lp.pending_resize.image with
    | none => .ok lp
    | some im =>
      match lp.pending_resize.image_c with
      | none => .error Fault.undefined_behaviour
      | some q =>
        match lp.st.cache[q]? with
        | none => .error Fault.undefined_behaviour
        | some z =>
          let sz := lp.pending_resize.size
          let sz1 : queued_size :=
            if lp.show_frame then sz
            else { x := sz.x + FRAME, y := sz.y + FRAME, w := sz.w - FRAME * 2,
                   h := sz.h - FRAME * 2 }
          .ok { lp with
            st := { lp.st with
              cache := lp.st.cache.set q { z with status := LOAD_available },
              display := { lp.st.display with
                cur := some im, display_error := "",
                cur_filename := lp.pending_resize.filename } },
            pending_resize := { lp.pending_resize with
              filename := none, size := { sz1 with w := 0 } } }
  else .ok lp

/-- What happens between two passes of the main loop, as far as the resize
steps are concerned: the first block runs (`dest_ok` being the outcome of the
allocation, should the block reach `queue_resize`), the second block runs,
the work queue stores the image of the resize it was given in
`pending_resize.image`, or a window message stores a resize request in `qs`. -/
inductive LoopEvent
  | start (dest_ok : Bool)
  | complete
  | delivered (im : Image)
  | request (q : queued_size)
  deriving DecidableEq

/-- One event of the main loop. The work queue delivers an image only for a
resize that was handed to it. -/
def loop_step (resizer : Int → Int → Image → Image) (e : LoopEvent) (lp : Loop) :
    Except Fault Loop :=
  match e with
  | .start dest_ok => start_resize resizer dest_ok lp
  | .complete => complete_resize lp
  | .delivered im =>
    if lp.pending_resize.size.w ≠ 0 then
      .ok { lp with pending_resize := { lp.pending_resize with image := some im } }
    else .ok lp
  | .request q => .ok { lp with st := { lp.st with display := { lp.st.display with qs := q } } }

/-- A sequence of events of the main loop. -/
def loop_run (resizer : Int → Int → Image → Image) : List LoopEvent → Loop → Except Fault Loop
  | [], lp => .ok lp
  | e :: rest, lp =>
    match loop_step resizer e lp with
    | .error e => .error e
    | .ok l1 => loop_run resizer rest l1

/-- The resize bookkeeping agrees with the slot table: with no resize pending
no slot has status resizing; with a resize pending the slot `image_c` has
status resizing and no other slot has. -/
def resize_consistent (lp : Loop) : Prop :=
  (lp.pending_resize.size.w = 0 → ∀ z ∈ lp.st.cache, z.status ≠ LOAD_resizing) ∧
  (lp.pending_resize.size.w ≠ 0 →
    ∃ q z, lp.pending_resize.image_c = some q ∧ lp.st.cache[q]? = some z ∧
      z.status = LOAD_resizing ∧
      ∀ (j : Nat) (w : ImageFile), lp.st.cache[j]? = some w → w.status = LOAD_resizing → j = q)

/-- Every slot with status resizing is the slot of the pending resize. -/
def resize_owned (lp : Loop) : Prop :=
  ∀ (j : Nat) (w : ImageFile), lp.st.cache[j]? = some w → w.status = LOAD_resizing →
    lp.pending_resize.size.w ≠ 0 ∧ lp.pending_resize.image_c = some j

/-! ## A concrete platform and concrete states -/

deriving instance DecidableEq for Except

/-- A platform whose `qsort` is insertion sort, whose `stricmp` compares the
lower-cased names, whose directory read fails, and whose `size_to_current`
shows the image at its own size. -/
def demo_platform : Platform where
  qsort cmp l := l.insertionSort (fun a b => cmp a b ≤ 0)
  qsort_perm cmp l := List.perm_insertionSort _ l
  qsort_sorted cmp l htot htrans := by
    haveI : IsTotal Nat (fun a b => cmp a b ≤ 0) := ⟨htot⟩
    haveI : IsTrans Nat (fun a b => cmp a b ≤ 0) := ⟨htrans⟩
    exact List.sorted_insertionSort _ l
  stricmp a b := if a.toLower = b.toLower then 0 else 1
  stb_readdir_files_mask := none
  size_to_current im fn d := { d with cur := some im, cur_filename := fn, display_error := "" }

/-- A decoded image of one pixel (4 bytes). -/
def pixel_image : Image :=
  { x := 1, y := 1, stride := 4, frame := 0, pixels := [0, 0, 0, 255], had_alpha := 0 }

/-- An available slot holding `pixel_image`. -/
def available_slot (name : String) (lru : Int) : ImageFile :=
  { filename := some name, filedata := none, len := 0, image := some pixel_image,
    error := none, status := LOAD_available, bail := 0, lru := lru }

/-- A reading_done slot holding three raw bytes. -/
def reading_done_slot (name : String) (lru : Int) : ImageFile :=
  { filename := some name, filedata := some [1, 2, 3], len := 3, image := none,
    error := none, status := LOAD_reading_done, bail := 0, lru := lru }

/-- A slot claimed by the disk reader. -/
def reading_slot (name : String) (lru : Int) : ImageFile :=
  { filename := some name, filedata := none, len := 0, image := none,
    error := none, status := LOAD_reading, bail := 0, lru := lru }

/-- The cache array of the source (200 entries) with the given slots first
and zero-initialised entries after them. -/
def cache_with (slots : List ImageFile) : List ImageFile :=
  slots ++ List.replicate (200 - slots.length) zero_slot

/-- Display globals with nothing shown. -/
def blank_display : Display :=
  { cur := none, cur_filename := none, display_error := "",
    qs := { x := 0, y := 0, w := 0, h := 0 } }

/-- The three reading_done slots of the spec, priorities 5, 9, 3. -/
def three_ready : List ImageFile :=
  cache_with [reading_done_slot "a.png" 5, reading_done_slot "b.png" 9,
    reading_done_slot "c.png" 3]

/-- A cache whose only occupied slot is reading_done with priority 0. -/
def ready_at_zero : List ImageFile := cache_with [reading_done_slot "a.png" 0]

/-- Four files cached and decoded, `a.png` shown (priority 7), `b.png` seen
longest ago (priority 2), under a byte budget of 0 (a stored cache size of
0 MB); `b.png` was then chosen in the open-file dialog, so a fresh file list
(priorities 0) has `cur_loc` at `b.png` and `advance(0)` is about to run. -/
def reopen_state : State :=
  { cache := cache_with [available_slot "a.png" 7, available_slot "b.png" 2,
      available_slot "c.png" 6, available_slot "d.png" 5],
    file_cache := [("a.png", 0), ("b.png", 1), ("c.png", 2), ("d.png", 3)],
    fileinfo := some [⟨"a.png", 0⟩, ⟨"b.png", 0⟩, ⟨"c.png", 0⟩, ⟨"d.png", 0⟩],
    cur_loc := 1, lru_stamp := 7, max_cache_bytes := 0,
    dc_shared := { files := [] }, source_c := some 0, source := some pixel_image,
    best_lru := 7, filename := some "b.png", display := blank_display }

/-- The state `reopen_state` after `flush_cache`: the slot of `b.png` evicted. -/
def reopen_flushed : State :=
  { reopen_state with
    cache := cache_with [available_slot "a.png" 7, evicted (available_slot "b.png" 2),
      available_slot "c.png" 6, available_slot "d.png" 5],
    file_cache := [("a.png", 0), ("c.png", 2), ("d.png", 3)] }

/-- Four files cached and decoded under the default budget of 256 MB,
`a.png` shown. -/
def browse_state : State :=
  { cache := cache_with [available_slot "a.png" 7, available_slot "b.png" 6,
      available_slot "c.png" 5, available_slot "d.png" 6],
    file_cache := [("a.png", 0), ("b.png", 1), ("c.png", 2), ("d.png", 3)],
    fileinfo := some [⟨"a.png", 7⟩, ⟨"b.png", 6⟩, ⟨"c.png", 5⟩, ⟨"d.png", 6⟩],
    cur_loc := 0, lru_stamp := 7, max_cache_bytes := 268435456,
    dc_shared := { files := [] }, source_c := some 0, source := some pixel_image,
    best_lru := 7, filename := some "a.png", display := blank_display }

/-- The state `browse_state` after the first part of `advance(1)`. -/
def browse_moved : State :=
  { browse_state with
    cur_loc := 1, lru_stamp := 8,
    fileinfo := some [⟨"a.png", 7⟩, ⟨"b.png", 8⟩, ⟨"c.png", 7⟩, ⟨"d.png", 6⟩] }

/-- The result of the queue block of `advance(1)` from `browse_moved`. -/
def browse_queued : State × DiskCommand :=
  match advance_queue demo_platform browse_moved 1 with
  | .ok r => r
  | .error _ => (browse_moved, { files := [] })

/-- A cache in which 198 slots are claimed by the disk reader. -/
def busy_state : State :=
  { browse_state with
    cache := List.replicate 198 (reading_slot "x.png" 1) ++ List.replicate 2 zero_slot,
    file_cache := [("x.png", 0)] }

/-- The limits of the instance in the spec: capacity 5, `MIN_RESERVED` 2. -/
def spec_limits : Limits := { MAX_CACHED_IMAGES := 5, MIN_CACHE := 2 }

/-- The instance of the spec: five occupied slots with priorities 1 to 5 and
a byte budget of 7 bytes, which the two images of highest priority (8 bytes)
exceed. -/
def spec_five : State :=
  { browse_state with
    cache := [available_slot "p1.png" 1, available_slot "p2.png" 2, available_slot "p3.png" 3,
      available_slot "p4.png" 4, available_slot "p5.png" 5],
    file_cache := [("p1.png", 0), ("p2.png", 1), ("p3.png", 2), ("p4.png", 3), ("p5.png", 4)],
    max_cache_bytes := 7 }

/-- The result of requesting `b.png` (index 1, `make_current` set) in
`browse_moved` with an empty command. -/
def browse_requested : State × DiskCommand :=
  match queue_disk_command demo_platform browse_moved { files := [] } 1 true with
  | .ok r => r
  | .error _ => (browse_moved, { files := [] })

/-- A loader for which `a.png` and `c.png` can be read and `missing.png`
cannot, and which decodes the three bytes `[1, 2, 3]` to one half-transparent
pixel and rejects any other buffer. -/
def demo_loader : Loader where
  stb_file name :=
    if name = "a.png" then some [1, 2, 3]
    else if name = "c.png" then some [9, 9]
    else none
  stbi_load_from_memory buf _ :=
    if buf = [1, 2, 3] then .ok { x := 1, y := 1, n := 4, data := [10, 20, 30, 127] }
    else .error "unknown image type"
  stbi_size buf len dec h := by
    simp only at h
    by_cases hb : buf = [1, 2, 3]
    · rw [if_pos hb] at h
      cases h
      rfl
    · rw [if_neg hb] at h
      cases h

/-- A slot allocated by `queue_disk_command` and not yet read. -/
def inactive_slot (name : String) (lru : Int) (bail : Int) : ImageFile :=
  { filename := some name, filedata := none, len := 0, image := none,
    error := none, status := LOAD_inactive, bail := bail, lru := lru }

/-- A slot claimed by the decoder, holding the raw bytes `buf`. -/
def decoding_slot (name : String) (buf : List Nat) (lru : Int) : ImageFile :=
  { filename := some name, filedata := some buf, len := buf.length, image := none,
    error := none, status := LOAD_decoding, bail := 0, lru := lru }

/-- The instance of the spec: the directory `a.png`, `b.png`, `c.png`, the
current index 0, nothing cached, the counter at its initial value 1. -/
def spec_abc : State :=
  { cache := cache_with [],
    file_cache := [],
    fileinfo := some [⟨"a.png", 0⟩, ⟨"b.png", 0⟩, ⟨"c.png", 0⟩],
    cur_loc := 0, lru_stamp := 1, max_cache_bytes := 268435456,
    dc_shared := { files := [] }, source_c := none, source := none,
    best_lru := 0, filename := some "a.png", display := blank_display }

/-- The state `browse_moved` with a fifth file `e.png` in the directory that
has no slot yet. -/
def browse_more : State :=
  { browse_moved with
    fileinfo := some [⟨"a.png", 7⟩, ⟨"b.png", 8⟩, ⟨"c.png", 7⟩, ⟨"d.png", 6⟩,
      ⟨"e.png", 3⟩] }

/-- A submitted command of three slots: `a.png` (readable), `missing.png`
(not readable) and `c.png`, whose `bail` flag is set. -/
def pending_state : State :=
  { spec_abc with
    cache := cache_with [inactive_slot "a.png" 8 0, inactive_slot "missing.png" 7 0,
      inactive_slot "c.png" 2 1],
    file_cache := [("c.png", 2), ("missing.png", 1), ("a.png", 0)],
    dc_shared := { files := [0, 1, 2] } }

/-- A small cache in which the decoder has claimed slot 0 (decodable bytes)
and slot 1 (bytes that are not an image). -/
def decoding_cache : List ImageFile :=
  [decoding_slot "a.png" [1, 2, 3] 8, decoding_slot "bad.png" [7, 7] 7,
    reading_done_slot "c.png" 3]

/-- The state after the disk reader has processed the command of
`pending_state`: `a.png` read, `missing.png` failed, `c.png` given up. -/
def pending_done : State :=
  { pending_state with
    cache := cache_with [reading_done_slot "a.png" 8,
      { inactive_slot "missing.png" 7 0 with error := some "can't open",
                                              status := LOAD_error_reading },
      inactive_slot "c.png" 2 1],
    dc_shared := { files := [] } }

/-- Two slots claimed by the disk reader; the `bail` flag of the first is
set. -/
def claimed_cache : List ImageFile :=
  [{ reading_slot "c.png" 2 with bail := 1 }, reading_slot "a.png" 8]

/-- Two slots read from disk and waiting for the decoder: `a.png` with
priority 9 and `b.png` with priority 5. -/
def two_ready : List ImageFile :=
  [reading_done_slot "a.png" 9, reading_done_slot "b.png" 5]

/-- The main thread evicts slot 0 between the first scan of `decoder_choose`
and its locked re-check, and does nothing afterwards. -/
def evict_first : Nat → List ImageFile → List ImageFile :=
  fun k cs =>
    if k = 0 then
      match cs[0]? with
      | some z => cs.set 0 (evicted z)
      | none => cs
    else cs

/-- The directory holds two files. `a.png` is decoded and shown (slot 0);
`b.png` was queued by the last `advance(1)` and its slot 1 is still inactive,
the disk reader not having taken the command `[1]` yet; `cur_loc` is at
`b.png`. -/
def two_files_state : State :=
  { cache := cache_with [available_slot "a.png" 1, inactive_slot "b.png" 2 0],
    file_cache := [("b.png", 1), ("a.png", 0)],
    fileinfo := some [⟨"a.png", 1⟩, ⟨"b.png", 2⟩],
    cur_loc := 1, lru_stamp := 2, max_cache_bytes := 268435456,
    dc_shared := { files := [1] }, source_c := some 0, source := some pixel_image,
    best_lru := 1, filename := some "b.png", display := blank_display }

/-- The user has moved on quickly: `b.png` (slot 0, priority 5) is still the
image shown, while the newer files `c.png` and `d.png` are read and wait for
the decoder and `e.png` is being read. The byte budget is 8 bytes; the
resident bytes are 4 + 3 + 3. -/
def lagging_state : State :=
  { cache := cache_with [available_slot "b.png" 5, reading_done_slot "c.png" 7,
      reading_done_slot "d.png" 8, reading_slot "e.png" 7],
    file_cache := [("e.png", 3), ("d.png", 2), ("c.png", 1), ("b.png", 0)],
    fileinfo := some [⟨"b.png", 5⟩, ⟨"c.png", 7⟩, ⟨"d.png", 8⟩, ⟨"e.png", 7⟩],
    cur_loc := 2, lru_stamp := 8, max_cache_bytes := 8,
    dc_shared := { files := [] }, source_c := some 0, source := some pixel_image,
    best_lru := 5, filename := some "d.png", display := blank_display }

/-- An unconsumed command `[1]` for the inactive slot of `x.png` (priority 5),
while `b.png` (slot 0, priority 9, 4 bytes) is shown, two more files are being
read, and the byte budget is 3 bytes. -/
def queued_state : State :=
  { cache := cache_with [available_slot "b.png" 9, inactive_slot "x.png" 5 0,
      reading_slot "y.png" 8, reading_slot "z.png" 8],
    file_cache := [("z.png", 3), ("y.png", 2), ("x.png", 1), ("b.png", 0)],
    fileinfo := some [⟨"b.png", 9⟩, ⟨"x.png", 5⟩, ⟨"y.png", 8⟩, ⟨"z.png", 8⟩],
    cur_loc := 0, lru_stamp := 9, max_cache_bytes := 3,
    dc_shared := { files := [1] }, source_c := some 0, source := some pixel_image,
    best_lru := 9, filename := some "b.png", display := blank_display }

/-- A slot whose file could not be read. -/
def error_slot (name : String) (lru : Int) : ImageFile :=
  { filename := some name, filedata := none, len := 0, image := none,
    error := some "can't open", status := LOAD_error_reading, bail := 0, lru := lru }

/-- The current file `b.png` (priority 8) is still being read; the prefetch
of its neighbour `c.png` (priority 7) has failed; `a.png` (priority 7) is the
image shown. -/
def loading_state : State :=
  { cache := [reading_slot "b.png" 8, error_slot "c.png" 7, available_slot "a.png" 7],
    file_cache := [("a.png", 2), ("c.png", 1), ("b.png", 0)],
    fileinfo := some [⟨"a.png", 7⟩, ⟨"b.png", 8⟩, ⟨"c.png", 7⟩],
    cur_loc := 1, lru_stamp := 8, max_cache_bytes := 268435456,
    dc_shared := { files := [] }, source_c := some 2, source := some pixel_image,
    best_lru := 7, filename := some "b.png",
    display := { blank_display with cur := some pixel_image, cur_filename := some "a.png" } }

/-- The state `loading_state` once `b.png` has been read and decoded. -/
def loaded_state : State :=
  { loading_state with
    cache := [available_slot "b.png" 8, error_slot "c.png" 7, available_slot "a.png" 7] }

/-- A stand-in for the resampling routine: it hands back the source image. -/
def demo_resizer (_w _h : Int) (src : Image) : Image := src

/-- The main loop over `loaded_state`, showing `a.png`, with nothing requested
and no resize pending. -/
def idle_loop : Loop :=
  { st := loaded_state,
    pending_resize := { size := { x := 0, y := 0, w := 0, h := 0 }, image := none,
                        filename := none, image_c := none },
    show_frame := false }

/-- A window request for a 10 by 10 client area. -/
def demo_request : queued_size := { x := 0, y := 0, w := 10, h := 10 }

/-- The main loop after the request `demo_request` has been taken up by the
start block: slot 2 is with the resizer. -/
def resizing_loop : Loop :=
  { st := { loaded_state with
      cache := [available_slot "b.png" 8, error_slot "c.png" 7,
        { available_slot "a.png" 7 with status := LOAD_resizing }],
      display := { loaded_state.display with qs := { demo_request with w := 0 } } },
    pending_resize := { size := demo_request, image := none, filename := some "a.png",
                        image_c := some 2 },
    show_frame := false }

/-- The loop `resizing_loop` once the resizer has stored its result. -/
def delivered_loop : Loop :=
  { resizing_loop with
    pending_resize := { resizing_loop.pending_resize with image := some pixel_image } }

/-- The user went from `a.png` (shown, priority 8, the best image so far) over
`b.png` to `c.png` by two calls `advance(1)`. `b.png` (priority 9) has just
been decoded and `c.png` (the current file, priority 10) could not be read, so
an error notification and a decoded notification are both under way; `d.png`
is being read. -/
def raced_state : State :=
  { cache := [{ available_slot "a.png" 8 with bail := 1 }, available_slot "b.png" 9,
      error_slot "c.png" 10, reading_slot "d.png" 9],
    file_cache := [("d.png", 3), ("c.png", 2), ("b.png", 1), ("a.png", 0)],
    fileinfo := some [⟨"a.png", 8⟩, ⟨"b.png", 9⟩, ⟨"c.png", 10⟩, ⟨"d.png", 9⟩],
    cur_loc := 2, lru_stamp := 10, max_cache_bytes := 268435456,
    dc_shared := { files := [] }, source_c := some 0, source := some pixel_image,
    best_lru := 8, filename := some "c.png",
    display := { blank_display with cur := some pixel_image, cur_filename := some "a.png" } }

/-- The state `raced_state` after the error notification: the error of the
current file `c.png` (slot 2, priority 10) is shown. -/
def error_shown_state : State :=
  { raced_state with
    source_c := some 2, source := none,
    display := { raced_state.display with
      cur := none, cur_filename := some "c.png",
      display_error := "File:\nc.png\nError:\ncan't open\n" } }

/-- The state `error_shown_state` after the decoded notification: the image of
`b.png` (slot 1, priority 9) is shown. -/
def image_shown_state : State :=
  { raced_state with
    source_c := some 1, source := some pixel_image, best_lru := 9,
    display := { raced_state.display with cur := some pixel_image, cur_filename := some "b.png" } }

/-- The main loop of `idle_loop` after the request `demo_request` met a failed
allocation in `queue_resize`. -/
def stuck_loop : Loop :=
  { idle_loop with
    st := { loaded_state with
      display := { loaded_state.display with qs := { demo_request with w := 0 } } },
    pending_resize := { idle_loop.pending_resize with size := demo_request } }

/-- An image of 2 by 2 pixels, as the resizer may deliver it. -/
def resized_image : Image :=
  { x := 2, y := 2, stride := 8, frame := 0,
    pixels := [0, 0, 0, 255, 0, 0, 0, 255, 0, 0, 0, 255, 0, 0, 0, 255], had_alpha := 0 }

/-- The main loop of `idle_loop` after one resize has run to completion:
`resized_image` is shown and `pending_resize.image` still points to it. -/
def resized_loop : Loop :=
  { st := { loaded_state with
      display := { loaded_state.display with
        cur := some resized_image, qs := { demo_request with w := 0 } } },
    pending_resize := { size := { x := 3, y := 3, w := 0, h := 4 }, image := some resized_image,
                        filename := none, image_c := some 2 },
    show_frame := false }

/-- The main loop of `resized_loop` after a second request met a failed
allocation in `queue_resize`. -/
def stale_loop : Loop :=
  { resized_loop with
    pending_resize := { resized_loop.pending_resize with size := demo_request } }

/-! ## decoder_choose: the scan -/

theorem decoder_scan_none (l : List ImageFile) (i : Nat) (acc : Option Nat × Int)
    (h : ∀ z ∈ l, z.status = LOAD_reading_done → z.lru ≤ acc.2) :
    decoder_scan l i acc = acc := by
  induction l generalizing i with
  | nil => rfl
  | cons z rest ih =>
    have hz := h z (List.mem_cons_self _ _)
    have hrest : ∀ w ∈ rest, w.status = LOAD_reading_done → w.lru ≤ acc.2 :=
      fun w hw => h w (List.mem_cons_of_mem _ hw)
    unfold decoder_scan
    rw [if_neg (by intro hc; have := hz hc.1; omega)]
    exact ih (i + 1) hrest

theorem decoder_scan_some (l : List ImageFile) (i : Nat) (acc : Option Nat × Int)
    (h : ∃ z ∈ l, z.status = LOAD_reading_done ∧ acc.2 < z.lru) :
    ∃ j z, l[j]? = some z ∧ z.status = LOAD_reading_done ∧ acc.2 < z.lru ∧
      (∀ w ∈ l, w.status = LOAD_reading_done → w.lru ≤ z.lru) ∧
      decoder_scan l i acc = (some (i + j), z.lru) := by
  induction l generalizing i acc with
  | nil => obtain ⟨z, hz, _⟩ := h; cases hz
  | cons a rest ih =>
    unfold decoder_scan
    by_cases ha : a.status = LOAD_reading_done ∧ a.lru > acc.2
    · rw [if_pos ha]
      by_cases hr : ∃ z ∈ rest, z.status = LOAD_reading_done ∧ a.lru < z.lru
      · obtain ⟨j, z, hj, hs, hlt, hmax, hres⟩ := ih (i + 1) (some i, a.lru) hr
        refine ⟨j + 1, z, by simpa using hj, hs, ?_, ?_, ?_⟩
        · have := ha.2; simp only at hlt; omega
        · intro w hw hws
          rcases List.mem_cons.1 hw with rfl | hw
          · simp only at hlt; omega
          · exact hmax w hw hws
        · rw [hres]; congr 2; omega
      · have hle : ∀ w ∈ rest, w.status = LOAD_reading_done → w.lru ≤ a.lru := by
          intro w hw hws
          by_contra hc
          exact hr ⟨w, hw, hws, by omega⟩
        refine ⟨0, a, by simp, ha.1, ha.2, ?_, ?_⟩
        · intro w hw hws
          rcases List.mem_cons.1 hw with rfl | hw
          · exact le_refl _
          · exact hle w hw hws
        · rw [decoder_scan_none rest (i + 1) (some i, a.lru) hle]; simp
    · rw [if_neg ha]
      have hr : ∃ z ∈ rest, z.status = LOAD_reading_done ∧ acc.2 < z.lru := by
        obtain ⟨z, hz, hs, hlt⟩ := h
        rcases List.mem_cons.1 hz with rfl | hz
        · exact absurd ⟨hs, hlt⟩ ha
        · exact ⟨z, hz, hs, hlt⟩
      obtain ⟨j, z, hj, hs, hlt, hmax, hres⟩ := ih (i + 1) acc hr
      refine ⟨j + 1, z, by simpa using hj, hs, hlt, ?_, ?_⟩
      · intro w hw hws
        rcases List.mem_cons.1 hw with rfl | hw
        · by_cases hwl : w.lru > acc.2
          · exact absurd ⟨hws, hwl⟩ ha
          · omega
        · exact hmax w hw hws
      · rw [hres]; congr 2; omega

/-- C1 (amended). With no concurrent change and any positive number of
passes allowed: when at least one reading_done slot has a priority above 0,
`decoder_choose` returns a slot that was reading_done and whose priority is at
least the priority of every reading_done slot, sets the status of that slot to
decoding and leaves every other slot unchanged; when no reading_done slot has
a priority above 0 (so also when no slot is reading_done) it returns none and
changes nothing. -/
theorem decoder_choose_picks_highest (cache : List ImageFile) (fuel : Nat) :
    ((∃ z ∈ cache, z.status = LOAD_reading_done ∧ 0 < z.lru) →
      ∃ b z, cache[b]? = some z ∧ z.status = LOAD_reading_done ∧
        (∀ w ∈ cache, w.status = LOAD_reading_done → w.lru ≤ z.lru) ∧
        decoder_choose quiet (fuel + 1) cache =
          .ok (some b, cache.set b { z with status := LOAD_decoding })) ∧
    ((∀ z ∈ cache, z.status = LOAD_reading_done → z.lru ≤ 0) →
      decoder_choose quiet (fuel + 1) cache = .ok (none, cache)) := by
  constructor
  · intro h
    obtain ⟨j, z, hj, hs, _, hmax, hres⟩ := decoder_scan_some cache 0 (none, 0) h
    refine ⟨j, z, hj, hs, hmax, ?_⟩
    simp only [decoder_choose, decoder_choose_from, hres, quiet, Nat.zero_add, hj, hs, if_true]
  · intro h
    have hres := decoder_scan_none cache 0 (none, 0) h
    simp only [decoder_choose, decoder_choose_from, hres]


/-! ## Sums over the cache -/

theorem sum_map_set (f : ImageFile → Int) (cs : List ImageFile) (i : Nat) (p q : ImageFile)
    (h : cs[i]? = some p) :
    ((cs.set i q).map f).sum = (cs.map f).sum - f p + f q := by
  induction cs generalizing i with
  | nil => simp at h
  | cons a rest ih =>
    cases i with
    | zero =>
      simp only [List.getElem?_cons_zero, Option.some.injEq] at h
      subst h
      simp only [List.set_cons_zero, List.map_cons, List.sum_cons]
      omega
    | succ n =>
      simp only [List.getElem?_cons_succ] at h
      simp only [List.set_cons_succ, List.map_cons, List.sum_cons, ih n h]
      omega

theorem sum_map_nonneg (f : ImageFile → Int) (cs : List ImageFile) (h : ∀ z ∈ cs, 0 ≤ f z) :
    0 ≤ (cs.map f).sum := by
  induction cs with
  | nil => simp
  | cons a rest ih =>
    simp only [List.map_cons, List.sum_cons]
    have := h a (List.mem_cons_self _ _)
    have := ih (fun z hz => h z (List.mem_cons_of_mem _ hz))
    omega

theorem slot_bytes_ok (z : ImageFile) (b : Int) (h : slot_bytes z = .ok b) : b = resident z := by
  unfold slot_bytes at h
  unfold resident
  split at h
  · rename_i hs
    rw [if_pos hs]
    split at h <;> simp_all
  · rename_i hs
    rw [if_neg hs]
    split at h <;> simp_all

theorem resident_evicted (p : ImageFile) : resident (evicted p) = 0 := by
  simp [resident, evicted]

theorem occupied_evicted (p : ImageFile) : occupied (evicted p) = false := by
  simp [occupied, evicted]

theorem resident_nonneg (z : ImageFile) : 0 ≤ resident z := by
  unfold resident
  split
  · split
    · exact le_refl _
    · positivity
  · split
    · positivity
    · exact le_refl _


/-! ## flush_cache: the counting loop -/

theorem resident_of_not_main (z : ImageFile) (h : MAIN_OWNS z = false) : resident z = 0 := by
  unfold resident
  unfold MAIN_OWNS at h
  cases hs : z.status <;> simp_all [LoadStatus.code]

theorem flush_count_spec (cs : List ImageFile) (i : Nat) (v v' : FlushVars)
    (h : flush_count cs i v = .ok v') :
    v'.total = v.total + total_resident cs ∧
    v'.occupied_slots = v.occupied_slots + occupied_count cs ∧
    (∀ j, j ∈ v'.list ↔ j ∈ v.list ∨ ∃ k p, j = i + k ∧ cs[k]? = some p ∧ MAIN_OWNS p = true) ∧
    (∀ z ∈ cs, z.status = LOAD_available → z.image.isSome = true) := by
  induction cs generalizing i v with
  | nil =>
    simp only [flush_count, Except.ok.injEq] at h
    subst h
    simp [total_resident, occupied_count]
  | cons a rest ih =>
    unfold flush_count at h
    have hocc : (if a.status ≠ LOAD_unused then v.occupied_slots + 1 else v.occupied_slots)
        = v.occupied_slots + (if occupied a then (1 : Int) else 0) := by
      by_cases hs : a.status = LOAD_unused <;> simp [occupied, hs]
    by_cases hm : MAIN_OWNS a = true
    · simp only [hm, if_true] at h
      cases hb : slot_bytes a with
      | error e => simp [hb] at h
      | ok b =>
        simp only [hb] at h
        obtain ⟨h1, h2, h3, h4⟩ := ih (i + 1) _ h
        have hbr := slot_bytes_ok a b hb
        refine ⟨?_, ?_, ?_, ?_⟩
        · simp only [h1, total_resident, List.map_cons, List.sum_cons, hbr]; omega
        · simp only [h2, hocc, occupied_count, List.map_cons, List.sum_cons]; omega
        · intro j
          rw [h3]
          simp only [List.mem_append, List.mem_singleton]
          constructor
          · rintro ((hj | hj) | ⟨k, p, hk, hp, hpm⟩)
            · exact Or.inl hj
            · exact Or.inr ⟨0, a, by omega, by simp, hm⟩
            · exact Or.inr ⟨k + 1, p, by omega, by simpa using hp, hpm⟩
          · rintro (hj | ⟨k, p, hk, hp, hpm⟩)
            · exact Or.inl (Or.inl hj)
            · cases k with
              | zero => exact Or.inl (Or.inr (by omega))
              | succ k => exact Or.inr ⟨k, p, by omega, by simpa using hp, hpm⟩
        · intro z hz hs
          rcases List.mem_cons.1 hz with rfl | hz
          · unfold slot_bytes at hb
            rw [if_pos hs] at hb
            cases hi : z.image with
            | none => simp [hi] at hb
            | some im => rfl
          · exact h4 z hz hs
    · have hm' : MAIN_OWNS a = false := by simpa using hm
      simp only [hm', Bool.false_eq_true, if_false] at h
      obtain ⟨h1, h2, h3, h4⟩ := ih (i + 1) _ h
      refine ⟨?_, ?_, ?_, ?_⟩
      · simp only [h1, total_resident, List.map_cons, List.sum_cons, resident_of_not_main a hm']
        omega
      · simp only [h2, hocc, occupied_count, List.map_cons, List.sum_cons]; omega
      · intro j
        rw [h3]
        constructor
        · rintro (hj | ⟨k, p, hk, hp, hpm⟩)
          · exact Or.inl hj
          · exact Or.inr ⟨k + 1, p, by omega, by simpa using hp, hpm⟩
        · rintro (hj | ⟨k, p, hk, hp, hpm⟩)
          · exact Or.inl hj
          · cases k with
            | zero =>
              simp only [List.getElem?_cons_zero, Option.some.injEq] at hp
              subst hp
              rw [hm'] at hpm
              cases hpm
            | succ k => exact Or.inr ⟨k, p, by omega, by simpa using hp, hpm⟩
      · intro z hz hs
        rcases List.mem_cons.1 hz with rfl | hz
        · exfalso
          unfold MAIN_OWNS at hm'
          rw [hs] at hm'
          simp [LoadStatus.code] at hm'
        · exact h4 z hz hs

/-! ## flush_cache: the eviction loop -/

theorem evictable_iff (p : ImageFile) :
    (MAIN_OWNS p = true ∧ p.status ≠ LOAD_unused) ↔ evictable p = true := by
  simp [evictable, occupied]

theorem flush_evict_split (L : Limits) (m : Int) (l : List Nat) (st st' : FlushState)
    (h : flush_evict L m l st = .ok st') :
    ∃ l1 l2, l = l1 ++ l2 ∧ st'.cache = evict_slots l1 st.cache ∧
      st'.file_cache = evict_names l1 st.cache st.file_cache ∧
      (l2 = [] ∨ flush_pressure L m st' = false) := by
  induction l generalizing st with
  | nil =>
    simp only [flush_evict, Except.ok.injEq] at h
    subst h
    exact ⟨[], [], rfl, rfl, rfl, Or.inl rfl⟩
  | cons i rest ih =>
    unfold flush_evict at h
    by_cases hp : flush_pressure L m st = true
    · simp only [hp, if_true] at h
      cases hc : st.cache[i]? with
      | none => simp [hc] at h
      | some p =>
        simp only [hc] at h
        by_cases he : evictable p = true
        · rw [if_pos ((evictable_iff p).2 he)] at h
          cases hf : p.filename with
          | none => simp [hf] at h
          | some fn =>
            cases hb : slot_bytes p with
            | error e => simp [hf, hb] at h
            | ok b =>
              simp only [hf, hb] at h
              obtain ⟨l1, l2, hl, h1, h2, h3⟩ := ih _ h
              refine ⟨i :: l1, l2, by simp [hl], ?_, ?_, h3⟩
              · simp only [evict_slots, hc, he, if_true]; exact h1
              · simp only [evict_names, hc, he, if_true, hf]; exact h2
        · rw [if_neg (fun hh => he ((evictable_iff p).1 hh))] at h
          obtain ⟨l1, l2, hl, h1, h2, h3⟩ := ih _ h
          refine ⟨i :: l1, l2, by simp [hl], ?_, ?_, h3⟩
          · simp only [evict_slots, hc, he]; exact h1
          · simp only [evict_names, hc, he]; exact h2
    · have hp' : flush_pressure L m st = false := by simpa using hp
      simp only [hp', Bool.false_eq_true, if_false, Except.ok.injEq] at h
      subst h
      exact ⟨[], i :: rest, rfl, rfl, rfl, Or.inr hp'⟩

theorem flush_evict_counters (L : Limits) (m : Int) (l : List Nat) (st st' : FlushState)
    (h : flush_evict L m l st = .ok st') :
    st'.occupied_slots - occupied_count st'.cache = st.occupied_slots - occupied_count st.cache ∧
    st'.total - total_resident st'.cache = st.total - total_resident st.cache := by
  induction l generalizing st with
  | nil =>
    simp only [flush_evict, Except.ok.injEq] at h
    subst h
    exact ⟨rfl, rfl⟩
  | cons i rest ih =>
    unfold flush_evict at h
    by_cases hp : flush_pressure L m st = true
    · simp only [hp, if_true] at h
      cases hc : st.cache[i]? with
      | none => simp [hc] at h
      | some p =>
        simp only [hc] at h
        by_cases he : evictable p = true
        · rw [if_pos ((evictable_iff p).2 he)] at h
          cases hf : p.filename with
          | none => simp [hf] at h
          | some fn =>
            cases hb : slot_bytes p with
            | error e => simp [hf, hb] at h
            | ok b =>
              simp only [hf, hb] at h
              obtain ⟨h1, h2⟩ := ih _ h
              have hocc : occupied p = true := by
                simp only [evictable, Bool.and_eq_true] at he; exact he.2
              have hbr := slot_bytes_ok p b hb
              simp only [occupied_count, total_resident] at h1 h2 ⊢
              rw [sum_map_set _ _ _ _ _ hc] at h1 h2
              rw [h1, h2]
              simp only [occupied_evicted, resident_evicted, hocc, hbr, if_true]
              constructor <;> simp
        · rw [if_neg (fun hh => he ((evictable_iff p).1 hh))] at h
          exact ih _ h
    · have hp' : flush_pressure L m st = false := by simpa using hp
      simp only [hp', Bool.false_eq_true, if_false, Except.ok.injEq] at h
      subst h
      exact ⟨rfl, rfl⟩

/-! ## The eviction loop without its stop condition -/

theorem evict_slots_length (l : List Nat) (cs : List ImageFile) :
    (evict_slots l cs).length = cs.length := by
  induction l generalizing cs with
  | nil => rfl
  | cons i rest ih =>
    unfold evict_slots
    split
    · split
      · rw [ih]; simp
      · exact ih cs
    · exact ih cs

theorem evict_slots_get (l : List Nat) (cs : List ImageFile) (j : Nat) (p : ImageFile)
    (h : cs[j]? = some p) :
    (evict_slots l cs)[j]? = some (if j ∈ l ∧ evictable p = true then evicted p else p) := by
  induction l generalizing cs p with
  | nil => simpa [evict_slots] using h
  | cons i rest ih =>
    unfold evict_slots
    cases hc : cs[i]? with
    | none =>
      simp only
      have hne : j ≠ i := by rintro rfl; rw [h] at hc; cases hc
      rw [ih cs p h]
      simp [hne]
    | some q =>
      simp only
      by_cases he : evictable q = true
      · rw [if_pos he]
        by_cases hji : j = i
        · subst hji
          rw [h] at hc
          cases hc
          have hj : j < cs.length := by
            rcases Nat.lt_or_ge j cs.length with hlt | hge
            · exact hlt
            · rw [List.getElem?_eq_none hge] at h; cases h
          have hset : (cs.set j (evicted p))[j]? = some (evicted p) := by
            simp [List.getElem?_set, hj]
          rw [ih _ _ hset]
          have : evictable (evicted p) = false := by simp [evictable, occupied_evicted]
          simp [he, this]
        · have hset : (cs.set i (evicted q))[j]? = some p := by
            rw [List.getElem?_set_ne (Ne.symm hji)]; exact h
          rw [ih _ _ hset]
          simp [hji]
      · rw [if_neg he]
        rw [ih cs p h]
        by_cases hji : j = i
        · subst hji
          rw [h] at hc
          cases hc
          simp [he]
        · simp [hji]

theorem evict_slots_get_none (l : List Nat) (cs : List ImageFile) (j : Nat)
    (h : cs[j]? = none) : (evict_slots l cs)[j]? = none := by
  rw [List.getElem?_eq_none_iff] at h ⊢
  rw [evict_slots_length]; exact h


/-! ## The filename lookup under eviction -/

theorem stb_sdict_get_remove (d : List (String × Nat)) (k k' : String) :
    stb_sdict_get (stb_sdict_remove d k) k' = if k' = k then none else stb_sdict_get d k' := by
  induction d with
  | nil => simp [stb_sdict_remove, stb_sdict_get]
  | cons e rest ih =>
    unfold stb_sdict_remove at ih ⊢
    by_cases he : e.1 = k
    · simp only [List.filter_cons, he, ne_eq, not_true_eq_false, decide_False,
        Bool.false_eq_true, if_false]
      rw [ih]
      by_cases hk : k' = k
      · simp [hk]
      · simp only [hk, if_false, stb_sdict_get, he]
        rw [if_neg (fun h => hk h.symm)]
    · simp only [List.filter_cons, he, ne_eq, not_false_eq_true, decide_True, if_true,
        stb_sdict_get]
      by_cases hek : e.1 = k'
      · simp only [hek, if_true]
        rw [if_neg (by rintro rfl; exact he hek)]
      · simp only [hek, if_false]
        exact ih

theorem evict_names_get (l : List Nat) (cs : List ImageFile) (d : List (String × Nat))
    (k : String) :
    ((∃ j ∈ l, ∃ p, cs[j]? = some p ∧ evictable p = true ∧ p.filename = some k) →
      stb_sdict_get (evict_names l cs d) k = none) ∧
    ((¬ ∃ j ∈ l, ∃ p, cs[j]? = some p ∧ evictable p = true ∧ p.filename = some k) →
      stb_sdict_get (evict_names l cs d) k = stb_sdict_get d k) := by
  induction l generalizing cs d with
  | nil =>
    constructor
    · rintro ⟨j, hj, _⟩; cases hj
    · intro _; rfl
  | cons i rest ih =>
    unfold evict_names
    cases hc : cs[i]? with
    | none =>
      simp only
      have hiff : (∃ j ∈ i :: rest, ∃ p, cs[j]? = some p ∧ evictable p = true ∧ p.filename = some k)
          ↔ (∃ j ∈ rest, ∃ p, cs[j]? = some p ∧ evictable p = true ∧ p.filename = some k) := by
        constructor
        · rintro ⟨j, hj, p, hp, he, hf⟩
          rcases List.mem_cons.1 hj with rfl | hj
          · rw [hp] at hc; cases hc
          · exact ⟨j, hj, p, hp, he, hf⟩
        · rintro ⟨j, hj, p, hp, he, hf⟩
          exact ⟨j, List.mem_cons_of_mem _ hj, p, hp, he, hf⟩
      rw [hiff]
      exact ih cs d
    | some q =>
      simp only
      by_cases he : evictable q = true
      · rw [if_pos he]
        have hi : i < cs.length := by
          rcases Nat.lt_or_ge i cs.length with hlt | hge
          · exact hlt
          · rw [List.getElem?_eq_none hge] at hc; cases hc
        have hself : (cs.set i (evicted q))[i]? = some (evicted q) := by
          simp [List.getElem?_set, hi]
        have hne : evictable (evicted q) = false := by simp [evictable, occupied_evicted]
        have hrest : (∃ j ∈ rest, ∃ p, (cs.set i (evicted q))[j]? = some p ∧ evictable p = true ∧
            p.filename = some k) ↔
            (∃ j ∈ rest, j ≠ i ∧ ∃ p, cs[j]? = some p ∧ evictable p = true ∧ p.filename = some k) := by
          constructor
          · rintro ⟨j, hj, p, hp, hpe, hf⟩
            have hji : j ≠ i := by
              rintro rfl
              rw [hself] at hp
              cases hp
              rw [hne] at hpe; cases hpe
            rw [List.getElem?_set_ne (Ne.symm hji)] at hp
            exact ⟨j, hj, hji, p, hp, hpe, hf⟩
          · rintro ⟨j, hj, hji, p, hp, hpe, hf⟩
            refine ⟨j, hj, p, ?_, hpe, hf⟩
            rw [List.getElem?_set_ne (Ne.symm hji)]; exact hp
        obtain ⟨ih1, ih2⟩ := ih (cs.set i (evicted q))
          (match q.filename with
           | some fn => stb_sdict_remove d fn
           | none => d)
        by_cases hqk : q.filename = some k
        · have hnone : stb_sdict_get (evict_names rest (cs.set i (evicted q))
              (match q.filename with
               | some fn => stb_sdict_remove d fn
               | none => d)) k = none := by
            by_cases hex : ∃ j ∈ rest, ∃ p, (cs.set i (evicted q))[j]? = some p ∧
                evictable p = true ∧ p.filename = some k
            · exact ih1 hex
            · rw [ih2 hex, hqk]
              simp [stb_sdict_get_remove]
          constructor
          · intro _; exact hnone
          · intro hno
            exact absurd ⟨i, List.mem_cons_self _ _, q, hc, he, hqk⟩ hno
        · have hd : stb_sdict_get (match q.filename with
               | some fn => stb_sdict_remove d fn
               | none => d) k = stb_sdict_get d k := by
            cases hqf : q.filename with
            | none => rfl
            | some fn =>
              simp only [stb_sdict_get_remove]
              rw [if_neg]
              rintro rfl
              exact hqk hqf
          have hiff : (∃ j ∈ i :: rest, ∃ p, cs[j]? = some p ∧ evictable p = true ∧
              p.filename = some k) ↔
              (∃ j ∈ rest, ∃ p, (cs.set i (evicted q))[j]? = some p ∧ evictable p = true ∧
                p.filename = some k) := by
            rw [hrest]
            constructor
            · rintro ⟨j, hj, p, hp, hpe, hf⟩
              have hji : j ≠ i := by
                rintro rfl
                rw [hp] at hc
                cases hc
                exact hqk hf
              rcases List.mem_cons.1 hj with rfl | hj
              · exact absurd rfl hji
              · exact ⟨j, hj, hji, p, hp, hpe, hf⟩
            · rintro ⟨j, hj, _, p, hp, hpe, hf⟩
              exact ⟨j, List.mem_cons_of_mem _ hj, p, hp, hpe, hf⟩
          rw [hiff]
          constructor
          · exact ih1
          · intro hno; rw [ih2 hno, hd]
      · rw [if_neg he]
        have hiff : (∃ j ∈ i :: rest, ∃ p, cs[j]? = some p ∧ evictable p = true ∧
            p.filename = some k) ↔
            (∃ j ∈ rest, ∃ p, cs[j]? = some p ∧ evictable p = true ∧ p.filename = some k) := by
          constructor
          · rintro ⟨j, hj, p, hp, hpe, hf⟩
            rcases List.mem_cons.1 hj with rfl | hj
            · rw [hp] at hc; cases hc; exact absurd hpe he
            · exact ⟨j, hj, p, hp, hpe, hf⟩
          · rintro ⟨j, hj, p, hp, hpe, hf⟩
            exact ⟨j, List.mem_cons_of_mem _ hj, p, hp, hpe, hf⟩
        rw [hiff]
        exact ih cs d

/-! ## flush_cache: summary of a call -/

theorem ImageFilePtrCompare_le (a b : ImageFile) :
    ImageFilePtrCompare a b ≤ 0 ↔ a.lru ≤ b.lru := by
  unfold ImageFilePtrCompare
  split
  · constructor <;> intro _ <;> omega
  · split
    · constructor <;> intro _ <;> omega
    · constructor <;> intro _ <;> omega

theorem ptr_compare_le (cs : List ImageFile) (i j : Nat) (p q : ImageFile)
    (hi : cs[i]? = some p) (hj : cs[j]? = some q) :
    ptr_compare cs i j ≤ 0 ↔ p.lru ≤ q.lru := by
  unfold ptr_compare
  rw [ImageFilePtrCompare_le]
  simp [List.getD, hi, hj]

theorem qsort_ptr_sorted (P : Platform) (cs : List ImageFile) (l : List Nat) :
    List.Pairwise (fun a b => ptr_compare cs a b ≤ 0) (P.qsort (ptr_compare cs) l) := by
  apply P.qsort_sorted
  · intro a b
    unfold ptr_compare
    rw [ImageFilePtrCompare_le, ImageFilePtrCompare_le]
    omega
  · intro a b c
    unfold ptr_compare
    rw [ImageFilePtrCompare_le, ImageFilePtrCompare_le, ImageFilePtrCompare_le]
    omega

theorem flush_pressure_false (L : Limits) (m : Int) (st : FlushState) :
    flush_pressure L m st = false ↔
      ¬ (st.occupied_slots > (L.MIN_CACHE : Int) ∧
        (st.occupied_slots > L.limit ∨ st.total > m)) := by
  simp [flush_pressure]

/-- What a returning call of `flush_cache` did: either nothing, because
neither trigger held, or it ran the eviction branch over a front part `l1` of
the sorted list of main-owned slots and stopped for one of the reasons of the
loop condition. -/
theorem flush_cache_spec (P : Platform) (L : Limits) (s s' : State)
    (h : flush_cache P L s = .ok s') :
    (∀ z ∈ s.cache, z.status = LOAD_available → z.image.isSome = true) ∧
    ((s' = s ∧ total_resident s.cache ≤ s.max_cache_bytes ∧ occupied_count s.cache ≤ L.limit) ∨
     (∃ l1 l2,
        List.Pairwise (fun a b => ptr_compare s.cache a b ≤ 0) (l1 ++ l2) ∧
        (∀ j, j ∈ l1 ++ l2 ↔ ∃ p, s.cache[j]? = some p ∧ MAIN_OWNS p = true) ∧
        s' = { s with cache := evict_slots l1 s.cache,
                      file_cache := evict_names l1 s.cache s.file_cache } ∧
        (total_resident s.cache > s.max_cache_bytes ∨ occupied_count s.cache > L.limit) ∧
        (l2 = [] ∨ ¬ (occupied_count s'.cache > (L.MIN_CACHE : Int) ∧
          (occupied_count s'.cache > L.limit ∨
            total_resident s'.cache > s.max_cache_bytes))))) := by
  unfold flush_cache at h
  cases hv : flush_count s.cache 0 { total := 0, occupied_slots := 0, list := [] } with
  | error e => simp [hv] at h
  | ok v =>
    simp only [hv] at h
    obtain ⟨ht, ho, hl, himg⟩ := flush_count_spec _ _ _ _ hv
    simp only [zero_add] at ht ho
    refine ⟨himg, ?_⟩
    by_cases htrig : v.total > s.max_cache_bytes ∨ v.occupied_slots > L.limit
    · right
      rw [if_neg (not_not.2 htrig)] at h
      cases hst : flush_evict L s.max_cache_bytes (P.qsort (ptr_compare s.cache) v.list)
          { cache := s.cache, file_cache := s.file_cache, total := v.total,
            occupied_slots := v.occupied_slots } with
      | error e => simp [hst] at h
      | ok st =>
        simp only [hst, Except.ok.injEq] at h
        obtain ⟨l1, l2, hsplit, hc, hf, hstop⟩ := flush_evict_split _ _ _ _ _ hst
        obtain ⟨hco, hct⟩ := flush_evict_counters _ _ _ _ _ hst
        simp only at hc hf hco hct
        refine ⟨l1, l2, ?_, ?_, ?_, ?_, ?_⟩
        · rw [← hsplit]; exact qsort_ptr_sorted P s.cache v.list
        · intro j
          rw [← hsplit, (P.qsort_perm (ptr_compare s.cache) v.list).mem_iff, hl]
          simp
        · rw [← h, hc, hf]
        · rw [← ht, ← ho]; exact htrig
        · rcases hstop with hstop | hstop
          · exact Or.inl hstop
          · right
            rw [flush_pressure_false] at hstop
            rw [← h]
            simp only
            have e1 : st.occupied_slots = occupied_count st.cache := by omega
            have e2 : st.total = total_resident st.cache := by omega
            rw [← e1, ← e2]
            exact hstop
    · left
      rw [if_pos htrig] at h
      simp only [Except.ok.injEq] at h
      refine ⟨h.symm, ?_, ?_⟩ <;> omega

/-! ## flush_cache: consequences of the summary -/

theorem getElem?_lt_of_some (cs : List ImageFile) (j : Nat) (p : ImageFile)
    (h : cs[j]? = some p) : j < cs.length := by
  rcases Nat.lt_or_ge j cs.length with hlt | hge
  · exact hlt
  · rw [List.getElem?_eq_none hge] at h; cases h

/-- Every slot after a returning `flush_cache` is the slot before, or the
cleared form of a slot that passed the test of the eviction branch. -/
theorem flush_cache_slot (P : Platform) (L : Limits) (s s' : State)
    (h : flush_cache P L s = .ok s') (j : Nat) (p q : ImageFile)
    (hp : s.cache[j]? = some p) (hq : s'.cache[j]? = some q) :
    q = p ∨ (evictable p = true ∧ q = evicted p ∧
      ∀ fn, p.filename = some fn → stb_sdict_get s'.file_cache fn = none) := by
  obtain ⟨_, hcase | ⟨l1, l2, _, _, hs, _, _⟩⟩ := flush_cache_spec P L s s' h
  · rw [hcase.1, hp] at hq
    cases hq
    exact Or.inl rfl
  · subst hs
    simp only at hq ⊢
    rw [evict_slots_get l1 s.cache j p hp] at hq
    cases hq
    by_cases hc : j ∈ l1 ∧ evictable p = true
    · right
      rw [if_pos hc]
      refine ⟨hc.2, rfl, ?_⟩
      intro fn hfn
      exact (evict_names_get l1 s.cache s.file_cache fn).1 ⟨j, hc.1, p, hp, hc.2, hfn⟩
    · left
      rw [if_neg hc]

theorem flush_cache_length (P : Platform) (L : Limits) (s s' : State)
    (h : flush_cache P L s = .ok s') : s'.cache.length = s.cache.length := by
  obtain ⟨_, hcase | ⟨l1, l2, _, _, hs, _, _⟩⟩ := flush_cache_spec P L s s' h
  · rw [hcase.1]
  · subst hs
    exact evict_slots_length l1 s.cache

theorem evictable_status (p : ImageFile) (h : evictable p = true) :
    p.status ≠ LOAD_unused ∧ p.status ≠ LOAD_reading ∧ p.status ≠ LOAD_decoding ∧
      p.status ≠ LOAD_resizing := by
  unfold evictable MAIN_OWNS occupied at h
  cases hs : p.status <;> simp_all [LoadStatus.code]


theorem flush_count_total (cs : List ImageFile) (i : Nat) (v : FlushVars)
    (h : ∀ z ∈ cs, z.status = LOAD_available → z.image.isSome = true) :
    ∃ v', flush_count cs i v = .ok v' := by
  induction cs generalizing i v with
  | nil => exact ⟨v, rfl⟩
  | cons a rest ih =>
    have hrest : ∀ z ∈ rest, z.status = LOAD_available → z.image.isSome = true :=
      fun z hz => h z (List.mem_cons_of_mem _ hz)
    unfold flush_count
    by_cases hm : MAIN_OWNS a = true
    · simp only [hm, if_true]
      have hb : ∃ b, slot_bytes a = .ok b := by
        unfold slot_bytes
        by_cases hs : a.status = LOAD_available
        · rw [if_pos hs]
          have := h a (List.mem_cons_self _ _) hs
          cases hi : a.image with
          | none => rw [hi] at this; cases this
          | some im => exact ⟨_, rfl⟩
        · rw [if_neg hs]
          split
          · exact ⟨_, rfl⟩
          · exact ⟨_, rfl⟩
      obtain ⟨b, hb⟩ := hb
      simp only [hb]
      exact ih _ _ hrest
    · have hm' : MAIN_OWNS a = false := by simpa using hm
      simp only [hm', Bool.false_eq_true, if_false]
      exact ih _ _ hrest

/-! ## flush_cache: the claims -/

/-- C2. Eviction is lowest-priority-first: whenever a returning `flush_cache`
evicts a slot `S` (occupied before, unused after) and leaves an occupied slot
`T` owned by the main thread in place, the priority of `S` is at most the
priority of `T`. -/
theorem flush_cache_evicts_lowest_first (P : Platform) (L : Limits) (s s' : State)
    (h : flush_cache P L s = .ok s') (S T : Nat) (pS qS qT : ImageFile)
    (hS : s.cache[S]? = some pS) (hS' : s'.cache[S]? = some qS)
    (hSocc : pS.status ≠ LOAD_unused) (hSev : qS.status = LOAD_unused)
    (hT : s'.cache[T]? = some qT) (hTown : MAIN_OWNS qT = true)
    (hTocc : qT.status ≠ LOAD_unused) :
    pS.lru ≤ qT.lru := by
  obtain ⟨_, hcase | ⟨l1, l2, hsorted, hmem, hs, _, _⟩⟩ := flush_cache_spec P L s s' h
  · rw [hcase.1, hS] at hS'
    cases hS'
    exact absurd hSev hSocc
  · subst hs
    simp only at hS' hT
    rw [evict_slots_get l1 s.cache S pS hS] at hS'
    cases hS'
    have hTlt : T < s.cache.length := by
      have := getElem?_lt_of_some _ _ _ hT
      rwa [evict_slots_length] at this
    have hpT : s.cache[T]? = some (s.cache[T]) := List.getElem?_eq_getElem hTlt
    rw [evict_slots_get l1 s.cache T _ hpT] at hT
    cases hT
    by_cases hcS : S ∈ l1 ∧ evictable pS = true
    · by_cases hcT : T ∈ l1 ∧ evictable (s.cache[T]) = true
      · rw [if_pos hcT] at hTocc
        exact absurd rfl hTocc
      · rw [if_neg hcT] at hTown hTocc ⊢
        have hevT : evictable (s.cache[T]) = true := by
          simp [evictable, occupied, hTown, hTocc]
        have hT1 : T ∉ l1 := fun hh => hcT ⟨hh, hevT⟩
        have hT2 : T ∈ l2 := by
          have := (hmem T).2 ⟨_, hpT, hTown⟩
          rcases List.mem_append.1 this with hh | hh
          · exact absurd hh hT1
          · exact hh
        have := (List.pairwise_append.1 hsorted).2.2 S hcS.1 T hT2
        exact (ptr_compare_le s.cache S T pS _ hS hpT).1 this
    · rw [if_neg hcS] at hSev
      exact absurd hSev hSocc

/-- C4. `flush_cache` evicts only under pressure: when the occupied slots
number at most `MAX_CACHED_IMAGES - MIN_CACHE` and the total resident bytes
are at most `max_cache_bytes`, a returning call leaves the whole state (every
slot, every entry of the filename lookup) as it was; and the call does return
when every available slot has its image. -/
theorem flush_cache_no_pressure (P : Platform) (L : Limits) (s : State)
    (hocc : occupied_count s.cache ≤ L.limit)
    (hbytes : total_resident s.cache ≤ s.max_cache_bytes) :
    (∀ s', flush_cache P L s = .ok s' → s' = s) ∧
    ((∀ z ∈ s.cache, z.status = LOAD_available → z.image.isSome = true) →
      flush_cache P L s = .ok s) := by
  have key : ∀ s', flush_cache P L s = .ok s' → s' = s := by
    intro s' h
    obtain ⟨_, hcase | ⟨l1, l2, _, _, _, htrig, _⟩⟩ := flush_cache_spec P L s s' h
    · exact hcase.1
    · exfalso; omega
  refine ⟨key, ?_⟩
  intro hwf
  obtain ⟨v, hv⟩ := flush_count_total s.cache 0 { total := 0, occupied_slots := 0, list := [] } hwf
  obtain ⟨ht, ho, _, _⟩ := flush_count_spec _ _ _ _ hv
  simp only [zero_add] at ht ho
  unfold flush_cache
  simp only [hv]
  rw [if_pos]
  rw [ht, ho]
  omega

/-- Why a returning `flush_cache` stopped: both trigger conditions are false,
or at most `MIN_CACHE` occupied slots remain, or the sorted list is exhausted
and every slot still occupied is worker-owned. -/
theorem flush_cache_exit (P : Platform) (L : Limits) (s s' : State)
    (h : flush_cache P L s = .ok s') :
    (occupied_count s'.cache ≤ L.limit ∧ total_resident s'.cache ≤ s'.max_cache_bytes) ∨
    occupied_count s'.cache ≤ (L.MIN_CACHE : Int) ∨
    (∀ z ∈ s'.cache, z.status ≠ LOAD_unused → MAIN_OWNS z = false) := by
  obtain ⟨_, hcase | ⟨l1, l2, _, hmem, hs, _, hstop⟩⟩ := flush_cache_spec P L s s' h
  · left
    rw [hcase.1]
    exact ⟨hcase.2.2, hcase.2.1⟩
  · rcases hstop with hl2 | hno
    · right; right
      subst hs
      simp only
      intro z hz hzocc
      obtain ⟨j, hj⟩ := List.getElem?_of_mem hz
      have hjlt : j < s.cache.length := by
        have := getElem?_lt_of_some _ _ _ hj
        rwa [evict_slots_length] at this
      have hp : s.cache[j]? = some (s.cache[j]) := List.getElem?_eq_getElem hjlt
      rw [evict_slots_get l1 s.cache j _ hp] at hj
      cases hj
      by_cases hc : j ∈ l1 ∧ evictable (s.cache[j]) = true
      · rw [if_pos hc] at hzocc
        exact absurd rfl hzocc
      · rw [if_neg hc] at hzocc ⊢
        by_contra hown
        have hown' : MAIN_OWNS (s.cache[j]) = true := by simpa using hown
        have hin : j ∈ l1 := by
          have := (hmem j).2 ⟨_, hp, hown'⟩
          rw [hl2] at this
          simpa using this
        exact hc ⟨hin, by simp [evictable, occupied, hown', hzocc]⟩
    · have hb : s'.max_cache_bytes = s.max_cache_bytes := by rw [hs]
      rw [hb]
      by_cases hmin : occupied_count s'.cache ≤ (L.MIN_CACHE : Int)
      · exact Or.inr (Or.inl hmin)
      · left
        constructor
        · by_contra hc
          exact hno ⟨by omega, Or.inl (by omega)⟩
        · by_contra hc
          exact hno ⟨by omega, Or.inr (by omega)⟩

/-- C6. Every slot that a returning `flush_cache` evicts (occupied before,
unused after) ends with `filename`, `filedata`, `image` and `error` cleared
and `len` 0, and its filename is no longer a key of the filename lookup. -/
theorem flush_cache_evicted_slot_cleared (P : Platform) (L : Limits) (s s' : State)
    (h : flush_cache P L s = .ok s') (j : Nat) (p q : ImageFile)
    (hp : s.cache[j]? = some p) (hq : s'.cache[j]? = some q)
    (hocc : p.status ≠ LOAD_unused) (hev : q.status = LOAD_unused) :
    q.status = LOAD_unused ∧ q.filename = none ∧ q.filedata = none ∧ q.image = none ∧
      q.error = none ∧ q.len = 0 ∧
      ∀ fn, p.filename = some fn → stb_sdict_get s'.file_cache fn = none := by
  rcases flush_cache_slot P L s s' h j p q hp hq with rfl | ⟨_, rfl, hname⟩
  · exact absurd hev hocc
  · exact ⟨rfl, rfl, rfl, rfl, rfl, rfl, hname⟩

/-- C7. A returning `flush_cache` keeps the number of slots, never changes a
slot whose status is reading, decoding or resizing, and leaves every slot it
does not evict (occupied before, unused after) exactly as it was, in every
field. -/
theorem flush_cache_frame (P : Platform) (L : Limits) (s s' : State)
    (h : flush_cache P L s = .ok s') :
    s'.cache.length = s.cache.length ∧
    ∀ (j : Nat) (p q : ImageFile), s.cache[j]? = some p → s'.cache[j]? = some q →
      ((p.status = LOAD_reading ∨ p.status = LOAD_decoding ∨ p.status = LOAD_resizing) →
        q = p) ∧
      (¬ (p.status ≠ LOAD_unused ∧ q.status = LOAD_unused) → q = p) := by
  refine ⟨flush_cache_length P L s s' h, ?_⟩
  intro j p q hp hq
  rcases flush_cache_slot P L s s' h j p q hp hq with rfl | ⟨hev, rfl, _⟩
  · exact ⟨fun _ => rfl, fun _ => rfl⟩
  · obtain ⟨h0, h1, h2, h3⟩ := evictable_status p hev
    constructor
    · rintro (hs | hs | hs)
      · exact absurd hs h1
      · exact absurd hs h2
      · exact absurd hs h3
    · intro hne
      exact absurd ⟨h0, rfl⟩ hne

/-! ## flush_cache: the reserved minimum -/

theorem sum_le_sum_pointwise (f g : ImageFile → Int) (xs ys : List ImageFile)
    (hlen : xs.length = ys.length)
    (h : ∀ (j : Nat) (p q : ImageFile), xs[j]? = some p → ys[j]? = some q → f p ≤ g q) :
    (xs.map f).sum ≤ (ys.map g).sum := by
  induction xs generalizing ys with
  | nil =>
    cases ys with
    | nil => simp
    | cons b ys => simp at hlen
  | cons a xs ih =>
    cases ys with
    | nil => simp at hlen
    | cons b ys =>
      simp only [List.map_cons, List.sum_cons]
      have h0 := h 0 a b (by simp) (by simp)
      have hrest := ih ys (by simpa using hlen)
        (fun j p q hp hq => h (j + 1) p q (by simpa using hp) (by simpa using hq))
      omega

theorem le_sum_of_mem (f : ImageFile → Int) (cs : List ImageFile) (hf : ∀ z ∈ cs, 0 ≤ f z)
    (z : ImageFile) (hz : z ∈ cs) : f z ≤ (cs.map f).sum := by
  induction cs with
  | nil => cases hz
  | cons a rest ih =>
    simp only [List.map_cons, List.sum_cons]
    have hrest : ∀ w ∈ rest, 0 ≤ f w := fun w hw => hf w (List.mem_cons_of_mem _ hw)
    rcases List.mem_cons.1 hz with rfl | hz
    · have := sum_map_nonneg f rest hrest
      omega
    · have := ih hrest hz
      have := hf a (List.mem_cons_self _ _)
      omega

theorem higher_add_rest (cs : List ImageFile) (v : Int) :
    higher_count cs v +
      (cs.map (fun z => if occupied z = true ∧ z.lru ≤ v then (1 : Int) else 0)).sum =
      occupied_count cs := by
  induction cs with
  | nil => simp [higher_count, occupied_count]
  | cons a rest ih =>
    simp only [higher_count, occupied_count, List.map_cons, List.sum_cons] at ih ⊢
    by_cases ho : occupied a = true
    · by_cases hv : a.lru > v
      · have hv' : ¬ a.lru ≤ v := by omega
        simp only [ho, hv, hv', and_self, and_false, if_true, if_false]
        omega
      · have hv' : a.lru ≤ v := by omega
        simp only [ho, hv, hv', and_self, and_false, if_true, if_false]
        omega
    · have ho' : occupied a = false := by simpa using ho
      simp only [ho', Bool.false_eq_true, false_and, if_false, zero_add]
      exact ih

theorem flush_evict_floor (L : Limits) (m : Int) (l : List Nat) (st st' : FlushState)
    (h : flush_evict L m l st = .ok st') :
    min st.occupied_slots (L.MIN_CACHE : Int) ≤ st'.occupied_slots := by
  induction l generalizing st with
  | nil =>
    simp only [flush_evict, Except.ok.injEq] at h
    subst h
    exact min_le_left _ _
  | cons i rest ih =>
    unfold flush_evict at h
    by_cases hp : flush_pressure L m st = true
    · have hgt : st.occupied_slots > (L.MIN_CACHE : Int) := by
        simp only [flush_pressure, decide_eq_true_eq] at hp
        exact hp.1
      simp only [hp, if_true] at h
      cases hc : st.cache[i]? with
      | none => simp [hc] at h
      | some p =>
        simp only [hc] at h
        by_cases he : evictable p = true
        · rw [if_pos ((evictable_iff p).2 he)] at h
          cases hf : p.filename with
          | none => simp [hf] at h
          | some fn =>
            cases hb : slot_bytes p with
            | error e => simp [hf, hb] at h
            | ok b =>
              simp only [hf, hb] at h
              have := ih _ h
              simp only at this
              have h1 : min (st.occupied_slots - 1) (L.MIN_CACHE : Int) = (L.MIN_CACHE : Int) :=
                min_eq_right (by omega)
              have h2 : min st.occupied_slots (L.MIN_CACHE : Int) = (L.MIN_CACHE : Int) :=
                min_eq_right (by omega)
              rw [h1] at this
              rw [h2]
              exact this
        · rw [if_neg (fun hh => he ((evictable_iff p).1 hh))] at h
          exact ih _ h
    · have hp' : flush_pressure L m st = false := by simpa using hp
      simp only [hp', Bool.false_eq_true, if_false, Except.ok.injEq] at h
      subst h
      exact min_le_left _ _

theorem flush_cache_floor (P : Platform) (L : Limits) (s s' : State)
    (h : flush_cache P L s = .ok s') :
    min (occupied_count s.cache) (L.MIN_CACHE : Int) ≤ occupied_count s'.cache := by
  unfold flush_cache at h
  cases hv : flush_count s.cache 0 { total := 0, occupied_slots := 0, list := [] } with
  | error e => simp [hv] at h
  | ok v =>
    simp only [hv] at h
    obtain ⟨_, ho, _, _⟩ := flush_count_spec _ _ _ _ hv
    simp only [zero_add] at ho
    by_cases htrig : v.total > s.max_cache_bytes ∨ v.occupied_slots > L.limit
    · rw [if_neg (not_not.2 htrig)] at h
      cases hst : flush_evict L s.max_cache_bytes (P.qsort (ptr_compare s.cache) v.list)
          { cache := s.cache, file_cache := s.file_cache, total := v.total,
            occupied_slots := v.occupied_slots } with
      | error e => simp [hst] at h
      | ok st =>
        simp only [hst, Except.ok.injEq] at h
        have hfl := flush_evict_floor _ _ _ _ _ hst
        obtain ⟨hco, _⟩ := flush_evict_counters _ _ _ _ _ hst
        simp only at hfl hco
        rw [← h]
        simp only
        have e1 : st.occupied_slots = occupied_count st.cache := by omega
        rw [← e1, ← ho]
        exact hfl
    · rw [if_pos htrig] at h
      simp only [Except.ok.injEq] at h
      rw [← h]
      exact min_le_left _ _

theorem flush_evict_total (L : Limits) (m : Int) (l : List Nat) (st : FlushState)
    (hl : ∀ i ∈ l, i < st.cache.length) (hok : ∀ z ∈ st.cache, slot_ok z = true) :
    ∃ st', flush_evict L m l st = .ok st' := by
  induction l generalizing st with
  | nil => exact ⟨st, rfl⟩
  | cons i rest ih =>
    unfold flush_evict
    by_cases hp : flush_pressure L m st = true
    · simp only [hp, if_true]
      have hi := hl i (List.mem_cons_self _ _)
      have hc : st.cache[i]? = some (st.cache[i]) := List.getElem?_eq_getElem hi
      simp only [hc]
      have hrest : ∀ k ∈ rest, k < st.cache.length :=
        fun k hk => hl k (List.mem_cons_of_mem _ hk)
      by_cases he : evictable (st.cache[i]) = true
      · rw [if_pos ((evictable_iff _).2 he)]
        have hz := hok (st.cache[i]) (List.getElem_mem _)
        simp only [slot_ok, Bool.and_eq_true, decide_eq_true_eq] at hz
        obtain ⟨h0, _, _, _⟩ := evictable_status _ he
        have hfn := hz.2 h0
        cases hf : (st.cache[i]).filename with
        | none => rw [hf] at hfn; cases hfn
        | some fn =>
          have hb : ∃ b, slot_bytes (st.cache[i]) = .ok b := by
            unfold slot_bytes
            by_cases hs : (st.cache[i]).status = LOAD_available
            · rw [if_pos hs]
              have := hz.1 hs
              cases hi : (st.cache[i]).image with
              | none => rw [hi] at this; cases this
              | some im => exact ⟨_, rfl⟩
            · rw [if_neg hs]
              split
              · exact ⟨_, rfl⟩
              · exact ⟨_, rfl⟩
          obtain ⟨b, hb⟩ := hb
          simp only [hb]
          apply ih
          · simpa using hrest
          · intro z hz'
            simp only at hz'
            rcases List.mem_or_eq_of_mem_set hz' with hz' | rfl
            · exact hok z hz'
            · simp [slot_ok, evicted]
      · rw [if_neg (fun hh => he ((evictable_iff _).1 hh))]
        exact ih st hrest hok
    · have hp' : flush_pressure L m st = false := by simpa using hp
      simp only [hp', Bool.false_eq_true, if_false]
      exact ⟨st, rfl⟩

/-- A call of `flush_cache` returns whenever the payload of every slot agrees
with its status. -/
theorem flush_cache_total (P : Platform) (L : Limits) (s : State)
    (hok : ∀ z ∈ s.cache, slot_ok z = true) : ∃ s', flush_cache P L s = .ok s' := by
  have himg : ∀ z ∈ s.cache, z.status = LOAD_available → z.image.isSome = true := by
    intro z hz hs
    have := hok z hz
    simp only [slot_ok, Bool.and_eq_true, decide_eq_true_eq] at this
    exact this.1 hs
  obtain ⟨v, hv⟩ := flush_count_total s.cache 0 { total := 0, occupied_slots := 0, list := [] } himg
  obtain ⟨_, _, hl, _⟩ := flush_count_spec _ _ _ _ hv
  unfold flush_cache
  simp only [hv]
  by_cases htrig : v.total > s.max_cache_bytes ∨ v.occupied_slots > L.limit
  · rw [if_neg (not_not.2 htrig)]
    have hrange : ∀ i ∈ P.qsort (ptr_compare s.cache) v.list, i < s.cache.length := by
      intro i hi
      rw [(P.qsort_perm (ptr_compare s.cache) v.list).mem_iff, hl] at hi
      rcases hi with hi | ⟨k, p, hk, hp, _⟩
      · cases hi
      · rw [hk, zero_add]; exact getElem?_lt_of_some _ _ _ hp
    obtain ⟨st, hst⟩ := flush_evict_total L s.max_cache_bytes _
      { cache := s.cache, file_cache := s.file_cache, total := v.total,
        occupied_slots := v.occupied_slots } hrange hok
    simp only [hst]
    exact ⟨_, rfl⟩
  · rw [if_pos htrig]
    exact ⟨s, rfl⟩

theorem sum_map_zero (cs : List ImageFile) : (cs.map (fun _ => (0 : Int))).sum = 0 := by
  induction cs with
  | nil => rfl
  | cons a rest ih => simp only [List.map_cons, List.sum_cons, ih]; rfl

theorem top_resident_le (L : Limits) (cs : List ImageFile) :
    top_resident L cs ≤ total_resident cs := by
  unfold top_resident total_resident
  apply sum_le_sum_pointwise _ _ cs cs rfl
  intro j p q hp hq
  rw [hp] at hq
  cases hq
  split
  · exact le_refl _
  · exact resident_nonneg p

theorem pairwise_distinct_index (cs : List ImageFile)
    (h : cs.Pairwise (fun p q => occupied p = true → occupied q = true → p.lru ≠ q.lru)) :
    ∀ (i j : Nat) (p q : ImageFile), cs[i]? = some p → cs[j]? = some q →
      occupied p = true → occupied q = true → p.lru = q.lru → i = j := by
  intro i j p q hp hq hop hoq heq
  have hi := getElem?_lt_of_some _ _ _ hp
  have hj := getElem?_lt_of_some _ _ _ hq
  rw [List.getElem?_eq_getElem hi] at hp
  rw [List.getElem?_eq_getElem hj] at hq
  cases hp
  cases hq
  rw [List.pairwise_iff_getElem] at h
  rcases Nat.lt_trichotomy i j with hlt | heq' | hgt
  · exact absurd heq (h i j hi hj hlt hop hoq)
  · exact heq'
  · exact absurd heq.symm (h j i hj hi hgt hoq hop)

/-- C3. Eviction stops at the reserved minimum. A returning `flush_cache`
leaves at least `min(k, MIN_CACHE)` of the `k` occupied slots occupied. When
moreover all `k > MIN_CACHE` occupied slots are owned by the main thread,
their priorities are pairwise distinct, and the `MIN_CACHE` highest-priority
slots alone exceed the byte budget, it returns with exactly `MIN_CACHE`
occupied slots, the budget still exceeded, having evicted exactly the occupied
slots that at least `MIN_CACHE` occupied slots outrank (the `k - MIN_CACHE`
lowest priorities). And the call does return on every table whose payloads
agree with the statuses. -/
theorem flush_cache_reserved_minimum (P : Platform) (L : Limits) (s : State) :
    (∀ s', flush_cache P L s = .ok s' →
      min (occupied_count s.cache) (L.MIN_CACHE : Int) ≤ occupied_count s'.cache ∧
      ((L.MIN_CACHE : Int) < occupied_count s.cache →
        (∀ z ∈ s.cache, occupied z = true → MAIN_OWNS z = true) →
        s.cache.Pairwise (fun p q => occupied p = true → occupied q = true → p.lru ≠ q.lru) →
        top_resident L s.cache > s.max_cache_bytes →
        occupied_count s'.cache = (L.MIN_CACHE : Int) ∧
        total_resident s'.cache > s'.max_cache_bytes ∧
        ∀ (j : Nat) (p : ImageFile), s.cache[j]? = some p → occupied p = true →
          s'.cache[j]? =
            some (if (L.MIN_CACHE : Int) ≤ higher_count s.cache p.lru then evicted p else p))) ∧
    ((∀ z ∈ s.cache, slot_ok z = true) → ∃ s', flush_cache P L s = .ok s') := by
  refine ⟨fun s' h => ?_, flush_cache_total P L s⟩
  have hfloor := flush_cache_floor P L s s' h
  refine ⟨hfloor, ?_⟩
  intro hk hmo hpair hbud
  have hdist := pairwise_distinct_index s.cache hpair
  have htop := top_resident_le L s.cache
  obtain ⟨_, hcase | ⟨l1, l2, hsorted, hmem, hs, _, hstop⟩⟩ := flush_cache_spec P L s s' h
  · exfalso
    have := hcase.2.1
    omega
  · subst hs
    simp only at hfloor hstop ⊢
    have hget := evict_slots_get l1 s.cache
    have hlen := evict_slots_length l1 s.cache
    have hA : ∀ (j : Nat) (p : ImageFile) (i : Nat) (q : ImageFile), s.cache[j]? = some p →
        s.cache[i]? = some q → (j ∈ l1 ∧ evictable p = true) → occupied q = true →
        ¬ (i ∈ l1 ∧ evictable q = true) → p.lru < q.lru := by
      intro j p i q hp hq hev hoq hne
      have hown := hmo q (List.getElem?_mem hq) hoq
      have hevq : evictable q = true := by simp [evictable, hown, hoq]
      have hi1 : i ∉ l1 := fun hh => hne ⟨hh, hevq⟩
      have hi2 : i ∈ l2 := by
        rcases List.mem_append.1 ((hmem i).2 ⟨q, hq, hown⟩) with hh | hh
        · exact absurd hh hi1
        · exact hh
      have hle := (ptr_compare_le s.cache j i p q hp hq).1
        ((List.pairwise_append.1 hsorted).2.2 j hev.1 i hi2)
      have hop : occupied p = true := by
        have := hev.2
        simp only [evictable, Bool.and_eq_true] at this
        exact this.2
      have hneq : p.lru ≠ q.lru := by
        intro heq
        have := hdist j i p q hp hq hop hoq heq
        subst this
        exact hi1 hev.1
      omega
    have hB : (L.MIN_CACHE : Int) ≤ occupied_count (evict_slots l1 s.cache) := by
      rw [min_eq_right (le_of_lt hk)] at hfloor
      exact hfloor
    have hC : ∀ v : Int, (∀ (i : Nat) (q : ImageFile), s.cache[i]? = some q → occupied q = true →
        ¬ (i ∈ l1 ∧ evictable q = true) → q.lru > v) →
        occupied_count (evict_slots l1 s.cache) ≤ higher_count s.cache v := by
      intro v hv
      unfold occupied_count higher_count
      apply sum_le_sum_pointwise _ _ _ _ hlen
      intro i q' q hq' hq
      rw [hget i q hq] at hq'
      cases hq'
      by_cases hev : i ∈ l1 ∧ evictable q = true
      · rw [if_pos hev]
        simp only [occupied_evicted, Bool.false_eq_true, if_false]
        split
        · omega
        · exact le_refl _
      · rw [if_neg hev]
        by_cases hoq : occupied q = true
        · have := hv i q hq hoq hev
          simp [hoq, this]
        · simp [hoq]
    have hD : ∀ (t : Nat) (pt : ImageFile), s.cache[t]? = some pt →
        higher_count s.cache pt.lru < (L.MIN_CACHE : Int) → ¬ (t ∈ l1 ∧ evictable pt = true) := by
      intro t pt hpt hhi hev
      have := hC pt.lru (fun i q hq hoq hne => hA t pt i q hpt hq hev hoq hne)
      omega
    have hE : top_resident L s.cache ≤ total_resident (evict_slots l1 s.cache) := by
      unfold top_resident total_resident
      apply sum_le_sum_pointwise _ _ _ _ hlen.symm
      intro j p q' hp hq'
      rw [hget j p hp] at hq'
      cases hq'
      by_cases htp : occupied p = true ∧ higher_count s.cache p.lru < (L.MIN_CACHE : Int)
      · rw [if_pos htp, if_neg (hD j p hp htp.2)]
      · rw [if_neg htp]
        exact resident_nonneg _
    have hF : occupied_count (evict_slots l1 s.cache) = (L.MIN_CACHE : Int) := by
      rcases hstop with hl2 | hno
      · have hzero : occupied_count (evict_slots l1 s.cache) ≤ 0 := by
          rw [← sum_map_zero s.cache]
          unfold occupied_count
          apply sum_le_sum_pointwise _ _ _ _ hlen
          intro i q' q hq' hq
          rw [hget i q hq] at hq'
          cases hq'
          by_cases hoq : occupied q = true
          · have hown := hmo q (List.getElem?_mem hq) hoq
            have hin : i ∈ l1 := by
              have := (hmem i).2 ⟨q, hq, hown⟩
              rw [hl2] at this
              simpa using this
            have hev : i ∈ l1 ∧ evictable q = true := ⟨hin, by simp [evictable, hown, hoq]⟩
            rw [if_pos hev]
            simp [occupied_evicted]
          · have : ¬ (i ∈ l1 ∧ evictable q = true) := by
              rintro ⟨_, he⟩
              simp only [evictable, Bool.and_eq_true] at he
              exact hoq he.2
            rw [if_neg this]
            simp [hoq]
        omega
      · by_contra hne
        apply hno
        exact ⟨by omega, Or.inr (by omega)⟩
    refine ⟨hF, by omega, ?_⟩
    intro j p hp hop
    rw [hget j p hp]
    congr 1
    by_cases hev : j ∈ l1 ∧ evictable p = true
    · have := hC p.lru (fun i q hq hoq hne => hA j p i q hp hq hev hoq hne)
      rw [if_pos hev, if_pos (by omega)]
    · have hle : higher_count s.cache p.lru ≤ higher_count (evict_slots l1 s.cache) p.lru := by
        unfold higher_count
        apply sum_le_sum_pointwise _ _ _ _ hlen.symm
        intro i q q' hq hq'
        rw [hget i q hq] at hq'
        cases hq'
        by_cases hc : occupied q = true ∧ q.lru > p.lru
        · have hnev : ¬ (i ∈ l1 ∧ evictable q = true) := by
            intro hevq
            have := hA i q j p hq hp hevq hop hev
            omega
          rw [if_neg hnev]
        · rw [if_neg hc]
          split
          · omega
          · exact le_refl _
      have hsplit := higher_add_rest (evict_slots l1 s.cache) p.lru
      have hself : (evict_slots l1 s.cache)[j]? = some p := by
        rw [hget j p hp, if_neg hev]
      have hone := le_sum_of_mem
        (fun z => if occupied z = true ∧ z.lru ≤ p.lru then (1 : Int) else 0)
        (evict_slots l1 s.cache) (fun z _ => by simp only; split <;> omega)
        p (List.getElem?_mem hself)
      simp only [hop, le_refl, and_self, if_true] at hone
      rw [if_neg hev, if_neg (by omega)]

/-! ## queue_disk_command -/

theorem find_unused_some (cs : List ImageFile) (i k : Nat) (h : find_unused cs i = some k) :
    ∃ j z, k = i + j ∧ cs[j]? = some z ∧ z.status = LOAD_unused := by
  induction cs generalizing i with
  | nil => simp [find_unused] at h
  | cons a rest ih =>
    unfold find_unused at h
    by_cases ha : a.status = LOAD_unused
    · rw [if_pos ha] at h
      cases h
      exact ⟨0, a, rfl, by simp, ha⟩
    · rw [if_neg ha] at h
      obtain ⟨j, z, hk, hj, hz⟩ := ih (i + 1) h
      exact ⟨j + 1, z, by omega, by simpa using hj, hz⟩

theorem find_unused_none (cs : List ImageFile) (i : Nat) (h : find_unused cs i = none) :
    unused_count cs = 0 := by
  induction cs generalizing i with
  | nil => rfl
  | cons a rest ih =>
    unfold find_unused at h
    by_cases ha : a.status = LOAD_unused
    · rw [if_pos ha] at h
      cases h
    · rw [if_neg ha] at h
      have := ih (i + 1) h
      simp only [unused_count, List.map_cons, List.sum_cons] at this ⊢
      rw [this]
      simp [occupied, ha]

theorem unused_count_set (cs : List ImageFile) (i : Nat) (p q : ImageFile)
    (h : cs[i]? = some p) :
    unused_count cs - 1 ≤ unused_count (cs.set i q) := by
  unfold unused_count
  rw [sum_map_set _ cs i p q h]
  have h1 : (if occupied p = true then (0 : Int) else 1) ≤ 1 := by split <;> omega
  have h2 : (0 : Int) ≤ (if occupied q = true then (0 : Int) else 1) := by split <;> omega
  omega

theorem unused_count_set_same (cs : List ImageFile) (i : Nat) (p q : ImageFile)
    (h : cs[i]? = some p) (hocc : occupied q = occupied p) :
    unused_count (cs.set i q) = unused_count cs := by
  unfold unused_count
  rw [sum_map_set _ cs i p q h, hocc]
  omega

theorem fileinfo_at_ok (fis : List FileInfo) (w : Int) (fi : FileInfo)
    (h : fileinfo_at fis w = .ok fi) : 0 ≤ w ∧ fis[w.toNat]? = some fi := by
  unfold fileinfo_at at h
  split at h
  · rename_i hw
    refine ⟨hw, ?_⟩
    split at h
    · rename_i f hf
      cases h
      exact hf
    · cases h
  · cases h

theorem queue_tail_spec (s : State) (dc : DiskCommand) (zi : Nat) (fi : FileInfo)
    (r : State × DiskCommand) (h : queue_tail s dc zi fi = .ok r) :
    ∃ z, s.cache[zi]? = some z ∧
      r.1 = { s with cache := s.cache.set zi (prepared z fi.lru) } ∧
      r.2.files = dc.files ++ [zi] := by
  unfold queue_tail at h
  cases hz : s.cache[zi]? with
  | none => simp [hz] at h
  | some z =>
    simp only [hz] at h
    split at h
    · cases h
      exact ⟨z, rfl, rfl, rfl⟩
    · cases h

theorem update_source_cache (P : Platform) (s s2 : State) (q : Nat)
    (h : update_source P s q = .ok s2) :
    s2.cache = s.cache ∧ s2.file_cache = s.file_cache ∧ s2.fileinfo = s.fileinfo ∧
      s2.cur_loc = s.cur_loc ∧ s2.lru_stamp = s.lru_stamp ∧
      s2.max_cache_bytes = s.max_cache_bytes ∧ s2.dc_shared = s.dc_shared := by
  unfold update_source at h
  cases hz : s.cache[q]? with
  | none => simp [hz] at h
  | some z =>
    simp only [hz] at h
    cases hi : z.image with
    | none =>
      simp only [hi, Except.ok.injEq] at h
      subst h
      exact ⟨rfl, rfl, rfl, rfl, rfl, rfl, rfl⟩
    | some im =>
      simp only [hi, Except.ok.injEq] at h
      subst h
      exact ⟨rfl, rfl, rfl, rfl, rfl, rfl, rfl⟩

theorem set_error_cache (s s2 : State) (q : Nat) (h : set_error s q = .ok s2) :
    s2.cache = s.cache ∧ s2.file_cache = s.file_cache ∧ s2.fileinfo = s.fileinfo ∧
      s2.cur_loc = s.cur_loc ∧ s2.lru_stamp = s.lru_stamp ∧
      s2.max_cache_bytes = s.max_cache_bytes ∧ s2.dc_shared = s.dc_shared := by
  unfold set_error at h
  cases hz : s.cache[q]? with
  | none => simp [hz] at h
  | some z =>
    simp only [hz] at h
    cases hf : z.filename with
    | none => simp [hf] at h
    | some fn =>
      cases he : z.error with
      | none => simp [hf, he] at h
      | some err =>
        simp only [hf, he, Except.ok.injEq] at h
        subst h
        exact ⟨rfl, rfl, rfl, rfl, rfl, rfl, rfl⟩

/-- What a returning call of `queue_disk_command` did. Either the file had a
slot that is not inactive: the slot got the priority of the file and nothing
was queued. Or the file had an inactive slot, or got the first unused slot:
that slot was prepared and appended to the command. -/
theorem queue_disk_command_spec (P : Platform) (s : State) (dc : DiskCommand) (which : Int)
    (mc : Bool) (r : State × DiskCommand) (h : queue_disk_command P s dc which mc = .ok r) :
    ∃ fis fi, s.fileinfo = some fis ∧ fileinfo_at fis which = .ok fi ∧
      r.1.fileinfo = s.fileinfo ∧ r.1.cur_loc = s.cur_loc ∧ r.1.lru_stamp = s.lru_stamp ∧
      r.1.max_cache_bytes = s.max_cache_bytes ∧ r.1.dc_shared = s.dc_shared ∧
      ((∃ zi z, stb_sdict_get s.file_cache fi.filename = some zi ∧ s.cache[zi]? = some z ∧
          z.status ≠ LOAD_inactive ∧ r.1.cache = s.cache.set zi { z with lru := fi.lru } ∧
          r.1.file_cache = s.file_cache ∧ r.2 = dc) ∨
       (∃ zi z, stb_sdict_get s.file_cache fi.filename = some zi ∧ s.cache[zi]? = some z ∧
          z.status = LOAD_inactive ∧
          r.1.cache = s.cache.set zi (prepared z fi.lru) ∧
          r.1.file_cache = s.file_cache ∧ r.2.files = dc.files ++ [zi]) ∨
       (∃ i z, stb_sdict_get s.file_cache fi.filename = none ∧ s.cache[i]? = some z ∧
          z.status = LOAD_unused ∧
          r.1.cache = s.cache.set i (prepared { z with filename := some fi.filename } fi.lru) ∧
          r.1.file_cache = stb_sdict_add s.file_cache fi.filename i ∧
          r.2.files = dc.files ++ [i])) := by
  unfold queue_disk_command at h
  obtain ⟨fis, hfis⟩ : ∃ fis, s.fileinfo = some fis := by
    cases hx : s.fileinfo with
    | none => simp [hx] at h
    | some v => exact ⟨v, rfl⟩
  simp only [hfis] at h
  obtain ⟨fi, hfi⟩ : ∃ fi, fileinfo_at fis which = .ok fi := by
    cases hx : fileinfo_at fis which with
    | error e => simp [hx] at h
    | ok v => exact ⟨v, rfl⟩
  simp only [hfi] at h
  refine ⟨fis, fi, hfis, hfi, ?_⟩
  cases hlook : stb_sdict_get s.file_cache fi.filename with
  | some zi =>
    simp only [hlook] at h
    obtain ⟨z, hz⟩ : ∃ z, s.cache[zi]? = some z := by
      cases hx : s.cache[zi]? with
      | none => simp [hx] at h
      | some v => exact ⟨v, rfl⟩
    simp only [hz] at h
    have hzi := getElem?_lt_of_some _ _ _ hz
    split at h
    · rename_i hown
      cases h
      have hst : z.status ≠ LOAD_inactive := by
        intro hc
        simp [MAIN_OWNS, hc, LoadStatus.code] at hown
      exact ⟨hfis.symm, rfl, rfl, rfl, rfl, Or.inl ⟨zi, z, rfl, hz, hst, rfl, rfl, rfl⟩⟩
    · split at h
      · rename_i hst
        cases h
        have hne : z.status ≠ LOAD_inactive := by
          have : z.status = LOAD_reading_done := hst
          rw [this]; decide
        exact ⟨hfis.symm, rfl, rfl, rfl, rfl, Or.inl ⟨zi, z, rfl, hz, hne, rfl, rfl, rfl⟩⟩
      · split at h
        · rename_i hst
          have hne : z.status ≠ LOAD_inactive := by
            have : z.status = LOAD_available := hst
            rw [this]; decide
          split at h
          · split at h
            · rename_i s2 hs2
              cases h
              obtain ⟨h1, h2, h3, h4, h5, h6, h7⟩ := update_source_cache P _ _ _ hs2
              exact ⟨h3.trans hfis.symm, h4, h5, h6, h7, Or.inl ⟨zi, z, rfl, hz, hne, h1, h2, rfl⟩⟩
            · cases h
          · cases h
            exact ⟨hfis.symm, rfl, rfl, rfl, rfl, Or.inl ⟨zi, z, rfl, hz, hne, rfl, rfl, rfl⟩⟩
        · split at h
          · rename_i hst
            have hne : z.status ≠ LOAD_inactive := hst
            split at h
            · split at h
              · rename_i s2 hs2
                cases h
                obtain ⟨h1, h2, h3, h4, h5, h6, h7⟩ := set_error_cache _ _ _ hs2
                exact ⟨h3.trans hfis.symm, h4, h5, h6, h7, Or.inl ⟨zi, z, rfl, hz, hne, h1, h2, rfl⟩⟩
              · cases h
            · cases h
              exact ⟨hfis.symm, rfl, rfl, rfl, rfl, Or.inl ⟨zi, z, rfl, hz, hne, rfl, rfl, rfl⟩⟩
          · rename_i hst
            have hin : z.status = LOAD_inactive := by
              by_contra hc
              exact hst hc
            obtain ⟨z1, hz1, hr1, hr2⟩ := queue_tail_spec _ _ _ _ _ h
            simp only [List.getElem?_set, hzi, if_true] at hz1
            cases hz1
            rw [hr1]
            refine ⟨hfis.symm, rfl, rfl, rfl, rfl,
              Or.inr (Or.inl ⟨zi, z, rfl, hz, hin, ?_, rfl, hr2⟩)⟩
            simp [List.set_set, prepared]
  | none =>
    simp only [hlook] at h
    obtain ⟨i, hfu⟩ : ∃ i, find_unused s.cache 0 = some i := by
      cases hx : find_unused s.cache 0 with
      | none => simp [hx] at h
      | some v => exact ⟨v, rfl⟩
    simp only [hfu] at h
    obtain ⟨z, hz⟩ : ∃ z, s.cache[i]? = some z := by
      cases hx : s.cache[i]? with
      | none => simp [hx] at h
      | some v => exact ⟨v, rfl⟩
    simp only [hz] at h
    have hzi := getElem?_lt_of_some _ _ _ hz
    obtain ⟨j, z', hij, hj, hun⟩ := find_unused_some _ _ _ hfu
    rw [zero_add] at hij
    subst hij
    rw [hz] at hj
    cases hj
    obtain ⟨z1, hz1, hr1, hr2⟩ := queue_tail_spec _ _ _ _ _ h
    simp only [List.getElem?_set, hzi, if_true] at hz1
    cases hz1
    rw [hr1]
    refine ⟨hfis.symm, rfl, rfl, rfl, rfl,
      Or.inr (Or.inr ⟨i, z, rfl, hz, hun, ?_, rfl, hr2⟩)⟩
    simp [List.set_set, prepared]

/-! ## Where `stb_fatal` can be reached -/

theorem init_filelist_cache (P : Platform) (s s0 : State) (h : init_filelist P s = .ok s0) :
    s0.cache = s.cache ∧ s0.file_cache = s.file_cache ∧
      s0.max_cache_bytes = s.max_cache_bytes := by
  unfold init_filelist at h
  simp only at h
  split at h
  · cases h
  · rename_i s1 hs1
    have h1 : s1.cache = s.cache ∧ s1.file_cache = s.file_cache ∧
        s1.max_cache_bytes = s.max_cache_bytes := by
      split at hs1
      · split at hs1
        · cases hs1; exact ⟨rfl, rfl, rfl⟩
        · cases hs1
      · cases hs1; exact ⟨rfl, rfl, rfl⟩
    split at h <;> first | (cases h; exact h1) | cases h

theorem advance_move_cache (P : Platform) (s s0 : State) (dir : Int)
    (h : advance_move P s dir = .ok s0) :
    s0.cache = s.cache ∧ s0.file_cache = s.file_cache ∧
      s0.max_cache_bytes = s.max_cache_bytes := by
  unfold advance_move at h
  split at h
  · cases h
  · rename_i s1 hs1
    have h1 : s1.cache = s.cache ∧ s1.file_cache = s.file_cache ∧
        s1.max_cache_bytes = s.max_cache_bytes := by
      split at hs1
      · exact init_filelist_cache P s s1 hs1
      · cases hs1; exact ⟨rfl, rfl, rfl⟩
    split at h
    · cases h
    · split at h
      · cases h
      · split at h
        · cases h
        · split at h
          · cases h
          · split at h
            · cases h
            · split at h
              · cases h
              · split at h
                · cases h
                · cases h
                  exact h1

theorem queue_disk_command_unused (P : Platform) (s : State) (dc : DiskCommand) (which : Int)
    (mc : Bool) (r : State × DiskCommand) (h : queue_disk_command P s dc which mc = .ok r) :
    unused_count s.cache - 1 ≤ unused_count r.1.cache := by
  obtain ⟨fis, fi, _, _, _, _, _, _, _, hcase⟩ := queue_disk_command_spec P s dc which mc r h
  rcases hcase with ⟨zi, z, _, hz, _, hc, _, _⟩ | ⟨zi, z, _, hz, _, hc, _, _⟩ |
    ⟨i, z, _, hz, _, hc, _, _⟩
  · rw [hc]; exact unused_count_set _ _ _ _ hz
  · rw [hc]; exact unused_count_set _ _ _ _ hz
  · rw [hc]; exact unused_count_set _ _ _ _ hz

/-- A call of `queue_disk_command` for a file whose name maps to a slot that
is not inactive returns, unless it has to display the error of a slot that
lacks a filename or an error message. -/
theorem queue_disk_command_cached_returns (P : Platform) (s : State) (dc : DiskCommand)
    (which : Int) (mc : Bool) (fis : List FileInfo) (fi : FileInfo) (zi : Nat) (z : ImageFile)
    (hfis : s.fileinfo = some fis) (hfi : fileinfo_at fis which = .ok fi)
    (hlook : stb_sdict_get s.file_cache fi.filename = some zi)
    (hz : s.cache[zi]? = some z) (hst : z.status ≠ LOAD_inactive)
    (hsafe : mc = false ∨ MAIN_OWNS z = false ∨ z.status = LOAD_reading_done ∨
      z.status = LOAD_available ∨ (z.filename.isSome = true ∧ z.error.isSome = true)) :
    ∃ r, queue_disk_command P s dc which mc = .ok r := by
  have hzi := getElem?_lt_of_some _ _ _ hz
  have hself : (s.cache.set zi { z with lru := fi.lru })[zi]? = some { z with lru := fi.lru } := by
    simp [List.getElem?_set, hzi]
  unfold queue_disk_command
  simp only [hfis, hfi, hlook, hz]
  by_cases h1 : MAIN_OWNS { z with lru := fi.lru } = false
  · rw [if_pos h1]; exact ⟨_, rfl⟩
  · rw [if_neg h1]
    by_cases h2 : z.status = LOAD_reading_done
    · rw [if_pos h2]; exact ⟨_, rfl⟩
    · rw [if_neg h2]
      by_cases h3 : z.status = LOAD_available
      · rw [if_pos h3]
        cases mc with
        | false => exact ⟨_, rfl⟩
        | true =>
          simp only [if_true]
          unfold update_source
          simp only [hself]
          cases z.image with
          | none => exact ⟨_, rfl⟩
          | some im => exact ⟨_, rfl⟩
      · rw [if_neg h3, if_pos hst]
        cases mc with
        | false => exact ⟨_, rfl⟩
        | true =>
          simp only [if_true]
          have hpay : z.filename.isSome = true ∧ z.error.isSome = true := by
            rcases hsafe with h | h | h | h | h
            · cases h
            · exact absurd h h1
            · exact absurd h h2
            · exact absurd h h3
            · exact h
          unfold set_error
          simp only [hself]
          cases hf : z.filename with
          | none => rw [hf] at hpay; cases hpay.1
          | some fn =>
            cases he : z.error with
            | none => rw [he] at hpay; cases hpay.2
            | some err => exact ⟨_, rfl⟩

/-- C9. Requesting a file whose name already maps to a slot that is not
inactive is a no-op apart from a priority bump: a returning
`queue_disk_command` leaves the command and the filename lookup as they were,
and the cache is the cache before with the priority of that slot set to the
priority of the file in the file list (no status or payload changes, no other
slot changes). The call returns unless it has to display the error of a slot
that lacks a filename or an error message. -/
theorem queue_disk_command_cached (P : Platform) (s : State) (dc : DiskCommand) (which : Int)
    (mc : Bool) (fis : List FileInfo) (fi : FileInfo) (zi : Nat) (z : ImageFile)
    (hfis : s.fileinfo = some fis) (hfi : fileinfo_at fis which = .ok fi)
    (hlook : stb_sdict_get s.file_cache fi.filename = some zi)
    (hz : s.cache[zi]? = some z) (hst : z.status ≠ LOAD_inactive) :
    (∀ r, queue_disk_command P s dc which mc = .ok r →
      r.2 = dc ∧ r.1.cache = s.cache.set zi { z with lru := fi.lru } ∧
        r.1.file_cache = s.file_cache) ∧
    ((mc = false ∨ MAIN_OWNS z = false ∨ z.status = LOAD_reading_done ∨
        z.status = LOAD_available ∨ (z.filename.isSome = true ∧ z.error.isSome = true)) →
      ∃ r, queue_disk_command P s dc which mc = .ok r) := by
  refine ⟨?_, queue_disk_command_cached_returns P s dc which mc fis fi zi z hfis hfi hlook hz hst⟩
  intro r h
  obtain ⟨fis', fi', hfis', hfi', _, _, _, _, _, hcase⟩ :=
    queue_disk_command_spec P s dc which mc r h
  rw [hfis] at hfis'
  cases hfis'
  rw [hfi] at hfi'
  cases hfi'
  rcases hcase with ⟨zi', z', hl, hz', _, hc, hfc, hdc⟩ | ⟨zi', z', hl, hz', hin, _⟩ |
    ⟨i, z', hl, _⟩
  · rw [hlook] at hl
    cases hl
    rw [hz] at hz'
    cases hz'
    exact ⟨hdc, hc, hfc⟩
  · rw [hlook] at hl
    cases hl
    rw [hz] at hz'
    cases hz'
    exact absurd hin hst
  · rw [hlook] at hl
    cases hl

/-! ## advance: the priorities it stamps -/

theorem set_lru_spec (fi fi' : List FileInfo) (i v : Int) (h : set_lru fi i v = .ok fi') :
    fi'.length = fi.length ∧
    ∀ w f, fileinfo_at fi' w = .ok f →
      (w = i ∧ f.lru = v) ∨ (w ≠ i ∧ fileinfo_at fi w = .ok f) := by
  unfold set_lru at h
  split at h
  · rename_i hi
    split at h
    · rename_i g hg
      cases h
      refine ⟨by simp, ?_⟩
      intro w f hf
      obtain ⟨hw, hget⟩ := fileinfo_at_ok _ _ _ hf
      by_cases hwi : w = i
      · left
        subst hwi
        have hlt : w.toNat < fi.length := by
          rcases Nat.lt_or_ge w.toNat fi.length with hlt | hge
          · exact hlt
          · rw [List.getElem?_eq_none hge] at hg; cases hg
        simp only [List.getElem?_set, hlt, if_true] at hget
        cases hget
        exact ⟨rfl, rfl⟩
      · right
        refine ⟨hwi, ?_⟩
        have hne : i.toNat ≠ w.toNat := by omega
        rw [List.getElem?_set_ne hne] at hget
        unfold fileinfo_at
        rw [if_pos hw, hget]
    · cases h
  · cases h

theorem wrap_congr (fi fi' : List FileInfo) (z : Int) (h : fi'.length = fi.length) :
    wrap (some fi') z = wrap (some fi) z := by
  unfold wrap
  simp only [h]

/-- The priorities `advance` leaves in the file list: the new current file
has the new counter value, and a neighbour has the new or the previous
counter value. -/
theorem advance_move_spec (P : Platform) (s s0 : State) (dir : Int)
    (h : advance_move P s dir = .ok s0) :
    ∃ fis, s0.fileinfo = some fis ∧
      (∀ f, fileinfo_at fis s0.cur_loc = .ok f → f.lru = s0.lru_stamp) ∧
      (∀ w f, (wrap (some fis) (s0.cur_loc - 1) = .ok w ∨
          wrap (some fis) (s0.cur_loc + 1) = .ok w) →
        fileinfo_at fis w = .ok f → f.lru = s0.lru_stamp ∨ f.lru = s0.lru_stamp - 1) := by
  unfold advance_move at h
  split at h
  · cases h
  · rename_i t ht
    split at h
    · cases h
    · rename_i fi hfi
      split at h
      · cases h
      · rename_i cur hcur
        split at h
        · cases h
        · rename_i a ha
          split at h
          · cases h
          · rename_i fi1 h1
            split at h
            · cases h
            · rename_i b hb
              split at h
              · cases h
              · rename_i fi2 h2
                split at h
                · cases h
                · rename_i fi3 h3
                  cases h
                  obtain ⟨l1, g1⟩ := set_lru_spec _ _ _ _ h1
                  obtain ⟨l2, g2⟩ := set_lru_spec _ _ _ _ h2
                  obtain ⟨l3, g3⟩ := set_lru_spec _ _ _ _ h3
                  have hl : fi3.length = fi.length := by omega
                  refine ⟨fi3, rfl, ?_, ?_⟩
                  · intro f hf
                    simp only at hf ⊢
                    rcases g3 _ f hf with ⟨_, hv⟩ | ⟨hne, _⟩
                    · exact hv
                    · exact absurd rfl hne
                  · intro w f hw hf
                    simp only at hw ⊢
                    rw [wrap_congr fi fi3 _ hl, wrap_congr fi fi3 _ hl, ← hfi, ha, hb] at hw
                    rcases g3 _ f hf with ⟨_, hv⟩ | ⟨_, hf2⟩
                    · left; exact hv
                    · right
                      rcases g2 _ f hf2 with ⟨_, hv⟩ | ⟨hnb, hf1⟩
                      · rw [hv]; omega
                      · rcases g1 _ f hf1 with ⟨_, hv⟩ | ⟨hna, _⟩
                        · rw [hv]; omega
                        · exfalso
                          rcases hw with hw | hw
                          · cases hw; exact hna rfl
                          · cases hw; exact hnb rfl

/-! ## advance onto a file that is already available -/

theorem flush_cache_other (P : Platform) (L : Limits) (s s' : State)
    (h : flush_cache P L s = .ok s') :
    s'.fileinfo = s.fileinfo ∧ s'.cur_loc = s.cur_loc ∧ s'.lru_stamp = s.lru_stamp ∧
      s'.max_cache_bytes = s.max_cache_bytes ∧ s'.dc_shared = s.dc_shared := by
  obtain ⟨_, hcase | ⟨l1, l2, _, _, hs, _, _⟩⟩ := flush_cache_spec P L s s' h
  · rw [hcase.1]; exact ⟨rfl, rfl, rfl, rfl, rfl⟩
  · rw [hs]; exact ⟨rfl, rfl, rfl, rfl, rfl⟩

/-- One call of `queue_disk_command` leaves an available slot available, with
its old priority or the priority of the requested file, and does not queue
it. -/
theorem queue_disk_command_keeps (P : Platform) (t : State) (dc : DiskCommand) (which : Int)
    (mc : Bool) (r : State × DiskCommand) (h : queue_disk_command P t dc which mc = .ok r)
    (zi : Nat) (z : ImageFile) (v : Int) (hz : t.cache[zi]? = some { z with lru := v })
    (hav : z.status = LOAD_available) (hnot : zi ∉ dc.files) :
    zi ∉ r.2.files ∧ r.1.fileinfo = t.fileinfo ∧ r.1.cur_loc = t.cur_loc ∧
      r.1.lru_stamp = t.lru_stamp ∧
      ∃ fis fi, t.fileinfo = some fis ∧ fileinfo_at fis which = .ok fi ∧
        (r.1.cache[zi]? = some { z with lru := v } ∨
          r.1.cache[zi]? = some { z with lru := fi.lru }) := by
  obtain ⟨fis, fi, hfis, hfi, e1, e2, e3, _, _, hcase⟩ :=
    queue_disk_command_spec P t dc which mc r h
  have hlt := getElem?_lt_of_some _ _ _ hz
  rcases hcase with ⟨zi', z', _, hz', _, hc, _, hdc⟩ | ⟨zi', z', _, hz', hin, hc, _, hdc⟩ |
    ⟨i, z', _, hz', hun, hc, _, hdc⟩
  · refine ⟨by rw [hdc]; exact hnot, e1, e2, e3, fis, fi, hfis, hfi, ?_⟩
    by_cases he : zi' = zi
    · subst he
      rw [hz] at hz'
      cases hz'
      right
      rw [hc]
      simp [List.getElem?_set, hlt]
    · left
      rw [hc, List.getElem?_set_ne he]
      exact hz
  · have he : zi' ≠ zi := by
      rintro rfl
      rw [hz] at hz'
      cases hz'
      simp only at hin
      rw [hav] at hin
      cases hin
    refine ⟨?_, e1, e2, e3, fis, fi, hfis, hfi, Or.inl ?_⟩
    · rw [hdc]
      simp only [List.mem_append, List.mem_singleton, not_or]
      exact ⟨hnot, Ne.symm he⟩
    · rw [hc, List.getElem?_set_ne he]
      exact hz
  · have he : i ≠ zi := by
      rintro rfl
      rw [hz] at hz'
      cases hz'
      simp only at hun
      rw [hav] at hun
      cases hun
    refine ⟨?_, e1, e2, e3, fis, fi, hfis, hfi, Or.inl ?_⟩
    · rw [hdc]
      simp only [List.mem_append, List.mem_singleton, not_or]
      exact ⟨hnot, Ne.symm he⟩
    · rw [hc, List.getElem?_set_ne he]
      exact hz

theorem advance_bail_get (stamp : Int) (cs : List ImageFile) (j : Nat) (z : ImageFile)
    (h : cs[j]? = some z) (hz : ¬ z.lru < stamp - 1) :
    (advance_bail stamp cs)[j]? = some z := by
  unfold advance_bail
  rw [List.getElem?_map, h]
  simp [hz]

/-- The queue block of `advance` leaves the available slot of the current
file available and out of the command; its priority becomes the priority of
the current file or of one of the two other files requested. -/
theorem advance_queue_keeps (P : Platform) (s1 : State) (dir : Int)
    (r : State × DiskCommand) (hq : advance_queue P s1 dir = .ok r)
    (fis : List FileInfo) (fi : FileInfo) (zi : Nat) (z : ImageFile)
    (hfis : s1.fileinfo = some fis) (hfi : fileinfo_at fis s1.cur_loc = .ok fi)
    (hlook : stb_sdict_get s1.file_cache fi.filename = some zi)
    (hz : s1.cache[zi]? = some z) (hav : z.status = LOAD_available) (A B : Int)
    (hvals : dir ≠ 0 → ∀ w f, (wrap (some fis) (s1.cur_loc + dir) = .ok w ∨
      wrap (some fis) (s1.cur_loc - dir) = .ok w) →
      fileinfo_at fis w = .ok f → f.lru = A ∨ f.lru = B) :
    zi ∉ r.2.files ∧ r.1.lru_stamp = s1.lru_stamp ∧
      ∃ v, (v = fi.lru ∨ v = A ∨ v = B) ∧ r.1.cache[zi]? = some { z with lru := v } := by
  unfold advance_queue at hq
  split at hq
  · cases hq
  · rename_i r1 hr1
    have hlt := getElem?_lt_of_some _ _ _ hz
    have hz0 : s1.cache[zi]? = some { z with lru := z.lru } := hz
    obtain ⟨hn1, e1, e2, e3, fis', fi', hfis', hfi', hc1⟩ :=
      queue_disk_command_keeps P s1 _ _ _ r1 hr1 zi z z.lru hz0 hav (by simp)
    rw [hfis] at hfis'
    cases hfis'
    rw [hfi] at hfi'
    cases hfi'
    have hc1' : r1.1.cache[zi]? = some { z with lru := fi.lru } := by
      obtain ⟨fis', fi', hfis', hfi', _, _, _, _, _, hcase⟩ :=
        queue_disk_command_spec P s1 _ _ _ r1 hr1
      rw [hfis] at hfis'
      cases hfis'
      rw [hfi] at hfi'
      cases hfi'
      rcases hcase with ⟨zi', z', hl, hz', _, hc, _, _⟩ | ⟨zi', z', hl, hz', hin, _⟩ |
        ⟨i, z', hl, _⟩
      · rw [hlook] at hl
        cases hl
        rw [hz] at hz'
        cases hz'
        rw [hc]
        simp [List.getElem?_set, hlt]
      · rw [hlook] at hl
        cases hl
        rw [hz] at hz'
        cases hz'
        rw [hav] at hin
        cases hin
      · rw [hlook] at hl
        cases hl
    simp only at hq
    have key : ∀ r3 : State × DiskCommand,
        (if dir ≠ 0 then
          match wrap r1.1.fileinfo (r1.1.cur_loc + dir) with
          | .error e => .error e
          | .ok w1 =>
            match queue_disk_command P r1.1 r1.2 w1 false with
            | .error e => .error e
            | .ok r2 =>
              match wrap r2.1.fileinfo (r2.1.cur_loc - dir) with
              | .error e => .error e
              | .ok w2 => queue_disk_command P r2.1 r2.2 w2 false
        else (.ok r1 : Except Fault (State × DiskCommand))) = .ok r3 →
        zi ∉ r3.2.files ∧ r3.1.lru_stamp = s1.lru_stamp ∧
          ∃ v, (v = fi.lru ∨ v = A ∨ v = B) ∧ r3.1.cache[zi]? = some { z with lru := v } := by
      intro r3 h3
      by_cases hd : dir ≠ 0
      · rw [if_pos hd] at h3
        split at h3
        · cases h3
        · rename_i w1 hw1
          split at h3
          · cases h3
          · rename_i r2 hr2
            split at h3
            · cases h3
            · rename_i w2 hw2
              obtain ⟨hn2, e1', e2', e3', fis2, fi2, hfis2, hfi2, hc2⟩ :=
                queue_disk_command_keeps P r1.1 _ _ _ r2 hr2 zi z fi.lru hc1' hav hn1
              rw [e1, hfis] at hfis2
              cases hfis2
              rw [e1, hfis, e2] at hw1
              have hv2 := hvals hd w1 fi2 (Or.inl hw1) hfi2
              have hc2' : ∃ v2, (v2 = fi.lru ∨ v2 = A ∨ v2 = B) ∧
                  r2.1.cache[zi]? = some { z with lru := v2 } := by
                rcases hc2 with hc2 | hc2
                · exact ⟨_, Or.inl rfl, hc2⟩
                · exact ⟨_, Or.inr hv2, hc2⟩
              obtain ⟨v2, hv2m, hc2v⟩ := hc2'
              obtain ⟨hn3, g1, g2, g3, fis3, fi3, hfis3, hfi3, hc3⟩ :=
                queue_disk_command_keeps P r2.1 _ _ _ r3 h3 zi z v2 hc2v hav hn2
              rw [e1', e1, hfis] at hfis3
              cases hfis3
              rw [e1', e1, hfis, e2', e2] at hw2
              have hv3 := hvals hd w2 fi3 (Or.inr hw2) hfi3
              refine ⟨hn3, by rw [g3, e3', e3], ?_⟩
              rcases hc3 with hc3 | hc3
              · exact ⟨_, hv2m, hc3⟩
              · exact ⟨_, Or.inr hv3, hc3⟩
      · rw [if_neg hd] at h3
        cases h3
        exact ⟨hn1, e3, _, Or.inl rfl, hc1'⟩
    split at hq
    · cases hq
    · rename_i r3 hr3
      obtain ⟨k1, k2, k3⟩ := key r3 hr3
      split at hq
      · cases hq
      · split at hq
        · cases hq
        · cases hq
          exact ⟨k1, k2, k3⟩

/-- C10 (amended). Advancing onto a file whose slot is available when the
queue block runs (the `flush_cache` call of this `advance` did not evict it)
does not re-trigger a read: for `dir` in {-1, 0, 1}, the slot is not in the
command that `advance` builds, and after `advance` it is the same slot, still
available with the same image, only its priority changed, to the new or the
previous value of the priority counter. -/
theorem advance_available_not_reread (P : Platform) (L : Limits) (s s0 s1 : State)
    (dir : Int) (hdir : dir = -1 ∨ dir = 0 ∨ dir = 1)
    (hmove : advance_move P s dir = .ok s0) (hflush : flush_cache P L s0 = .ok s1)
    (fis : List FileInfo) (fi : FileInfo) (zi : Nat) (z : ImageFile)
    (hfis : s1.fileinfo = some fis) (hfi : fileinfo_at fis s1.cur_loc = .ok fi)
    (hlook : stb_sdict_get s1.file_cache fi.filename = some zi)
    (hz : s1.cache[zi]? = some z) (hav : z.status = LOAD_available)
    (r : State × DiskCommand) (hq : advance_queue P s1 dir = .ok r) :
    advance_command P L s dir = .ok r ∧ zi ∉ r.2.files ∧
      ∃ s' v, advance P L s dir = .ok s' ∧ (v = s'.lru_stamp ∨ v = s'.lru_stamp - 1) ∧
        s'.cache[zi]? = some { z with lru := v } := by
  obtain ⟨fis0, hfis0, hcur, hnb⟩ := advance_move_spec P s s0 dir hmove
  obtain ⟨f1, f2, f3, _, _⟩ := flush_cache_other P L s0 s1 hflush
  rw [f1, hfis0] at hfis
  cases hfis
  have hfilru : fi.lru = s1.lru_stamp := by
    rw [f3]
    apply hcur
    rw [← f2]
    exact hfi
  have hvals : dir ≠ 0 → ∀ w f, (wrap (some fis) (s1.cur_loc + dir) = .ok w ∨
      wrap (some fis) (s1.cur_loc - dir) = .ok w) →
      fileinfo_at fis w = .ok f → f.lru = s1.lru_stamp ∨ f.lru = s1.lru_stamp - 1 := by
    intro hd w f hw hf
    rw [f3]
    rw [f2] at hw
    rcases hdir with rfl | rfl | rfl
    · apply hnb w f _ hf
      rcases hw with hw | hw
      · left
        have e : s0.cur_loc - 1 = s0.cur_loc + -1 := by omega
        rw [e]; exact hw
      · right
        have e : s0.cur_loc + 1 = s0.cur_loc - -1 := by omega
        rw [e]; exact hw
    · exact absurd rfl hd
    · apply hnb w f _ hf
      rcases hw with hw | hw
      · right; exact hw
      · left; exact hw
  obtain ⟨hnot, hstamp, v, hv, hcz⟩ :=
    advance_queue_keeps P s1 dir r hq fis fi zi z (by rw [f1, hfis0]) hfi hlook hz hav
      s1.lru_stamp (s1.lru_stamp - 1) hvals
  have hcmd : advance_command P L s dir = .ok r := by
    unfold advance_command
    simp only [hmove, hflush, hq]
  refine ⟨hcmd, hnot, ?_⟩
  have hv' : v = r.1.lru_stamp ∨ v = r.1.lru_stamp - 1 := by
    rw [hstamp]
    rcases hv with hv | hv | hv
    · left; rw [hv, hfilru]
    · left; exact hv
    · right; exact hv
  have hnb' : ¬ ({ z with lru := v } : ImageFile).lru < r.1.lru_stamp - 1 := by
    simp only
    rcases hv' with hv' | hv' <;> omega
  unfold advance
  simp only [hcmd]
  by_cases hn : r.2.num_files ≠ 0
  · rw [if_pos hn]
    exact ⟨_, v, rfl, hv', advance_bail_get _ _ _ _ hcz hnb'⟩
  · rw [if_neg hn]
    exact ⟨_, v, rfl, hv', advance_bail_get _ _ _ _ hcz hnb'⟩

/-! ## Evaluations on the concrete states -/

set_option maxRecDepth 100000 in
theorem reopen_flush :
    flush_cache demo_platform imv_limits reopen_state = .ok reopen_flushed := by
  decide

set_option maxRecDepth 100000 in
theorem browse_move : advance_move demo_platform browse_state 1 = .ok browse_moved := by
  decide

set_option maxRecDepth 100000 in
theorem browse_flush :
    flush_cache demo_platform imv_limits browse_moved = .ok browse_moved := by
  decide

set_option maxRecDepth 100000 in
theorem browse_queue : advance_queue demo_platform browse_moved 1 = .ok browse_queued := by
  decide

set_option maxRecDepth 100000 in
theorem browse_request :
    queue_disk_command demo_platform browse_moved { files := [] } 1 true =
      .ok browse_requested := by
  decide

set_option maxRecDepth 100000 in
theorem busy_flush : flush_cache demo_platform imv_limits busy_state = .ok busy_state := by
  decide

/-! ## The claims on concrete states -/

set_option maxRecDepth 100000 in
/-- C1, counterexample. A cache whose only reading_done slot has priority 0:
`decoder_choose` returns none and leaves the slot reading_done. -/
theorem decoder_choose_skips_priority_zero :
    (∃ z ∈ ready_at_zero, z.status = LOAD_reading_done) ∧
    decoder_choose quiet 1 ready_at_zero = .ok (none, ready_at_zero) := by
  decide

set_option maxRecDepth 100000 in
/-- C1, witness: of the reading_done slots with priorities 5, 9 and 3 the one
with priority 9 (index 1) is claimed. -/
theorem decoder_choose_picks_highest_witness :
    (∃ z ∈ three_ready, z.status = LOAD_reading_done ∧ 0 < z.lru) ∧
    (∃ b z, three_ready[b]? = some z ∧ z.status = LOAD_reading_done ∧
      (∀ w ∈ three_ready, w.status = LOAD_reading_done → w.lru ≤ z.lru) ∧
      decoder_choose quiet 1 three_ready =
        .ok (some b, three_ready.set b { z with status := LOAD_decoding })) ∧
    decoder_choose quiet 1 three_ready =
      .ok (some 1, three_ready.set 1
        { reading_done_slot "b.png" 9 with status := LOAD_decoding }) :=
  ⟨by decide, (decoder_choose_picks_highest three_ready 0).1 (by decide), by decide⟩

set_option maxRecDepth 100000 in
/-- C2, witness: in `reopen_state` the evicted slot 1 (priority 2) ranks
below the slot 0 left in place (priority 7). -/
theorem flush_cache_evicts_lowest_first_witness :
    flush_cache demo_platform imv_limits reopen_state = .ok reopen_flushed ∧
    (available_slot "b.png" 2).lru ≤ (available_slot "a.png" 7).lru :=
  ⟨reopen_flush,
   flush_cache_evicts_lowest_first demo_platform imv_limits reopen_state reopen_flushed
     reopen_flush 1 0 (available_slot "b.png" 2) (evicted (available_slot "b.png" 2))
     (available_slot "a.png" 7) (by decide) (by decide) (by decide) (by decide) (by decide)
     (by decide) (by decide)⟩

/-- C3, witness: the instance of the spec (capacity 5, `MIN_RESERVED` 2,
priorities 1 to 5, budget exceeded by the two highest alone): the slots with
priorities 1, 2 and 3 are evicted, those with 4 and 5 stay, two slots remain
occupied and the budget is still exceeded. -/
theorem flush_cache_reserved_minimum_witness :
    ∃ s', flush_cache demo_platform spec_limits spec_five = .ok s' ∧
      occupied_count s'.cache = 2 ∧ total_resident s'.cache > s'.max_cache_bytes ∧
      s'.cache[0]? = some (evicted (available_slot "p1.png" 1)) ∧
      s'.cache[1]? = some (evicted (available_slot "p2.png" 2)) ∧
      s'.cache[2]? = some (evicted (available_slot "p3.png" 3)) ∧
      s'.cache[3]? = some (available_slot "p4.png" 4) ∧
      s'.cache[4]? = some (available_slot "p5.png" 5) := by
  have hthm := flush_cache_reserved_minimum demo_platform spec_limits spec_five
  obtain ⟨s', h⟩ := hthm.2 (by decide)
  obtain ⟨h1, h2, h3⟩ := (hthm.1 s' h).2 (by decide) (by decide) (by decide) (by decide)
  refine ⟨s', h, h1, h2, ?_, ?_, ?_, ?_, ?_⟩
  · rw [h3 0 (available_slot "p1.png" 1) (by decide) (by decide), if_pos (by decide)]
  · rw [h3 1 (available_slot "p2.png" 2) (by decide) (by decide), if_pos (by decide)]
  · rw [h3 2 (available_slot "p3.png" 3) (by decide) (by decide), if_pos (by decide)]
  · rw [h3 3 (available_slot "p4.png" 4) (by decide) (by decide), if_neg (by decide)]
  · rw [h3 4 (available_slot "p5.png" 5) (by decide) (by decide), if_neg (by decide)]

set_option maxRecDepth 100000 in
/-- C4, witness: `browse_moved` is under both limits and `flush_cache`
returns it unchanged. -/
theorem flush_cache_no_pressure_witness :
    occupied_count browse_moved.cache ≤ imv_limits.limit ∧
    total_resident browse_moved.cache ≤ browse_moved.max_cache_bytes ∧
    flush_cache demo_platform imv_limits browse_moved = .ok browse_moved :=
  ⟨by decide, by decide,
   (flush_cache_no_pressure demo_platform imv_limits browse_moved (by decide) (by decide)).2
     (by decide)⟩

set_option maxRecDepth 100000 in
/-- C5, counterexample. With 198 of the 200 slots claimed by the disk reader
`flush_cache` returns with 198 occupied slots: the slot trigger still holds
and more than `MIN_CACHE` occupied slots remain. -/
theorem flush_cache_blocked_by_workers :
    flush_cache demo_platform imv_limits busy_state = .ok busy_state ∧
    ¬ ((occupied_count busy_state.cache ≤ imv_limits.limit ∧
        total_resident busy_state.cache ≤ busy_state.max_cache_bytes) ∨
      occupied_count busy_state.cache ≤ (imv_limits.MIN_CACHE : Int)) :=
  ⟨busy_flush, by decide⟩

/-- C5 (amended). When `flush_cache` returns, either both trigger conditions
are false, or at most `MIN_CACHE` occupied slots remain, or no occupied slot
owned by the main thread remains (every slot still occupied is worker-owned). -/
theorem flush_cache_stops (P : Platform) (L : Limits) (s s' : State)
    (h : flush_cache P L s = .ok s') :
    (occupied_count s'.cache ≤ L.limit ∧ total_resident s'.cache ≤ s'.max_cache_bytes) ∨
    occupied_count s'.cache ≤ (L.MIN_CACHE : Int) ∨
    (∀ z ∈ s'.cache, z.status ≠ LOAD_unused → MAIN_OWNS z = false) :=
  flush_cache_exit P L s s' h

/-- C5, witness: the call on `reopen_state` returns `reopen_flushed`. -/
theorem flush_cache_stops_witness :
    flush_cache demo_platform imv_limits reopen_state = .ok reopen_flushed ∧
    ((occupied_count reopen_flushed.cache ≤ imv_limits.limit ∧
        total_resident reopen_flushed.cache ≤ reopen_flushed.max_cache_bytes) ∨
      occupied_count reopen_flushed.cache ≤ (imv_limits.MIN_CACHE : Int) ∨
      (∀ z ∈ reopen_flushed.cache, z.status ≠ LOAD_unused → MAIN_OWNS z = false)) :=
  ⟨reopen_flush, flush_cache_stops demo_platform imv_limits reopen_state reopen_flushed
    reopen_flush⟩

set_option maxRecDepth 100000 in
/-- C6, witness: slot 1 of `reopen_state`, evicted by the call. -/
theorem flush_cache_evicted_slot_cleared_witness :
    flush_cache demo_platform imv_limits reopen_state = .ok reopen_flushed ∧
    stb_sdict_get reopen_state.file_cache "b.png" = some 1 ∧
    (evicted (available_slot "b.png" 2)).filename = none ∧
    (evicted (available_slot "b.png" 2)).image = none ∧
    stb_sdict_get reopen_flushed.file_cache "b.png" = none :=
  have h := flush_cache_evicted_slot_cleared demo_platform imv_limits reopen_state
    reopen_flushed reopen_flush 1 (available_slot "b.png" 2)
    (evicted (available_slot "b.png" 2)) (by decide) (by decide) (by decide) (by decide)
  ⟨reopen_flush, by decide, h.2.1, h.2.2.2.1, h.2.2.2.2.2.2 "b.png" rfl⟩

/-- C7, witness: the call on `reopen_state`, which returns `reopen_flushed`. -/
theorem flush_cache_frame_witness :
    flush_cache demo_platform imv_limits reopen_state = .ok reopen_flushed ∧
    reopen_flushed.cache.length = reopen_state.cache.length ∧
    ∀ (j : Nat) (p q : ImageFile), reopen_state.cache[j]? = some p →
      reopen_flushed.cache[j]? = some q →
      ((p.status = LOAD_reading ∨ p.status = LOAD_decoding ∨ p.status = LOAD_resizing) →
        q = p) ∧
      (¬ (p.status ≠ LOAD_unused ∧ q.status = LOAD_unused) → q = p) :=
  ⟨reopen_flush,
   flush_cache_frame demo_platform imv_limits reopen_state reopen_flushed reopen_flush⟩

set_option maxRecDepth 100000 in
/-- C9, witness: requesting `b.png`, available in slot 1 of `browse_moved`,
returns, queues nothing and sets the priority of slot 1 to 8. -/
theorem queue_disk_command_cached_witness :
    (∃ r, queue_disk_command demo_platform browse_moved { files := [] } 1 true = .ok r) ∧
    queue_disk_command demo_platform browse_moved { files := [] } 1 true =
      .ok browse_requested ∧
    browse_requested.2 = { files := [] } ∧
    browse_requested.1.cache =
      browse_moved.cache.set 1 { available_slot "b.png" 6 with lru := 8 } ∧
    browse_requested.1.file_cache = browse_moved.file_cache :=
  have h := queue_disk_command_cached demo_platform browse_moved { files := [] } 1 true
    [⟨"a.png", 7⟩, ⟨"b.png", 8⟩, ⟨"c.png", 7⟩, ⟨"d.png", 6⟩] ⟨"b.png", 8⟩ 1
    (available_slot "b.png" 6) (by decide) (by decide) (by decide) (by decide) (by decide)
  ⟨h.2 (by decide), browse_request, h.1 browse_requested browse_request⟩

set_option maxRecDepth 100000 in
/-- C10, counterexample. In `reopen_state` the file `advance(0)` moves to,
`b.png`, has slot 1 in status available; the byte budget is exceeded and slot
1 has the lowest priority, so the `flush_cache` call of `advance` evicts it,
and `advance` allocates slot 1 anew, inactive and without image, and submits
it in the disk command. -/
theorem advance_rereads_evicted_file :
    stb_sdict_get reopen_state.file_cache "b.png" = some 1 ∧
    reopen_state.cache[1]? = some (available_slot "b.png" 2) ∧
    (advance demo_platform imv_limits reopen_state 0).map
      (fun s => (s.cur_loc, s.filename, s.dc_shared.files, s.cache[1]?)) =
      .ok (1, some "b.png", [1],
        some { filename := some "b.png", filedata := none, len := 0, image := none,
               error := none, status := LOAD_inactive, bail := 0, lru := 8 }) := by
  decide

set_option maxRecDepth 100000 in
/-- C10, witness: `advance(1)` from `browse_state` moves to `b.png`, whose
slot 1 is available; nothing is queued and slot 1 keeps its image, with
priority 8. -/
theorem advance_available_not_reread_witness :
    advance_command demo_platform imv_limits browse_state 1 = .ok browse_queued ∧
    1 ∉ browse_queued.2.files ∧
    ∃ s' v, advance demo_platform imv_limits browse_state 1 = .ok s' ∧
      (v = s'.lru_stamp ∨ v = s'.lru_stamp - 1) ∧
      s'.cache[1]? = some { available_slot "b.png" 6 with lru := v } :=
  advance_available_not_reread demo_platform imv_limits browse_state browse_moved browse_moved
    1 (by decide) browse_move browse_flush
    [⟨"a.png", 7⟩, ⟨"b.png", 8⟩, ⟨"c.png", 7⟩, ⟨"d.png", 6⟩] ⟨"b.png", 8⟩ 1
    (available_slot "b.png" 6) (by decide) (by decide) (by decide) (by decide) (by decide)
    browse_queued browse_queue

/-! ## queue_disk_command: allocation of a slot -/

theorem find_unused_first (cs : List ImageFile) (off k : Nat) (h : find_unused cs off = some k) :
    ∀ (j : Nat) (w : ImageFile), off + j < k → cs[j]? = some w → w.status ≠ LOAD_unused := by
  induction cs generalizing off with
  | nil => simp [find_unused] at h
  | cons a rest ih =>
    unfold find_unused at h
    by_cases ha : a.status = LOAD_unused
    · rw [if_pos ha] at h
      cases h
      intro j w hj
      omega
    · rw [if_neg ha] at h
      intro j w hj hw
      cases j with
      | zero =>
        simp only [List.getElem?_cons_zero, Option.some.injEq] at hw
        subst hw
        exact ha
      | succ j =>
        simp only [List.getElem?_cons_succ] at hw
        exact ih (off + 1) h j w (by omega) hw

theorem find_unused_exists (cs : List ImageFile) (off : Nat)
    (h : ∃ z ∈ cs, z.status = LOAD_unused) : ∃ k, find_unused cs off = some k := by
  induction cs generalizing off with
  | nil => obtain ⟨z, hz, _⟩ := h; cases hz
  | cons a rest ih =>
    unfold find_unused
    by_cases ha : a.status = LOAD_unused
    · rw [if_pos ha]; exact ⟨off, rfl⟩
    · rw [if_neg ha]
      apply ih
      obtain ⟨z, hz, hs⟩ := h
      rcases List.mem_cons.1 hz with rfl | hz
      · exact absurd hs ha
      · exact ⟨z, hz, hs⟩

theorem stb_sdict_get_add (d : List (String × Nat)) (k : String) (v : Nat) (k' : String)
    (h : stb_sdict_get d k = none) :
    stb_sdict_get (stb_sdict_add d k v) k' = if k' = k then some v else stb_sdict_get d k' := by
  unfold stb_sdict_add
  rw [h]
  simp only [Option.isSome_none, Bool.false_eq_true, if_false, stb_sdict_get]
  by_cases hk : k = k'
  · subst hk; simp
  · rw [if_neg hk, if_neg (fun hh => hk hh.symm)]

/-- The allocation path of `queue_disk_command` as one equation: the file has
no slot, the search finds the unused slot `i`, and the command has room. -/
theorem queue_disk_command_miss (P : Platform) (s : State) (dc : DiskCommand) (which : Int)
    (mc : Bool) (fis : List FileInfo) (fi : FileInfo) (i : Nat) (z : ImageFile)
    (hfis : s.fileinfo = some fis) (hfi : fileinfo_at fis which = .ok fi)
    (hmiss : stb_sdict_get s.file_cache fi.filename = none)
    (hfu : find_unused s.cache 0 = some i) (hz : s.cache[i]? = some z)
    (hroom : dc.num_files < 4) :
    queue_disk_command P s dc which mc =
      .ok ({ s with
              cache := s.cache.set i (prepared { z with filename := some fi.filename } fi.lru),
              file_cache := stb_sdict_add s.file_cache fi.filename i },
           { files := dc.files ++ [i] }) := by
  have hzi := getElem?_lt_of_some _ _ _ hz
  unfold queue_disk_command
  simp only [hfis, hfi, hmiss, hfu, hz]
  unfold queue_tail
  simp only [List.getElem?_set, hzi, if_true, hroom, List.set_set]
  rfl

/-- C11. Slot allocation. For a file that has no slot (its name is not in the
lookup), when at least one slot is unused: there is a lowest-index unused
slot `i`, and a returning `queue_disk_command` has set exactly that slot to
status inactive with the filename of the file, the priority of the file in
the file list, the cancel flag cleared and no image, has registered the
filename for slot `i` in the lookup (other keys as before), and has appended
`i` to the command, `num_files` growing by one; every other slot is
unchanged. The call returns whenever the command has room. -/
theorem queue_disk_command_allocates (P : Platform) (s : State) (dc : DiskCommand)
    (which : Int) (mc : Bool) (fis : List FileInfo) (fi : FileInfo)
    (hfis : s.fileinfo = some fis) (hfi : fileinfo_at fis which = .ok fi)
    (hmiss : stb_sdict_get s.file_cache fi.filename = none)
    (hfree : ∃ z ∈ s.cache, z.status = LOAD_unused) :
    ∃ (i : Nat) (z : ImageFile), s.cache[i]? = some z ∧ z.status = LOAD_unused ∧
      (∀ (j : Nat) (w : ImageFile), j < i → s.cache[j]? = some w → w.status ≠ LOAD_unused) ∧
      (∀ r, queue_disk_command P s dc which mc = .ok r →
        r.1.cache = s.cache.set i
          { z with filename := some fi.filename, status := LOAD_inactive, image := none,
                   bail := 0, lru := fi.lru } ∧
        stb_sdict_get r.1.file_cache fi.filename = some i ∧
        (∀ k, k ≠ fi.filename → stb_sdict_get r.1.file_cache k = stb_sdict_get s.file_cache k) ∧
        r.2.files = dc.files ++ [i] ∧ r.2.num_files = dc.num_files + 1) ∧
      (dc.num_files < 4 → ∃ r, queue_disk_command P s dc which mc = .ok r) := by
  obtain ⟨i, hfu⟩ := find_unused_exists s.cache 0 hfree
  obtain ⟨j, z, hij, hz, hun⟩ := find_unused_some _ _ _ hfu
  rw [zero_add] at hij
  subst hij
  have hfirst := find_unused_first _ _ _ hfu
  refine ⟨i, z, hz, hun, fun j' w hj hw => hfirst j' w (by omega) hw, ?_, ?_⟩
  · intro r h
    have hzi := getElem?_lt_of_some _ _ _ hz
    by_cases hroom : dc.num_files < 4
    · rw [queue_disk_command_miss P s dc which mc fis fi i z hfis hfi hmiss hfu hz hroom] at h
      cases h
      refine ⟨rfl, ?_, ?_, rfl, ?_⟩
      · simp only
        rw [stb_sdict_get_add _ _ _ _ hmiss]; simp
      · intro k hk
        simp only
        rw [stb_sdict_get_add _ _ _ _ hmiss, if_neg hk]
      · simp [DiskCommand.num_files]
    · exfalso
      unfold queue_disk_command at h
      simp only [hfis, hfi, hmiss, hfu, hz] at h
      unfold queue_tail at h
      simp only [List.getElem?_set, hzi, if_true, hroom, if_false] at h
      cases h
  · intro hroom
    exact ⟨_, queue_disk_command_miss P s dc which mc fis fi i z hfis hfi hmiss hfu hz hroom⟩

/-! ## wrap -/

theorem wrap_loop_spec (n : Int) (hn : 0 < n) (fuel : Nat) (z : Int) (hz : 0 ≤ z)
    (hfuel : z < fuel) : wrap_loop n fuel z = .ok (z % n) := by
  induction fuel generalizing z with
  | zero => exfalso; simp at hfuel; omega
  | succ k ih =>
    unfold wrap_loop
    by_cases hge : z ≥ n
    · rw [if_pos hge]
      rw [ih (z - n) (by omega) (by push_cast at hfuel; omega)]
      congr 1
      rw [Int.sub_emod, Int.emod_self, sub_zero, Int.emod_emod]
    · rw [if_neg hge]
      congr 1
      exact (Int.emod_eq_of_lt hz (by omega)).symm

/-- For a file list of `n > 0` entries and `z >= -n`, `wrap(z)` returns the
index `z mod n`. -/
theorem wrap_spec (fis : List FileInfo) (hne : 0 < fis.length) (z : Int)
    (hz : -(fis.length : Int) ≤ z) : wrap (some fis) z = .ok (z % (fis.length : Int)) := by
  unfold wrap
  simp only
  have hn : (0 : Int) < (fis.length : Int) := by exact_mod_cast hne
  by_cases hneg : z < 0
  · rw [if_pos hneg]
    congr 1
    rw [← Int.add_emod_self]
    exact (Int.emod_eq_of_lt (by omega) (by omega)).symm
  · rw [if_neg hneg]
    apply wrap_loop_spec _ hn
    · omega
    · have : z.toNat = z := Int.toNat_of_nonneg (by omega)
      push_cast
      omega

/-! ## advance: the new file list -/

theorem set_lru_get (fi fi' : List FileInfo) (i v : Int) (h : set_lru fi i v = .ok fi') :
    0 ≤ i ∧ i.toNat < fi.length ∧ fi'.length = fi.length ∧
    ∀ (j : Nat) (f : FileInfo), fi[j]? = some f →
      fi'[j]? = some (if j = i.toNat then { f with lru := v } else f) := by
  unfold set_lru at h
  split at h
  · rename_i hi
    split at h
    · rename_i g hg
      cases h
      have hlt : i.toNat < fi.length := by
        rcases Nat.lt_or_ge i.toNat fi.length with hlt | hge
        · exact hlt
        · rw [List.getElem?_eq_none hge] at hg; cases hg
      refine ⟨hi, hlt, by simp, ?_⟩
      intro j f hf
      by_cases hj : j = i.toNat
      · subst hj
        rw [hg] at hf
        cases hf
        simp [List.getElem?_set, hlt]
      · rw [if_neg hj, List.getElem?_set_ne (Ne.symm hj)]
        exact hf
    · cases h
  · cases h

theorem set_lru_total (fi : List FileInfo) (i v : Int) (h0 : 0 ≤ i) (h1 : i < fi.length) :
    ∃ fi', set_lru fi i v = .ok fi' := by
  unfold set_lru
  rw [if_pos h0]
  have hlt : i.toNat < fi.length := by
    have := Int.toNat_of_nonneg h0
    omega
  rw [List.getElem?_eq_getElem hlt]
  exact ⟨_, rfl⟩

/-- The first part of `advance(dir)` on a non-empty file list with `cur_loc`
in range and `cur_loc + dir >= -n`: it returns, `cur_loc` becomes
`(cur_loc + dir) mod n`, the counter grows by one, and entry `j` of the file
list gets the new counter value when it is the new current entry, the old
counter value when it is one of the two neighbours, and keeps its priority
otherwise; names are unchanged. -/
theorem advance_move_full (P : Platform) (s : State) (dir : Int) (fis : List FileInfo)
    (hfis : s.fileinfo = some fis) (hn : 0 < fis.length)
    (hz : -(fis.length : Int) ≤ s.cur_loc + dir) :
    ∃ fis', fis'.length = fis.length ∧
      advance_move P s dir =
        .ok { s with cur_loc := (s.cur_loc + dir) % (fis.length : Int), fileinfo := some fis',
                     lru_stamp := s.lru_stamp + 1 } ∧
      ∀ (j : Nat) (f : FileInfo), fis[j]? = some f →
        fis'[j]? = some
          (if j = ((s.cur_loc + dir) % (fis.length : Int)).toNat then
            { f with lru := s.lru_stamp + 1 }
          else if j = (((s.cur_loc + dir) % (fis.length : Int) - 1) % (fis.length : Int)).toNat ∨
              j = (((s.cur_loc + dir) % (fis.length : Int) + 1) % (fis.length : Int)).toNat then
            { f with lru := s.lru_stamp }
          else f) := by
  have hnz : (0 : Int) < (fis.length : Int) := by exact_mod_cast hn
  have hc0 := Int.emod_nonneg (s.cur_loc + dir) (ne_of_gt hnz)
  have hc1 := Int.emod_lt_of_pos (s.cur_loc + dir) hnz
  generalize hcur : (s.cur_loc + dir) % (fis.length : Int) = cur at hc0 hc1 ⊢
  have ha0 := Int.emod_nonneg (cur - 1) (ne_of_gt hnz)
  have ha1 := Int.emod_lt_of_pos (cur - 1) hnz
  have hb0 := Int.emod_nonneg (cur + 1) (ne_of_gt hnz)
  have hb1 := Int.emod_lt_of_pos (cur + 1) hnz
  have hwa := wrap_spec fis hn (cur - 1) (by omega)
  have hwb := wrap_spec fis hn (cur + 1) (by omega)
  have hwc := wrap_spec fis hn (s.cur_loc + dir) hz
  rw [hcur] at hwc
  generalize (cur - 1) % (fis.length : Int) = a at ha0 ha1 hwa ⊢
  generalize (cur + 1) % (fis.length : Int) = b at hb0 hb1 hwb ⊢
  obtain ⟨fi1, h1⟩ := set_lru_total fis a s.lru_stamp ha0 ha1
  obtain ⟨_, _, l1, g1⟩ := set_lru_get _ _ _ _ h1
  obtain ⟨fi2, h2⟩ := set_lru_total fi1 b s.lru_stamp hb0 (by rw [l1]; exact hb1)
  obtain ⟨_, _, l2, g2⟩ := set_lru_get _ _ _ _ h2
  obtain ⟨fi3, h3⟩ := set_lru_total fi2 cur (s.lru_stamp + 1) hc0 (by rw [l2, l1]; exact hc1)
  obtain ⟨_, _, l3, g3⟩ := set_lru_get _ _ _ _ h3
  refine ⟨fi3, by omega, ?_, ?_⟩
  · unfold advance_move
    simp only [hfis, Option.isNone_some, Bool.false_eq_true, if_false, hwc, hwa, h1, hwb, h2, h3]
  · intro j f hf
    rw [g3 j _ (g2 j _ (g1 j f hf))]
    by_cases hjc : j = cur.toNat
    · simp only [hjc, if_true]
      split <;> split <;> rfl
    · simp only [hjc, if_false]
      by_cases hjb : j = b.toNat
      · simp only [hjb, if_true, or_true]
        split <;> rfl
      · simp only [hjb, if_false, or_false]

/-! ## advance: the steps of a returning call -/

/-- A returning queue block of `advance` is one, or for `dir != 0` three,
returning calls of `queue_disk_command`, followed by the assignment of
`filename`. -/
theorem advance_queue_split (P : Platform) (s : State) (dir : Int) (r : State × DiskCommand)
    (h : advance_queue P s dir = .ok r) :
    ∃ r1 r3, queue_disk_command P s { files := [] } s.cur_loc true = .ok r1 ∧
      ((dir = 0 ∧ r3 = r1) ∨
       (dir ≠ 0 ∧ ∃ w1 r2 w2, wrap r1.1.fileinfo (r1.1.cur_loc + dir) = .ok w1 ∧
          queue_disk_command P r1.1 r1.2 w1 false = .ok r2 ∧
          wrap r2.1.fileinfo (r2.1.cur_loc - dir) = .ok w2 ∧
          queue_disk_command P r2.1 r2.2 w2 false = .ok r3)) ∧
      r.1.cache = r3.1.cache ∧ r.1.file_cache = r3.1.file_cache ∧
      r.1.fileinfo = r3.1.fileinfo ∧ r.1.cur_loc = r3.1.cur_loc ∧
      r.1.lru_stamp = r3.1.lru_stamp ∧ r.1.max_cache_bytes = r3.1.max_cache_bytes ∧
      r.1.dc_shared = r3.1.dc_shared ∧ r.2 = r3.2 := by
  unfold advance_queue at h
  split at h
  · cases h
  · rename_i r1 hr1
    simp only at h
    split at h
    · cases h
    · rename_i r3 hr3
      refine ⟨r1, r3, hr1, ?_, ?_⟩
      · by_cases hd : dir = 0
        · left
          rw [if_neg (not_not.2 hd)] at hr3
          cases hr3
          exact ⟨hd, rfl⟩
        · right
          rw [if_pos hd] at hr3
          refine ⟨hd, ?_⟩
          split at hr3
          · cases hr3
          · rename_i w1 hw1
            split at hr3
            · cases hr3
            · rename_i r2 hr2
              split at hr3
              · cases hr3
              · rename_i w2 hw2
                exact ⟨w1, r2, w2, hw1, hr2, hw2, hr3⟩
      · split at h
        · cases h
        · split at h
          · cases h
          · cases h
            exact ⟨rfl, rfl, rfl, rfl, rfl, rfl, rfl, rfl⟩

/-- The queue block of `advance` does not change the file list, `cur_loc`,
the priority counter, the byte budget or `dc_shared`. -/
theorem advance_queue_other (P : Platform) (s : State) (dir : Int) (r : State × DiskCommand)
    (h : advance_queue P s dir = .ok r) :
    r.1.fileinfo = s.fileinfo ∧ r.1.cur_loc = s.cur_loc ∧ r.1.lru_stamp = s.lru_stamp ∧
      r.1.max_cache_bytes = s.max_cache_bytes ∧ r.1.dc_shared = s.dc_shared := by
  obtain ⟨r1, r3, h1, hcase, _, _, e1, e2, e3, e4, e5, _⟩ := advance_queue_split P s dir r h
  obtain ⟨_, _, _, _, a1, a2, a3, a4, a5, _⟩ := queue_disk_command_spec P s _ _ _ r1 h1
  rw [e1, e2, e3, e4, e5]
  rcases hcase with ⟨_, h3⟩ | ⟨_, w1, r2, w2, _, h2, _, h3⟩
  · rw [h3]; exact ⟨a1, a2, a3, a4, a5⟩
  · obtain ⟨_, _, _, _, b1, b2, b3, b4, b5, _⟩ := queue_disk_command_spec P _ _ _ _ r2 h2
    obtain ⟨_, _, _, _, c1, c2, c3, c4, c5, _⟩ := queue_disk_command_spec P _ _ _ _ r3 h3
    exact ⟨c1.trans (b1.trans a1), c2.trans (b2.trans a2), c3.trans (b3.trans a3),
      c4.trans (b4.trans a4), c5.trans (b5.trans a5)⟩

/-- A returning call of `advance` is a returning first part, a returning
`flush_cache`, a returning queue block, the copy of a non-empty command to
`dc_shared`, and the loop that sets the `bail` flags. -/
theorem advance_split (P : Platform) (L : Limits) (s s' : State) (dir : Int)
    (h : advance P L s dir = .ok s') :
    ∃ s0 s1 r, advance_move P s dir = .ok s0 ∧ flush_cache P L s0 = .ok s1 ∧
      advance_queue P s1 dir = .ok r ∧
      s'.cache = advance_bail r.1.lru_stamp r.1.cache ∧
      s'.file_cache = r.1.file_cache ∧ s'.fileinfo = r.1.fileinfo ∧
      s'.cur_loc = r.1.cur_loc ∧ s'.lru_stamp = r.1.lru_stamp ∧
      s'.dc_shared = (if r.2.num_files ≠ 0 then r.2 else r.1.dc_shared) := by
  unfold advance at h
  split at h
  · cases h
  · rename_i r hr
    unfold advance_command at hr
    split at hr
    · cases hr
    · rename_i s0 hs0
      split at hr
      · cases hr
      · rename_i s1 hs1
        refine ⟨s0, s1, r, hs0, hs1, hr, ?_⟩
        cases h
        by_cases hn : r.2.num_files ≠ 0
        · simp [hn]
        · simp [hn]

/-- A returning call of `advance` ends with the file list, `cur_loc` and the
priority counter that its first part produced. -/
theorem advance_other (P : Platform) (L : Limits) (s s' : State) (dir : Int)
    (h : advance P L s dir = .ok s') :
    ∃ s0, advance_move P s dir = .ok s0 ∧ s'.fileinfo = s0.fileinfo ∧
      s'.cur_loc = s0.cur_loc ∧ s'.lru_stamp = s0.lru_stamp := by
  obtain ⟨s0, s1, r, h0, h1, hq, _, _, e1, e2, e3, _⟩ := advance_split P L s s' dir h
  obtain ⟨a1, a2, a3, _, _⟩ := flush_cache_other P L s0 s1 h1
  obtain ⟨b1, b2, b3, _, _⟩ := advance_queue_other P s1 dir r hq
  exact ⟨s0, h0, e1.trans (b1.trans a1), e2.trans (b2.trans a2), e3.trans (b3.trans a3)⟩

/-- C13. Priorities stamped by `advance`. For a non-empty file list, a
`cur_loc` that is not negative, no entry with a priority above the counter
`lru_stamp`, and `dir` in {-1, 0, 1}: the first part of `advance(dir)`
returns; `c = (cur_loc + dir) mod n` becomes `cur_loc`, the counter grows by
one, entry `c` gets the new counter value, the entries `(c - 1) mod n` and
`(c + 1) mod n` get the previous counter value when they are not `c` itself,
every other entry keeps its priority and every entry keeps its name; so the
priority of every entry other than `c` is strictly below the priority of
entry `c`. A returning call of `advance` ends with exactly this file list,
`cur_loc` and counter. -/
theorem advance_stamps_priorities (P : Platform) (L : Limits) (s : State) (dir : Int)
    (fis : List FileInfo) (c a b : Int)
    (hfis : s.fileinfo = some fis) (hn : 0 < fis.length) (hcur : 0 ≤ s.cur_loc)
    (hmax : ∀ f ∈ fis, f.lru ≤ s.lru_stamp)
    (hdir : dir = -1 ∨ dir = 0 ∨ dir = 1)
    (hc : c = (s.cur_loc + dir) % (fis.length : Int))
    (ha : a = (c - 1) % (fis.length : Int)) (hb : b = (c + 1) % (fis.length : Int)) :
    ∃ fis', fis'.length = fis.length ∧ 0 ≤ c ∧ c < fis.length ∧
      advance_move P s dir =
        .ok { s with cur_loc := c, fileinfo := some fis', lru_stamp := s.lru_stamp + 1 } ∧
      (∀ s', advance P L s dir = .ok s' →
        s'.lru_stamp = s.lru_stamp + 1 ∧ s'.cur_loc = c ∧ s'.fileinfo = some fis') ∧
      (∃ f, fis'[c.toNat]? = some f ∧ f.lru = s.lru_stamp + 1) ∧
      (∀ (j : Nat) (f : FileInfo), fis[j]? = some f →
        ∃ f', fis'[j]? = some f' ∧ f'.filename = f.filename ∧
          (j = c.toNat → f'.lru = s.lru_stamp + 1) ∧
          (j ≠ c.toNat → j = a.toNat ∨ j = b.toNat → f'.lru = s.lru_stamp) ∧
          (j ≠ c.toNat → j ≠ a.toNat → j ≠ b.toNat → f'.lru = f.lru)) ∧
      (∀ (j : Nat) (f' : FileInfo), j ≠ c.toNat → fis'[j]? = some f' →
        f'.lru < s.lru_stamp + 1) := by
  have hnz : (0 : Int) < (fis.length : Int) := by exact_mod_cast hn
  have hz : -(fis.length : Int) ≤ s.cur_loc + dir := by
    rcases hdir with h | h | h <;> rw [h] <;> omega
  obtain ⟨fis', hlen, hmove, hget⟩ := advance_move_full P s dir fis hfis hn hz
  rw [← hc] at hmove hget
  rw [← ha, ← hb] at hget
  have hc0 : 0 ≤ c := by rw [hc]; exact Int.emod_nonneg _ (ne_of_gt hnz)
  have hc1 : c < fis.length := by rw [hc]; exact Int.emod_lt_of_pos _ hnz
  have hcn : c.toNat < fis.length := by
    have := Int.toNat_of_nonneg hc0
    omega
  have hper : ∀ (j : Nat) (f : FileInfo), fis[j]? = some f →
      ∃ f', fis'[j]? = some f' ∧ f'.filename = f.filename ∧
        (j = c.toNat → f'.lru = s.lru_stamp + 1) ∧
        (j ≠ c.toNat → j = a.toNat ∨ j = b.toNat → f'.lru = s.lru_stamp) ∧
        (j ≠ c.toNat → j ≠ a.toNat → j ≠ b.toNat → f'.lru = f.lru) := by
    intro j f hf
    refine ⟨_, hget j f hf, ?_, ?_, ?_, ?_⟩
    · split
      · rfl
      · split <;> rfl
    · intro hj
      rw [if_pos hj]
    · intro hj hab
      rw [if_neg hj, if_pos hab]
    · intro hj hja hjb
      rw [if_neg hj, if_neg (by tauto)]
  refine ⟨fis', hlen, hc0, hc1, hmove, ?_, ?_, hper, ?_⟩
  · intro s' hs'
    obtain ⟨s0, h0, e1, e2, e3⟩ := advance_other P L s s' dir hs'
    rw [hmove] at h0
    cases h0
    exact ⟨e3, e2, e1⟩
  · obtain ⟨f', hf', _, h1, _⟩ := hper c.toNat (fis.get ⟨c.toNat, hcn⟩)
      (List.getElem?_eq_getElem hcn)
    exact ⟨f', hf', h1 rfl⟩
  · intro j f' hj hf'
    have hjn : j < fis.length := by
      rw [← hlen]
      exact (List.getElem?_eq_some.1 hf').1
    obtain ⟨g, hg, _, _, h2, h3⟩ := hper j (fis.get ⟨j, hjn⟩) (List.getElem?_eq_getElem hjn)
    rw [hf'] at hg
    cases hg
    by_cases hab : j = a.toNat ∨ j = b.toNat
    · rw [h2 hj hab]; omega
    · have hja : j ≠ a.toNat := fun h => hab (Or.inl h)
      have hjb : j ≠ b.toNat := fun h => hab (Or.inr h)
      rw [h3 hj hja hjb]
      have := hmax _ (List.get_mem fis j hjn)
      omega

/-! ## advance: the cancel flags -/

/-- One call of `queue_disk_command` for a file of priority at least `m`
keeps this property of the command: every slot in it has its `bail` flag
clear and a priority of at least `m`. -/
theorem queue_disk_command_bail (P : Platform) (s : State) (dc : DiskCommand) (which : Int)
    (mc : Bool) (r : State × DiskCommand) (h : queue_disk_command P s dc which mc = .ok r)
    (m : Int)
    (hinv : ∀ i ∈ dc.files, ∃ z, s.cache[i]? = some z ∧ z.bail = 0 ∧ m ≤ z.lru)
    (hreq : ∀ fis fi, s.fileinfo = some fis → fileinfo_at fis which = .ok fi → m ≤ fi.lru) :
    ∀ i ∈ r.2.files, ∃ z, r.1.cache[i]? = some z ∧ z.bail = 0 ∧ m ≤ z.lru := by
  obtain ⟨fis, fi, hfis, hfi, _, _, _, _, _, hcase⟩ := queue_disk_command_spec P s dc which mc r h
  have hm := hreq fis fi hfis hfi
  rcases hcase with ⟨zi, z, _, hz, _, hc, _, hdc⟩ | ⟨zi, z, _, hz, _, hc, _, hdc⟩ |
    ⟨zi, z, _, hz, _, hc, _, hdc⟩
  · intro i hi
    rw [hdc] at hi
    obtain ⟨w, hw, hb, hl⟩ := hinv i hi
    rw [hc]
    by_cases he : zi = i
    · subst he
      rw [hz] at hw
      cases hw
      refine ⟨{ z with lru := fi.lru }, ?_, hb, hm⟩
      rw [List.getElem?_set_self (getElem?_lt_of_some _ _ _ hz)]
    · exact ⟨w, by rw [List.getElem?_set_ne he]; exact hw, hb, hl⟩
  all_goals
    intro i hi
    rw [hdc, List.mem_append, List.mem_singleton] at hi
    rw [hc]
    by_cases he : zi = i
    · subst he
      refine ⟨_, List.getElem?_set_self (getElem?_lt_of_some _ _ _ hz), rfl, hm⟩
    · rcases hi with hi | hi
      · obtain ⟨w, hw, hb, hl⟩ := hinv i hi
        exact ⟨w, by rw [List.getElem?_set_ne he]; exact hw, hb, hl⟩
      · exact absurd hi.symm he

/-- When the files requested by the queue block of `advance` have a priority
of at least `m`, every slot in the command it builds has its `bail` flag
clear and a priority of at least `m`. -/
theorem advance_queue_bail (P : Platform) (s1 : State) (dir : Int) (r : State × DiskCommand)
    (hq : advance_queue P s1 dir = .ok r) (m : Int)
    (hcur : ∀ fis f, s1.fileinfo = some fis → fileinfo_at fis s1.cur_loc = .ok f → m ≤ f.lru)
    (hnb : dir ≠ 0 → ∀ fis w f, s1.fileinfo = some fis →
      (wrap (some fis) (s1.cur_loc + dir) = .ok w ∨ wrap (some fis) (s1.cur_loc - dir) = .ok w) →
      fileinfo_at fis w = .ok f → m ≤ f.lru) :
    ∀ i ∈ r.2.files, ∃ z, r.1.cache[i]? = some z ∧ z.bail = 0 ∧ m ≤ z.lru := by
  obtain ⟨r1, r3, h1, hcase, ec, _, _, _, _, _, _, edc⟩ := advance_queue_split P s1 dir r hq
  rw [ec, edc]
  have inv1 := queue_disk_command_bail P s1 _ _ _ r1 h1 m (by simp [DiskCommand.files]) hcur
  obtain ⟨_, _, _, _, a1, a2, a3, _, _, _⟩ := queue_disk_command_spec P s1 _ _ _ r1 h1
  rcases hcase with ⟨_, h3⟩ | ⟨hd, w1, r2, w2, hw1, h2, hw2, h3⟩
  · rw [h3]; exact inv1
  · obtain ⟨_, _, _, _, b1, b2, b3, _, _, _⟩ := queue_disk_command_spec P _ _ _ _ r2 h2
    have inv2 := queue_disk_command_bail P r1.1 _ _ _ r2 h2 m inv1 (by
      intro fis f hfis hf
      rw [a1] at hfis
      rw [a1, a2, hfis] at hw1
      exact hnb hd fis w1 f hfis (Or.inl hw1) hf)
    exact queue_disk_command_bail P r2.1 _ _ _ r3 h3 m inv2 (by
      intro fis f hfis hf
      rw [b1, a1] at hfis
      rw [b1, b2, a1, a2, hfis] at hw2
      exact hnb hd fis w2 f hfis (Or.inr hw2) hf)

/-- The loop that sets the `bail` flags sets it on every slot whose priority
is below `stamp - 1`. -/
theorem advance_bail_set (stamp : Int) (cs : List ImageFile) :
    ∀ z ∈ advance_bail stamp cs, z.lru < stamp - 1 → z.bail = 1 := by
  intro z hz hlt
  unfold advance_bail at hz
  rw [List.mem_map] at hz
  obtain ⟨w, _, hw⟩ := hz
  by_cases hc : w.lru < stamp - 1
  · rw [if_pos hc] at hw
    rw [← hw]
  · rw [if_neg hc] at hw
    rw [← hw] at hlt
    exact absurd hlt hc

/-- A returning call of `advance` went through a returning `advance_command`. -/
theorem advance_command_split (P : Platform) (L : Limits) (s : State) (dir : Int)
    (r : State × DiskCommand) (h : advance_command P L s dir = .ok r) :
    ∃ s0 s1, advance_move P s dir = .ok s0 ∧ flush_cache P L s0 = .ok s1 ∧
      advance_queue P s1 dir = .ok r := by
  unfold advance_command at h
  split at h
  · cases h
  · rename_i s0 hs0
    split at h
    · cases h
    · rename_i s1 hs1
      exact ⟨s0, s1, hs0, hs1, h⟩

/-- C15. Cancel flags after `advance`. After a returning `advance(dir)` with
`dir` in {-1, 0, 1}: every slot whose priority is below the priority counter
minus one has `bail = 1`; and every slot in the command that this call built
(which is the submitted `dc_shared` when it is not empty) has `bail = 0` and
a priority of at least the counter minus one. -/
theorem advance_sets_cancel_flags (P : Platform) (L : Limits) (s s' : State) (dir : Int)
    (hdir : dir = -1 ∨ dir = 0 ∨ dir = 1) (h : advance P L s dir = .ok s') :
    (∀ z ∈ s'.cache, z.lru < s'.lru_stamp - 1 → z.bail = 1) ∧
    ∃ r, advance_command P L s dir = .ok r ∧
      (r.2.num_files ≠ 0 → s'.dc_shared = r.2) ∧
      ∀ i ∈ r.2.files, ∃ z, s'.cache[i]? = some z ∧ z.bail = 0 ∧ s'.lru_stamp - 1 ≤ z.lru := by
  obtain ⟨s0, s1, r, h0, h1, hq, ec, _, _, _, el, edc⟩ := advance_split P L s s' dir h
  have hr : advance_command P L s dir = .ok r := by
    unfold advance_command
    simp only [h0, h1]
    exact hq
  obtain ⟨fis, hfis, hc, hn⟩ := advance_move_spec P s s0 dir h0
  obtain ⟨a1, a2, a3, _, _⟩ := flush_cache_other P L s0 s1 h1
  obtain ⟨b1, b2, b3, _, _⟩ := advance_queue_other P s1 dir r hq
  refine ⟨?_, r, hr, ?_, ?_⟩
  · rw [ec, el]
    exact advance_bail_set _ _
  · intro hne
    rw [edc, if_pos hne]
  · have inv := advance_queue_bail P s1 dir r hq (s0.lru_stamp - 1) (by
      intro fis' f hfis' hf
      rw [a1, hfis] at hfis'
      cases hfis'
      rw [a2] at hf
      have := hc f hf
      omega) (by
      intro hd fis' w f hfis' hw hf
      rw [a1, hfis] at hfis'
      cases hfis'
      rw [a2] at hw
      have hw' : wrap (some fis) (s0.cur_loc - 1) = .ok w ∨
          wrap (some fis) (s0.cur_loc + 1) = .ok w := by
        rcases hdir with hd' | hd' | hd'
        · subst hd'
          rcases hw with hw | hw
          · left; exact hw
          · right; simpa using hw
        · exact absurd hd' hd
        · subst hd'
          rcases hw with hw | hw
          · right; exact hw
          · left; exact hw
      have := hn w f hw' hf
      omega)
    intro i hi
    obtain ⟨z, hz, hb, hl⟩ := inv i hi
    rw [ec, el, b3, a3]
    refine ⟨z, advance_bail_get _ _ _ _ hz (by omega), hb, hl⟩

/-! ## advance: the command for three files without a slot -/

theorem emod_neighbours (n c : Int) (hn : 3 ≤ n) (h0 : 0 ≤ c) (h1 : c < n) :
    (c + 1) % n = (if c + 1 < n then c + 1 else 0) ∧
    (c - 1) % n = (if 0 < c then c - 1 else n - 1) := by
  constructor
  · by_cases h : c + 1 < n
    · rw [if_pos h]
      exact Int.emod_eq_of_lt (by omega) h
    · rw [if_neg h]
      have : c + 1 = n := by omega
      rw [this, Int.emod_self]
  · by_cases h : 0 < c
    · rw [if_pos h]
      exact Int.emod_eq_of_lt (by omega) (by omega)
    · rw [if_neg h]
      have : c = 0 := by omega
      subst this
      have h2 : ((0 : Int) - 1) % n = ((0 - 1) + n) % n := Int.add_emod_self.symm
      have h3 : ((0 : Int) - 1 + n) % n = 0 - 1 + n := Int.emod_eq_of_lt (by omega) (by omega)
      rw [h2, h3]
      omega

/-- With neither trigger true and an image in every available slot,
`flush_cache` returns the state it was given. -/
theorem flush_cache_idle (P : Platform) (L : Limits) (s : State)
    (hocc : occupied_count s.cache ≤ L.limit)
    (hbytes : total_resident s.cache ≤ s.max_cache_bytes)
    (himg : ∀ z ∈ s.cache, z.status = LOAD_available → z.image.isSome = true) :
    flush_cache P L s = .ok s := by
  obtain ⟨v, hv⟩ := flush_count_total s.cache 0 { total := 0, occupied_slots := 0, list := [] } himg
  obtain ⟨ht, ho, _, _⟩ := flush_count_spec _ _ _ _ hv
  simp only [zero_add] at ht ho
  unfold flush_cache
  simp only [hv]
  rw [if_pos]
  rw [ht, ho]
  omega

theorem find_unused_of_count (cs : List ImageFile) (h : 0 < unused_count cs) :
    ∃ i z, find_unused cs 0 = some i ∧ cs[i]? = some z ∧ z.status = LOAD_unused := by
  cases hf : find_unused cs 0 with
  | none =>
    have := find_unused_none cs 0 hf
    omega
  | some i =>
    obtain ⟨j, z, hij, hz, hun⟩ := find_unused_some _ _ _ hf
    rw [zero_add] at hij
    subst hij
    exact ⟨i, z, rfl, hz, hun⟩

/-- One allocating call of `queue_disk_command`: the file has no slot, an
unused slot exists and the command has room. The call returns. -/
theorem queue_disk_command_new (P : Platform) (s : State) (dc : DiskCommand) (which : Int)
    (mc : Bool) (fis : List FileInfo) (fi : FileInfo)
    (hfis : s.fileinfo = some fis) (hfi : fileinfo_at fis which = .ok fi)
    (hmiss : stb_sdict_get s.file_cache fi.filename = none)
    (hfree : 0 < unused_count s.cache) (hroom : dc.num_files < 4) :
    ∃ r i z, queue_disk_command P s dc which mc = .ok r ∧
      s.cache[i]? = some z ∧ z.status = LOAD_unused ∧
      r.1.cache = s.cache.set i (prepared { z with filename := some fi.filename } fi.lru) ∧
      r.1.file_cache = stb_sdict_add s.file_cache fi.filename i ∧
      r.1.fileinfo = s.fileinfo ∧ r.1.cur_loc = s.cur_loc ∧ r.1.lru_stamp = s.lru_stamp ∧
      r.2.files = dc.files ++ [i] := by
  obtain ⟨i, z, hfu, hz, hun⟩ := find_unused_of_count s.cache hfree
  exact ⟨_, i, z, queue_disk_command_miss P s dc which mc fis fi i z hfis hfi hmiss hfu hz hroom,
    hz, hun, rfl, rfl, rfl, rfl, rfl, rfl⟩

/-- The queue block of `advance` for `dir != 0`, composed from its steps. -/
theorem advance_queue_eq (P : Platform) (s : State) (dir : Int) (hd : dir ≠ 0)
    (r1 r2 r3 : State × DiskCommand) (w1 w2 : Int) (fis : List FileInfo) (f : FileInfo)
    (h1 : queue_disk_command P s { files := [] } s.cur_loc true = .ok r1)
    (hw1 : wrap r1.1.fileinfo (r1.1.cur_loc + dir) = .ok w1)
    (h2 : queue_disk_command P r1.1 r1.2 w1 false = .ok r2)
    (hw2 : wrap r2.1.fileinfo (r2.1.cur_loc - dir) = .ok w2)
    (h3 : queue_disk_command P r2.1 r2.2 w2 false = .ok r3)
    (hfis : r3.1.fileinfo = some fis) (hf : fileinfo_at fis r3.1.cur_loc = .ok f) :
    advance_queue P s dir = .ok ({ r3.1 with filename := some f.filename }, r3.2) := by
  unfold advance_queue
  simp only [h1, if_pos hd, hw1, h2, hw2, h3, hfis, hf]

/-- The function `advance`, composed from its steps. -/
theorem advance_eq (P : Platform) (L : Limits) (s s0 s1 : State) (dir : Int)
    (r : State × DiskCommand) (h0 : advance_move P s dir = .ok s0)
    (h1 : flush_cache P L s0 = .ok s1) (hq : advance_queue P s1 dir = .ok r)
    (hne : r.2.num_files ≠ 0) :
    advance P L s dir =
      .ok { r.1 with dc_shared := r.2, cache := advance_bail r.1.lru_stamp r.1.cache } := by
  unfold advance advance_command
  simp only [h0, h1, hq, if_pos hne]

theorem fileinfo_at_get (fis : List FileInfo) (w : Int) (f : FileInfo) (h0 : 0 ≤ w)
    (h : fis[w.toNat]? = some f) : fileinfo_at fis w = .ok f := by
  unfold fileinfo_at
  rw [if_pos h0, h]

theorem toNat_ne_of_ne (x y : Int) (hx : 0 ≤ x) (hy : 0 ≤ y) (h : x ≠ y) :
    x.toNat ≠ y.toNat := by
  intro he
  have h1 := Int.toNat_of_nonneg hx
  have h2 := Int.toNat_of_nonneg hy
  rw [he] at h1
  exact h (h1.symm.trans h2)

/-- In a list of at least three entries the index `c` and its two wrapped
neighbours are three different indices. -/
theorem neighbour_indices (n c d e dir : Int) (hn : 3 ≤ n) (hc0 : 0 ≤ c) (hc1 : c < n)
    (hdir : dir = 1 ∨ dir = -1) (hd : d = (c + dir) % n) (he : e = (c - dir) % n) :
    0 ≤ d ∧ 0 ≤ e ∧ d ≠ c ∧ e ≠ c ∧
      (d = (c - 1) % n ∨ d = (c + 1) % n) ∧ (e = (c - 1) % n ∨ e = (c + 1) % n) ∧
      -n ≤ c + dir ∧ -n ≤ c - dir := by
  obtain ⟨hb, ha⟩ := emod_neighbours n c hn hc0 hc1
  have e1 : c + -1 = c - 1 := by omega
  have e2 : c - -1 = c + 1 := by omega
  rcases hdir with h | h
  · subst h
    rw [← hd] at hb
    rw [← he] at ha
    refine ⟨?_, ?_, ?_, ?_, Or.inr hd, Or.inl he, by omega, by omega⟩
    · rw [hb]; split <;> omega
    · rw [ha]; split <;> omega
    · rw [hb]; split <;> omega
    · rw [ha]; split <;> omega
  · subst h
    rw [e1] at hd
    rw [e2] at he
    rw [← he] at hb
    rw [← hd] at ha
    refine ⟨?_, ?_, ?_, ?_, Or.inl hd, Or.inr he, by omega, by omega⟩
    · rw [ha]; split <;> omega
    · rw [hb]; split <;> omega
    · rw [ha]; split <;> omega
    · rw [hb]; split <;> omega

/-- The first part of `advance(dir)` for `dir` = +1 or -1 on a list of at
least three files: the new current index `c` and its neighbours `d` (in
direction `dir`) and `e` (opposite) are three different entries, stamped
`P + 1`, `P` and `P`. -/
theorem advance_move_three (P : Platform) (s : State) (dir : Int)
    (fis : List FileInfo) (c d e : Int) (fc fd fe : FileInfo)
    (hfis : s.fileinfo = some fis) (hn : 3 ≤ fis.length) (hcur : 0 ≤ s.cur_loc)
    (hdir : dir = 1 ∨ dir = -1)
    (hc : c = (s.cur_loc + dir) % (fis.length : Int))
    (hd : d = (c + dir) % (fis.length : Int))
    (he : e = (c - dir) % (fis.length : Int))
    (hfc : fis[c.toNat]? = some fc) (hfd : fis[d.toNat]? = some fd)
    (hfe : fis[e.toNat]? = some fe) :
    ∃ fis', advance_move P s dir =
        .ok { s with cur_loc := c, fileinfo := some fis', lru_stamp := s.lru_stamp + 1 } ∧
      fileinfo_at fis' c = .ok { fc with lru := s.lru_stamp + 1 } ∧
      fileinfo_at fis' d = .ok { fd with lru := s.lru_stamp } ∧
      fileinfo_at fis' e = .ok { fe with lru := s.lru_stamp } ∧
      wrap (some fis') (c + dir) = .ok d ∧ wrap (some fis') (c - dir) = .ok e := by
  have hn0 : 0 < fis.length := by omega
  have hnz : (3 : Int) ≤ (fis.length : Int) := by exact_mod_cast hn
  have hz : -(fis.length : Int) ≤ s.cur_loc + dir := by
    rcases hdir with h | h <;> rw [h] <;> omega
  obtain ⟨fis', hlen, hmove, hget⟩ := advance_move_full P s dir fis hfis hn0 hz
  rw [← hc] at hmove hget
  have hc0 : 0 ≤ c := by rw [hc]; exact Int.emod_nonneg _ (by omega)
  have hc1 : c < fis.length := by rw [hc]; exact Int.emod_lt_of_pos _ (by omega)
  obtain ⟨hd0, he0, hdc, hec, hdab, heab, hzd, hze⟩ :=
    neighbour_indices (fis.length : Int) c d e dir hnz hc0 hc1 hdir hd he
  have hlen0 : 0 < fis'.length := by omega
  have hlen' : (fis'.length : Int) = (fis.length : Int) := by rw [hlen]
  refine ⟨fis', hmove, ?_, ?_, ?_, ?_, ?_⟩
  · apply fileinfo_at_get _ _ _ hc0
    rw [hget _ _ hfc, if_pos rfl]
  · apply fileinfo_at_get _ _ _ hd0
    rw [hget _ _ hfd, if_neg (toNat_ne_of_ne d c hd0 hc0 hdc), if_pos]
    rcases hdab with h | h
    · left; rw [h]
    · right; rw [h]
  · apply fileinfo_at_get _ _ _ he0
    rw [hget _ _ hfe, if_neg (toNat_ne_of_ne e c he0 hc0 hec), if_pos]
    rcases heab with h | h
    · left; rw [h]
    · right; rw [h]
  · rw [wrap_spec fis' hlen0 (c + dir) (by rw [hlen']; exact hzd), hlen, ← hd]
  · rw [wrap_spec fis' hlen0 (c - dir) (by rw [hlen']; exact hze), hlen, ← he]

/-- The queue block of `advance(dir)`, `dir != 0`, when the three requested
files have distinct names, none of them in the lookup, and three slots are
unused: it returns with a command of three different slots that were unused,
each now prepared for its file. -/
theorem advance_queue_three (P : Platform) (s0 : State) (dir : Int) (hdir : dir ≠ 0)
    (fis' : List FileInfo) (d e : Int) (gc gd ge : FileInfo)
    (q2 : s0.fileinfo = some fis')
    (hgc : fileinfo_at fis' s0.cur_loc = .ok gc) (hgd : fileinfo_at fis' d = .ok gd)
    (hge : fileinfo_at fis' e = .ok ge)
    (wd : wrap (some fis') (s0.cur_loc + dir) = .ok d)
    (we : wrap (some fis') (s0.cur_loc - dir) = .ok e)
    (hnames : gc.filename ≠ gd.filename ∧ gc.filename ≠ ge.filename ∧
      gd.filename ≠ ge.filename)
    (hmc : stb_sdict_get s0.file_cache gc.filename = none)
    (hmd : stb_sdict_get s0.file_cache gd.filename = none)
    (hme : stb_sdict_get s0.file_cache ge.filename = none)
    (hfree : 3 ≤ unused_count s0.cache) :
    ∃ r i1 i2 i3 z1 z2 z3, advance_queue P s0 dir = .ok r ∧
      r.2.files = [i1, i2, i3] ∧ i1 ≠ i2 ∧ i1 ≠ i3 ∧ i2 ≠ i3 ∧
      s0.cache[i1]? = some z1 ∧ z1.status = LOAD_unused ∧
      s0.cache[i2]? = some z2 ∧ z2.status = LOAD_unused ∧
      s0.cache[i3]? = some z3 ∧ z3.status = LOAD_unused ∧
      r.1.cache[i1]? = some (prepared { z1 with filename := some gc.filename } gc.lru) ∧
      r.1.cache[i2]? = some (prepared { z2 with filename := some gd.filename } gd.lru) ∧
      r.1.cache[i3]? = some (prepared { z3 with filename := some ge.filename } ge.lru) ∧
      r.1.cur_loc = s0.cur_loc ∧ r.1.lru_stamp = s0.lru_stamp ∧
      r.1.filename = some gc.filename := by
  -- first call
  obtain ⟨r1, i1, z1, h1, hz1, hu1, ec1, ef1, efi1, ecl1, els1, edc1⟩ :=
    queue_disk_command_new P s0 { files := [] } s0.cur_loc true fis' gc q2 hgc
      hmc (by omega) (by simp [DiskCommand.num_files])
  rw [q2] at efi1
  have hi1 := getElem?_lt_of_some _ _ _ hz1
  have k1 : unused_count s0.cache - 1 ≤ unused_count r1.1.cache := by
    rw [ec1]
    exact unused_count_set s0.cache i1 z1 _ hz1
  have hm2 : stb_sdict_get r1.1.file_cache gd.filename = none := by
    rw [ef1, stb_sdict_get_add _ _ _ _ hmc, if_neg (Ne.symm hnames.1)]; exact hmd
  -- second call
  obtain ⟨r2, i2, z2, h2, hz2, hu2, ec2, ef2, efi2, ecl2, els2, edc2⟩ :=
    queue_disk_command_new P r1.1 r1.2 d false fis' gd efi1 hgd hm2
      (by omega) (by rw [DiskCommand.num_files, edc1]; simp)
  have h12 : i1 ≠ i2 := by
    intro h
    subst h
    rw [ec1, List.getElem?_set_self hi1] at hz2
    cases hz2
    cases hu2
  rw [ec1, List.getElem?_set_ne h12] at hz2
  have hi2 := getElem?_lt_of_some _ _ _ hz2
  have k2 := queue_disk_command_unused P r1.1 r1.2 d false r2 h2
  -- third call
  obtain ⟨r3, i3, z3, h3, hz3, hu3, ec3, ef3, efi3, ecl3, els3, edc3⟩ :=
    queue_disk_command_new P r2.1 r2.2 e false fis' ge (efi2.trans efi1) hge
      (by rw [ef2, stb_sdict_get_add _ _ _ _ hm2, if_neg (Ne.symm hnames.2.2), ef1,
            stb_sdict_get_add _ _ _ _ hmc, if_neg (Ne.symm hnames.2.1)]; exact hme)
      (by omega)
      (by rw [DiskCommand.num_files, edc2, edc1]; simp)
  have h23 : i2 ≠ i3 := by
    intro h
    subst h
    rw [ec2, List.getElem?_set_self (by rw [ec1, List.length_set]; exact hi2)] at hz3
    cases hz3
    cases hu3
  rw [ec2, List.getElem?_set_ne h23] at hz3
  have h13 : i1 ≠ i3 := by
    intro h
    subst h
    rw [ec1, List.getElem?_set_self hi1] at hz3
    cases hz3
    cases hu3
  rw [ec1, List.getElem?_set_ne h13] at hz3
  have hi3 := getElem?_lt_of_some _ _ _ hz3
  have hq := advance_queue_eq P s0 dir hdir
    r1 r2 r3 d e fis' gc h1 (by rw [efi1, ecl1]; exact wd) h2
    (by rw [efi2, efi1, ecl2, ecl1]; exact we) h3 (efi3.trans (efi2.trans efi1))
    (by rw [ecl3, ecl2, ecl1]; exact hgc)
  have hfiles : r3.2.files = [i1, i2, i3] := by rw [edc3, edc2, edc1]; rfl
  refine ⟨_, i1, i2, i3, z1, z2, z3, hq, hfiles, h12, h13, h23, hz1, hu1, hz2, hu2, hz3, hu3,
    ?_, ?_, ?_, ecl3.trans (ecl2.trans ecl1), els3.trans (els2.trans els1), rfl⟩
  · show r3.1.cache[i1]? = _
    rw [ec3, List.getElem?_set_ne (Ne.symm h13), ec2, List.getElem?_set_ne (Ne.symm h12), ec1,
      List.getElem?_set_self hi1]
  · show r3.1.cache[i2]? = _
    rw [ec3, List.getElem?_set_ne (Ne.symm h23), ec2,
      List.getElem?_set_self (by rw [ec1, List.length_set]; exact hi2)]
  · show r3.1.cache[i3]? = _
    rw [ec3, List.getElem?_set_self (by rw [ec2, ec1, List.length_set, List.length_set]; exact hi3)]

/-- C14. The command of `advance` for three files without a slot. For a file
list of at least three entries, `dir` = +1 or -1, `c = (cur_loc + dir) mod n`
the new current index, `d = (c + dir) mod n` and `e = (c - dir) mod n` its
neighbours, the three file names distinct and none of them in the lookup, at
least three unused slots, and no eviction pressure: `advance(dir)` returns and
submits a command of exactly three slots `[i1, i2, i3]`, three different slots
that were unused before the call; afterwards `i1` holds the new current file
with priority `P + 1`, `i2` the file at `d` and `i3` the file at `e`, both
with priority `P` (`P` the counter before the call), each in status inactive,
without image and with `bail` clear. -/
theorem advance_submits_three (P : Platform) (L : Limits) (s : State) (dir : Int)
    (fis : List FileInfo) (c d e : Int) (fc fd fe : FileInfo)
    (hfis : s.fileinfo = some fis) (hn : 3 ≤ fis.length) (hcur : 0 ≤ s.cur_loc)
    (hdir : dir = 1 ∨ dir = -1)
    (hc : c = (s.cur_loc + dir) % (fis.length : Int))
    (hd : d = (c + dir) % (fis.length : Int))
    (he : e = (c - dir) % (fis.length : Int))
    (hfc : fis[c.toNat]? = some fc) (hfd : fis[d.toNat]? = some fd)
    (hfe : fis[e.toNat]? = some fe)
    (hnames : fc.filename ≠ fd.filename ∧ fc.filename ≠ fe.filename ∧
      fd.filename ≠ fe.filename)
    (hmc : stb_sdict_get s.file_cache fc.filename = none)
    (hmd : stb_sdict_get s.file_cache fd.filename = none)
    (hme : stb_sdict_get s.file_cache fe.filename = none)
    (hfree : 3 ≤ unused_count s.cache)
    (hocc : occupied_count s.cache ≤ L.limit)
    (hbytes : total_resident s.cache ≤ s.max_cache_bytes)
    (himg : ∀ z ∈ s.cache, z.status = LOAD_available → z.image.isSome = true) :
    ∃ s' i1 i2 i3 z1 z2 z3, advance P L s dir = .ok s' ∧
      s'.dc_shared.files = [i1, i2, i3] ∧ s'.dc_shared.num_files = 3 ∧
      i1 ≠ i2 ∧ i1 ≠ i3 ∧ i2 ≠ i3 ∧
      s.cache[i1]? = some z1 ∧ z1.status = LOAD_unused ∧
      s.cache[i2]? = some z2 ∧ z2.status = LOAD_unused ∧
      s.cache[i3]? = some z3 ∧ z3.status = LOAD_unused ∧
      s'.cache[i1]? = some { z1 with filename := some fc.filename, status := LOAD_inactive,
                                     image := none, bail := 0, lru := s.lru_stamp + 1 } ∧
      s'.cache[i2]? = some { z2 with filename := some fd.filename, status := LOAD_inactive,
                                     image := none, bail := 0, lru := s.lru_stamp } ∧
      s'.cache[i3]? = some { z3 with filename := some fe.filename, status := LOAD_inactive,
                                     image := none, bail := 0, lru := s.lru_stamp } ∧
      s'.cur_loc = c ∧ s'.lru_stamp = s.lru_stamp + 1 ∧ s'.filename = some fc.filename := by
  obtain ⟨fis', hmove, gc, gd, ge, wd, we⟩ :=
    advance_move_three P s dir fis c d e fc fd fe hfis hn hcur hdir hc hd he hfc hfd hfe
  obtain ⟨s0, hs0, q0, q1, q2, q3, q4, q5⟩ : ∃ s0 : State, advance_move P s dir = .ok s0 ∧
      s0.cache = s.cache ∧ s0.file_cache = s.file_cache ∧ s0.fileinfo = some fis' ∧
      s0.cur_loc = c ∧ s0.lru_stamp = s.lru_stamp + 1 ∧
      s0.max_cache_bytes = s.max_cache_bytes := ⟨_, hmove, rfl, rfl, rfl, rfl, rfl, rfl⟩
  have hflush : flush_cache P L s0 = .ok s0 :=
    flush_cache_idle P L s0 (by rw [q0]; exact hocc) (by rw [q0, q5]; exact hbytes)
      (by rw [q0]; exact himg)
  rw [← q3] at gc wd we
  obtain ⟨r, i1, i2, i3, z1, z2, z3, hq, hfiles, h12, h13, h23, hz1, hu1, hz2, hu2, hz3, hu3,
      c1, c2, c3, ecl, els, efn⟩ :=
    advance_queue_three P s0 dir (by rcases hdir with h | h <;> rw [h] <;> decide) fis' d e
      _ _ _ q2 gc gd ge wd we hnames (by rw [q1]; exact hmc) (by rw [q1]; exact hmd)
      (by rw [q1]; exact hme) (by rw [q0]; exact hfree)
  rw [q0] at hz1 hz2 hz3
  have hadv := advance_eq P L s s0 s0 dir r hs0 hflush hq
    (by simp [DiskCommand.num_files, hfiles])
  have hstamp : r.1.lru_stamp = s.lru_stamp + 1 := els.trans q4
  refine ⟨_, i1, i2, i3, z1, z2, z3, hadv, hfiles, by simp [DiskCommand.num_files, hfiles],
    h12, h13, h23, hz1, hu1, hz2, hu2, hz3, hu3, ?_, ?_, ?_, ecl.trans q3, hstamp, efn⟩
  · exact advance_bail_get _ _ _ _ c1 (by rw [hstamp]; simp [prepared])
  · exact advance_bail_get _ _ _ _ c2 (by rw [hstamp]; simp [prepared])
  · exact advance_bail_get _ _ _ _ c3 (by rw [hstamp]; simp [prepared])

/-! ## One slot per filename -/

/-- Replacing a slot by one with the same filename that is occupied exactly
when the old one was keeps the lookup consistent. -/
theorem names_consistent_set (cs : List ImageFile) (d : List (String × Nat)) (i : Nat)
    (z q : ImageFile) (h : names_consistent cs d) (hz : cs[i]? = some z)
    (hst : q.status ≠ LOAD_unused ↔ z.status ≠ LOAD_unused) (hfn : q.filename = z.filename) :
    names_consistent (cs.set i q) d := by
  obtain ⟨h1, h2, h3⟩ := h
  have hi := getElem?_lt_of_some _ _ _ hz
  have old : ∀ (j : Nat) (w : ImageFile), (cs.set i q)[j]? = some w →
      ∃ w0, cs[j]? = some w0 ∧ (w.status ≠ LOAD_unused ↔ w0.status ≠ LOAD_unused) ∧
        w.filename = w0.filename := by
    intro j w hw
    by_cases hj : i = j
    · subst hj
      rw [List.getElem?_set_self hi] at hw
      cases hw
      exact ⟨z, hz, hst, hfn⟩
    · rw [List.getElem?_set_ne hj] at hw
      exact ⟨w, hw, Iff.rfl, rfl⟩
  refine ⟨?_, ?_, ?_⟩
  · intro a b p r hp hr hpo hro hpr
    obtain ⟨p0, hp0, sp, fp⟩ := old a p hp
    obtain ⟨r0, hr0, sr, fr⟩ := old b r hr
    exact h1 a b p0 r0 hp0 hr0 (sp.1 hpo) (sr.1 hro) (by rw [← fp, ← fr]; exact hpr)
  · intro a w hw hwo
    obtain ⟨w0, hw0, sw, fw⟩ := old a w hw
    rw [fw]
    exact h2 a w0 hw0 (sw.1 hwo)
  · intro k a hk
    obtain ⟨w0, hw0, ho, hf⟩ := h3 k a hk
    by_cases hj : i = a
    · subst hj
      rw [hz] at hw0
      cases hw0
      exact ⟨q, List.getElem?_set_self hi, hst.2 ho, hfn.trans hf⟩
    · exact ⟨w0, by rw [List.getElem?_set_ne hj]; exact hw0, ho, hf⟩

/-- Giving an unused slot a name that the lookup does not hold, and adding
the name to the lookup, keeps the lookup consistent. -/
theorem names_consistent_add (cs : List ImageFile) (d : List (String × Nat)) (i : Nat)
    (z q : ImageFile) (name : String) (h : names_consistent cs d) (hz : cs[i]? = some z)
    (hun : z.status = LOAD_unused) (hq : q.status ≠ LOAD_unused)
    (hfn : q.filename = some name) (hmiss : stb_sdict_get d name = none) :
    names_consistent (cs.set i q) (stb_sdict_add d name i) := by
  obtain ⟨h1, h2, h3⟩ := h
  have hi := getElem?_lt_of_some _ _ _ hz
  refine ⟨?_, ?_, ?_⟩
  · intro a b p r hp hr hpo hro hpr
    by_cases ha : i = a
    · by_cases hb : i = b
      · rw [← ha, ← hb]
      · exfalso
        subst ha
        rw [List.getElem?_set_self hi] at hp
        cases hp
        rw [List.getElem?_set_ne hb] at hr
        obtain ⟨k, hk, hg⟩ := h2 b r hr hro
        rw [hfn, hk] at hpr
        cases hpr
        rw [hmiss] at hg
        cases hg
    · rw [List.getElem?_set_ne ha] at hp
      by_cases hb : i = b
      · exfalso
        subst hb
        rw [List.getElem?_set_self hi] at hr
        cases hr
        obtain ⟨k, hk, hg⟩ := h2 a p hp hpo
        rw [hfn, hk] at hpr
        cases hpr
        rw [hmiss] at hg
        cases hg
      · rw [List.getElem?_set_ne hb] at hr
        exact h1 a b p r hp hr hpo hro hpr
  · intro a w hw hwo
    rw [stb_sdict_add, hmiss]
    simp only [Option.isSome_none, Bool.false_eq_true, if_false, stb_sdict_get]
    by_cases ha : i = a
    · subst ha
      rw [List.getElem?_set_self hi] at hw
      cases hw
      exact ⟨name, hfn, by simp⟩
    · rw [List.getElem?_set_ne ha] at hw
      obtain ⟨k, hk, hg⟩ := h2 a w hw hwo
      refine ⟨k, hk, ?_⟩
      have hne : name ≠ k := by
        intro hc
        subst hc
        rw [hmiss] at hg
        cases hg
      rw [if_neg hne]
      exact hg
  · intro k a hk
    rw [stb_sdict_get_add _ _ _ _ hmiss] at hk
    by_cases hkn : k = name
    · rw [if_pos hkn] at hk
      cases hk
      exact ⟨q, List.getElem?_set_self hi, hq, by rw [hfn, hkn]⟩
    · rw [if_neg hkn] at hk
      obtain ⟨w0, hw0, ho, hf⟩ := h3 k a hk
      have hne : i ≠ a := by
        intro hc
        subst hc
        rw [hz] at hw0
        cases hw0
        exact ho hun
      exact ⟨w0, by rw [List.getElem?_set_ne hne]; exact hw0, ho, hf⟩

/-- Clearing an occupied slot and removing its name from the lookup keeps the
lookup consistent. -/
theorem names_consistent_remove (cs : List ImageFile) (d : List (String × Nat)) (i : Nat)
    (z q : ImageFile) (name : String) (h : names_consistent cs d) (hz : cs[i]? = some z)
    (hocc : z.status ≠ LOAD_unused) (hname : z.filename = some name)
    (hq : q.status = LOAD_unused) :
    names_consistent (cs.set i q) (stb_sdict_remove d name) := by
  obtain ⟨h1, h2, h3⟩ := h
  have hi := getElem?_lt_of_some _ _ _ hz
  refine ⟨?_, ?_, ?_⟩
  · intro a b p r hp hr hpo hro hpr
    have ha : i ≠ a := by
      intro hc
      subst hc
      rw [List.getElem?_set_self hi] at hp
      cases hp
      exact hpo hq
    have hb : i ≠ b := by
      intro hc
      subst hc
      rw [List.getElem?_set_self hi] at hr
      cases hr
      exact hro hq
    rw [List.getElem?_set_ne ha] at hp
    rw [List.getElem?_set_ne hb] at hr
    exact h1 a b p r hp hr hpo hro hpr
  · intro a w hw hwo
    have ha : i ≠ a := by
      intro hc
      subst hc
      rw [List.getElem?_set_self hi] at hw
      cases hw
      exact hwo hq
    rw [List.getElem?_set_ne ha] at hw
    obtain ⟨k, hk, hg⟩ := h2 a w hw hwo
    refine ⟨k, hk, ?_⟩
    rw [stb_sdict_get_remove]
    have hne : k ≠ name := by
      intro hc
      subst hc
      exact ha (h1 i a z w hz hw hocc hwo (hname.trans hk.symm))
    rw [if_neg hne]
    exact hg
  · intro k a hk
    rw [stb_sdict_get_remove] at hk
    by_cases hkn : k = name
    · rw [if_pos hkn] at hk
      cases hk
    · rw [if_neg hkn] at hk
      obtain ⟨w0, hw0, ho, hf⟩ := h3 k a hk
      have hne : i ≠ a := by
        intro hc
        subst hc
        rw [hz] at hw0
        cases hw0
        rw [hname] at hf
        cases hf
        exact hkn rfl
      exact ⟨w0, by rw [List.getElem?_set_ne hne]; exact hw0, ho, hf⟩

theorem queue_disk_command_names (P : Platform) (s : State) (dc : DiskCommand) (which : Int)
    (mc : Bool) (r : State × DiskCommand) (h : queue_disk_command P s dc which mc = .ok r)
    (hinv : names_consistent s.cache s.file_cache) :
    names_consistent r.1.cache r.1.file_cache := by
  obtain ⟨fis, fi, _, _, _, _, _, _, _, hcase⟩ := queue_disk_command_spec P s dc which mc r h
  rcases hcase with ⟨zi, z, _, hz, _, hc, hf, _⟩ | ⟨zi, z, _, hz, hin, hc, hf, _⟩ |
    ⟨i, z, hmiss, hz, hun, hc, hf, _⟩
  · rw [hc, hf]
    exact names_consistent_set _ _ _ z _ hinv hz Iff.rfl rfl
  · rw [hc, hf]
    refine names_consistent_set _ _ _ z _ hinv hz ?_ rfl
    simp [prepared, hin]
  · rw [hc, hf]
    exact names_consistent_add _ _ _ z _ fi.filename hinv hz hun (by simp [prepared]) rfl hmiss

theorem evict_names_consistent (l : List Nat) (cs : List ImageFile) (d : List (String × Nat))
    (h : names_consistent cs d) :
    names_consistent (evict_slots l cs) (evict_names l cs d) := by
  induction l generalizing cs d with
  | nil => exact h
  | cons i rest ih =>
    unfold evict_slots evict_names
    cases hp : cs[i]? with
    | none => exact ih cs d h
    | some p =>
      simp only
      by_cases hev : evictable p = true
      · rw [if_pos hev, if_pos hev]
        have hocc : p.status ≠ LOAD_unused := by
          have := (evictable_iff p).2 hev
          exact this.2
        obtain ⟨k, hk, _⟩ := h.2.1 i p hp hocc
        rw [hk]
        exact ih _ _ (names_consistent_remove cs d i p (evicted p) k h hp hocc hk rfl)
      · rw [if_neg hev, if_neg hev]
        exact ih cs d h

theorem flush_cache_names (P : Platform) (L : Limits) (s s' : State)
    (h : flush_cache P L s = .ok s') (hinv : names_consistent s.cache s.file_cache) :
    names_consistent s'.cache s'.file_cache := by
  obtain ⟨_, hcase | ⟨l1, l2, _, _, hs, _, _⟩⟩ := flush_cache_spec P L s s' h
  · rw [hcase.1]; exact hinv
  · rw [hs]
    exact evict_names_consistent l1 s.cache s.file_cache hinv

theorem advance_bail_names (stamp : Int) (cs : List ImageFile) (d : List (String × Nat))
    (h : names_consistent cs d) : names_consistent (advance_bail stamp cs) d := by
  obtain ⟨h1, h2, h3⟩ := h
  have old : ∀ (j : Nat) (w : ImageFile), (advance_bail stamp cs)[j]? = some w →
      ∃ w0, cs[j]? = some w0 ∧ w.status = w0.status ∧ w.filename = w0.filename := by
    intro j w hw
    unfold advance_bail at hw
    rw [List.getElem?_map] at hw
    cases hj : cs[j]? with
    | none => rw [hj] at hw; cases hw
    | some w0 =>
      rw [hj] at hw
      simp only [Option.map_some', Option.some.injEq] at hw
      refine ⟨w0, rfl, ?_, ?_⟩
      · rw [← hw]; split <;> rfl
      · rw [← hw]; split <;> rfl
  refine ⟨?_, ?_, ?_⟩
  · intro a b p r hp hr hpo hro hpr
    obtain ⟨p0, hp0, sp, fp⟩ := old a p hp
    obtain ⟨r0, hr0, sr, fr⟩ := old b r hr
    exact h1 a b p0 r0 hp0 hr0 (by rw [← sp]; exact hpo) (by rw [← sr]; exact hro)
      (by rw [← fp, ← fr]; exact hpr)
  · intro a w hw hwo
    obtain ⟨w0, hw0, sw, fw⟩ := old a w hw
    rw [fw]
    exact h2 a w0 hw0 (by rw [← sw]; exact hwo)
  · intro k a hk
    obtain ⟨w0, hw0, ho, hf⟩ := h3 k a hk
    refine ⟨if w0.lru < stamp - 1 then { w0 with bail := 1 } else w0, ?_, ?_, ?_⟩
    · unfold advance_bail
      rw [List.getElem?_map, hw0]
      rfl
    · split
      · exact ho
      · exact ho
    · split
      · exact hf
      · exact hf

theorem advance_queue_names (P : Platform) (s : State) (dir : Int) (r : State × DiskCommand)
    (h : advance_queue P s dir = .ok r) (hinv : names_consistent s.cache s.file_cache) :
    names_consistent r.1.cache r.1.file_cache := by
  obtain ⟨r1, r3, h1, hcase, ec, ef, _⟩ := advance_queue_split P s dir r h
  rw [ec, ef]
  have i1 := queue_disk_command_names P s _ _ _ r1 h1 hinv
  rcases hcase with ⟨_, h3⟩ | ⟨_, w1, r2, w2, _, h2, _, h3⟩
  · rw [h3]; exact i1
  · exact queue_disk_command_names P _ _ _ _ r3 h3
      (queue_disk_command_names P _ _ _ _ r2 h2 i1)

/-- C12. One slot per filename. Call a state consistent when no two occupied
slots have the same filename, every occupied slot has a filename that the
lookup `file_cache` maps to that slot, and the lookup maps a name to a slot
only when that slot is occupied and holds the name. A returning call of
`queue_disk_command`, of `flush_cache` and of `advance` on a consistent state
ends in a consistent state. -/
theorem names_stay_consistent (P : Platform) (L : Limits) (s : State)
    (hinv : names_consistent s.cache s.file_cache) :
    (∀ dc which mc r, queue_disk_command P s dc which mc = .ok r →
      names_consistent r.1.cache r.1.file_cache) ∧
    (∀ s', flush_cache P L s = .ok s' → names_consistent s'.cache s'.file_cache) ∧
    (∀ dir s', advance P L s dir = .ok s' → names_consistent s'.cache s'.file_cache) := by
  refine ⟨?_, ?_, ?_⟩
  · intro dc which mc r h
    exact queue_disk_command_names P s dc which mc r h hinv
  · intro s' h
    exact flush_cache_names P L s s' h hinv
  · intro dir s' h
    obtain ⟨s0, s1, r, h0, h1, hq, ec, ef, _⟩ := advance_split P L s s' dir h
    obtain ⟨c0, f0, _⟩ := advance_move_cache P s s0 dir h0
    rw [ec, ef]
    apply advance_bail_names
    apply advance_queue_names P s1 dir r hq
    apply flush_cache_names P L s0 s1 h1
    rw [c0, f0]
    exact hinv

/-! ## The disk reader -/

/-- The body of the file loop does not read the status of the slot. -/
theorem diskload_slot_status (D : Loader) (z : ImageFile) (st : LoadStatus) :
    diskload_slot D { z with status := st } = diskload_slot D z := by
  unfold diskload_slot
  rfl

/-- The outcome of the body of the file loop, case by case. -/
theorem diskload_slot_cases (D : Loader) (z z1 : ImageFile) (h : diskload_slot D z = .ok z1) :
    (z.bail ≠ 0 → z1 = { z with status := LOAD_inactive }) ∧
    (z.bail = 0 → ∃ name, z.filename = some name ∧
      (D.stb_file name = none →
        z1 = { z with error := some "can't open", filedata := none, len := 0,
                      status := LOAD_error_reading }) ∧
      (∀ data, D.stb_file name = some data →
        z1 = { z with error := none, filedata := some data, len := data.length,
                      status := LOAD_reading_done })) := by
  unfold diskload_slot at h
  split at h
  · rename_i hb
    cases h
    exact ⟨fun _ => rfl, fun h0 => absurd h0 hb⟩
  · rename_i hb
    refine ⟨fun h0 => absurd h0 hb, fun _ => ?_⟩
    split at h
    · cases h
    · rename_i name hn
      refine ⟨name, hn, ?_, ?_⟩
      · intro hd
        rw [hd] at h
        cases h
        rfl
      · intro data hd
        rw [hd] at h
        cases h
        rfl

/-- Running the body of the file loop again on its own result changes
nothing. -/
theorem diskload_slot_idem (D : Loader) (z z1 : ImageFile) (h : diskload_slot D z = .ok z1) :
    diskload_slot D z1 = .ok z1 ∧ z1.bail = z.bail ∧ z1.filename = z.filename ∧
      z1.lru = z.lru ∧ z1.image = z.image := by
  obtain ⟨c1, c2⟩ := diskload_slot_cases D z z1 h
  by_cases hb : z.bail ≠ 0
  · rw [c1 hb]
    refine ⟨?_, rfl, rfl, rfl, rfl⟩
    unfold diskload_slot
    rw [if_pos hb]
  · obtain ⟨name, hn, d1, d2⟩ := c2 (not_not.1 hb)
    cases hd : D.stb_file name with
    | none =>
      rw [d1 hd]
      refine ⟨?_, rfl, rfl, rfl, rfl⟩
      unfold diskload_slot
      simp only [hb, if_false, hn, hd]
    | some data =>
      rw [d2 data hd]
      refine ⟨?_, rfl, rfl, rfl, rfl⟩
      unfold diskload_slot
      simp only [hb, if_false, hn, hd]

theorem diskload_slot_total (D : Loader) (z : ImageFile)
    (h : z.bail = 0 → z.filename.isSome = true) : ∃ z1, diskload_slot D z = .ok z1 := by
  unfold diskload_slot
  by_cases hb : z.bail ≠ 0
  · rw [if_pos hb]; exact ⟨_, rfl⟩
  · rw [if_neg hb]
    have := h (not_not.1 hb)
    cases hn : z.filename with
    | none => rw [hn] at this; cases this
    | some name =>
      simp only
      cases D.stb_file name with
      | none => exact ⟨_, rfl⟩
      | some data => exact ⟨_, rfl⟩

theorem diskload_claim_get (l : List Nat) (cs cs' : List ImageFile)
    (h : diskload_claim l cs = .ok cs') :
    cs'.length = cs.length ∧
    (∀ j, j ∉ l → cs'[j]? = cs[j]?) ∧
    (∀ i ∈ l, ∀ z, cs[i]? = some z → cs'[i]? = some { z with status := LOAD_reading }) := by
  induction l generalizing cs with
  | nil =>
    cases h
    exact ⟨rfl, fun _ _ => rfl, fun i hi => absurd hi (List.not_mem_nil i)⟩
  | cons a rest ih =>
    unfold diskload_claim at h
    cases ha : cs[a]? with
    | none => rw [ha] at h; cases h
    | some w =>
      rw [ha] at h
      have hlt := getElem?_lt_of_some _ _ _ ha
      obtain ⟨hl, hout, hin⟩ := ih _ h
      refine ⟨by rw [hl, List.length_set], ?_, ?_⟩
      · intro j hj
        rw [List.mem_cons, not_or] at hj
        rw [hout j hj.2, List.getElem?_set_ne (Ne.symm hj.1)]
      · intro i hi z hz
        by_cases hia : a = i
        · subst hia
          rw [ha] at hz
          cases hz
          by_cases hr : a ∈ rest
          · rw [hin a hr _ (List.getElem?_set_self hlt)]
          · rw [hout a hr, List.getElem?_set_self hlt]
        · have hr : i ∈ rest := by
            rcases List.mem_cons.1 hi with h1 | h1
            · exact absurd h1.symm hia
            · exact h1
          exact hin i hr z (by rw [List.getElem?_set_ne hia]; exact hz)

theorem diskload_files_get (D : Loader) (l : List Nat) (cs cs' : List ImageFile)
    (h : diskload_files D l cs = .ok cs') :
    cs'.length = cs.length ∧
    (∀ j, j ∉ l → cs'[j]? = cs[j]?) ∧
    (∀ i ∈ l, ∀ z, cs[i]? = some z → ∃ z1, diskload_slot D z = .ok z1 ∧ cs'[i]? = some z1) := by
  induction l generalizing cs with
  | nil =>
    cases h
    exact ⟨rfl, fun _ _ => rfl, fun i hi => absurd hi (List.not_mem_nil i)⟩
  | cons a rest ih =>
    unfold diskload_files at h
    cases hf : diskload_file D cs a with
    | error e => rw [hf] at h; cases h
    | ok cs1 =>
      simp only [hf] at h
      unfold diskload_file at hf
      cases ha : cs[a]? with
      | none => simp only [ha] at hf; cases hf
      | some w =>
        simp only [ha] at hf
        cases hw : diskload_slot D w with
        | error e => simp only [hw] at hf; cases hf
        | ok w1 =>
          simp only [hw] at hf
          cases hf
          have hlt := getElem?_lt_of_some _ _ _ ha
          obtain ⟨hl, hout, hin⟩ := ih _ h
          refine ⟨by rw [hl, List.length_set], ?_, ?_⟩
          · intro j hj
            rw [List.mem_cons, not_or] at hj
            rw [hout j hj.2, List.getElem?_set_ne (Ne.symm hj.1)]
          · intro i hi z hz
            by_cases hia : a = i
            · subst hia
              rw [ha] at hz
              cases hz
              by_cases hr : a ∈ rest
              · obtain ⟨z2, hz2, hget⟩ := hin a hr _ (List.getElem?_set_self hlt)
                rw [(diskload_slot_idem D w w1 hw).1] at hz2
                cases hz2
                exact ⟨w1, hw, hget⟩
              · exact ⟨w1, hw, by rw [hout a hr, List.getElem?_set_self hlt]⟩
            · have hr : i ∈ rest := by
                rcases List.mem_cons.1 hi with h1 | h1
                · exact absurd h1.symm hia
                · exact h1
              exact hin i hr z (by rw [List.getElem?_set_ne hia]; exact hz)

theorem diskload_claim_total (l : List Nat) (cs : List ImageFile)
    (h : ∀ i ∈ l, i < cs.length) : ∃ cs', diskload_claim l cs = .ok cs' := by
  induction l generalizing cs with
  | nil => exact ⟨cs, rfl⟩
  | cons a rest ih =>
    unfold diskload_claim
    have ha := h a (List.mem_cons_self a rest)
    rw [List.getElem?_eq_getElem ha]
    simp only
    apply ih
    intro i hi
    rw [List.length_set]
    exact h i (List.mem_cons_of_mem a hi)

theorem diskload_files_total (D : Loader) (l : List Nat) (cs : List ImageFile)
    (h : ∀ i ∈ l, ∃ z, cs[i]? = some z ∧ (z.bail = 0 → z.filename.isSome = true)) :
    ∃ cs', diskload_files D l cs = .ok cs' := by
  induction l generalizing cs with
  | nil => exact ⟨cs, rfl⟩
  | cons a rest ih =>
    unfold diskload_files diskload_file
    obtain ⟨w, hw, hwf⟩ := h a (List.mem_cons_self a rest)
    obtain ⟨w1, hw1⟩ := diskload_slot_total D w hwf
    rw [hw]
    simp only [hw1]
    apply ih
    intro i hi
    obtain ⟨z, hz, hzf⟩ := h i (List.mem_cons_of_mem a hi)
    have hlt := getElem?_lt_of_some _ _ _ hw
    obtain ⟨_, hb, hn, _, _⟩ := diskload_slot_idem D w w1 hw1
    by_cases hia : a = i
    · subst hia
      rw [hw] at hz
      cases hz
      exact ⟨w1, List.getElem?_set_self hlt, by rw [hb, hn]; exact hzf⟩
    · exact ⟨z, by rw [List.getElem?_set_ne hia]; exact hz, hzf⟩

/-- A returning pass of `diskload_task`: the command is cleared, nothing but
the cache and the command changes, slots outside the command are untouched,
and each slot of the command ends as the body of the file loop leaves it. -/
theorem diskload_task_spec (D : Loader) (s s' : State) (h : diskload_task D s = .ok s') :
    s'.dc_shared = { files := [] } ∧ s'.file_cache = s.file_cache ∧
    s'.fileinfo = s.fileinfo ∧ s'.cur_loc = s.cur_loc ∧ s'.lru_stamp = s.lru_stamp ∧
    s'.cache.length = s.cache.length ∧
    (∀ j, j ∉ s.dc_shared.files → s'.cache[j]? = s.cache[j]?) ∧
    (∀ i ∈ s.dc_shared.files, ∀ z, s.cache[i]? = some z →
      ∃ z1, diskload_slot D z = .ok z1 ∧ s'.cache[i]? = some z1) := by
  unfold diskload_task diskload_snapshot at h
  cases hc : diskload_claim s.dc_shared.files s.cache with
  | error e => simp only [hc] at h; cases h
  | ok c1 =>
    simp only [hc] at h
    cases hf : diskload_files D s.dc_shared.files c1 with
    | error e => simp only [hf] at h; cases h
    | ok c2 =>
      simp only [hf] at h
      cases h
      obtain ⟨l1, o1, i1⟩ := diskload_claim_get _ _ _ hc
      obtain ⟨l2, o2, i2⟩ := diskload_files_get D _ _ _ hf
      refine ⟨rfl, rfl, rfl, rfl, rfl, by simp only; rw [l2, l1], ?_, ?_⟩
      · intro j hj
        simp only
        rw [o2 j hj, o1 j hj]
      · intro i hi z hz
        obtain ⟨z1, hz1, hget⟩ := i2 i hi _ (i1 i hi z hz)
        rw [diskload_slot_status] at hz1
        exact ⟨z1, hz1, hget⟩

/-- A pass of `diskload_task` returns when every slot of the command exists
and has a filename unless its `bail` flag is set. -/
theorem diskload_task_total (D : Loader) (s : State)
    (hcmd : ∀ i ∈ s.dc_shared.files, ∃ z, s.cache[i]? = some z ∧
      (z.bail = 0 → z.filename.isSome = true)) : ∃ s', diskload_task D s = .ok s' := by
  obtain ⟨c1, hc⟩ := diskload_claim_total s.dc_shared.files s.cache (by
    intro i hi
    obtain ⟨z, hz, _⟩ := hcmd i hi
    exact getElem?_lt_of_some _ _ _ hz)
  obtain ⟨_, o1, i1⟩ := diskload_claim_get _ _ _ hc
  obtain ⟨c2, hf⟩ := diskload_files_total D s.dc_shared.files c1 (by
    intro i hi
    obtain ⟨z, hz, hzf⟩ := hcmd i hi
    exact ⟨_, i1 i hi z hz, hzf⟩)
  unfold diskload_task diskload_snapshot
  simp only [hc, hf]
  exact ⟨_, rfl⟩

/-- C16. Cancellation. When the file loop of the disk reader reaches a slot
in status reading whose `bail` flag is set, it returns with the status of that
slot back to inactive; the slot is otherwise unchanged (`filedata`, `len` and
`error` in particular), every other slot is unchanged, and the result is the
same whatever the file system holds: nothing is read. -/
theorem diskload_bail_reverts (D : Loader) (cs : List ImageFile) (i : Nat) (z : ImageFile)
    (hz : cs[i]? = some z) (hst : z.status = LOAD_reading) (hbail : z.bail ≠ 0) :
    diskload_file D cs i = .ok (cs.set i { z with status := LOAD_inactive }) ∧
    (∀ D' : Loader, diskload_file D' cs i = diskload_file D cs i) ∧
    (∃ z1, (cs.set i { z with status := LOAD_inactive })[i]? = some z1 ∧
      z1.status = LOAD_inactive ∧ z1.status ≠ z.status ∧ z1.filedata = z.filedata ∧
      z1.len = z.len ∧ z1.error = z.error ∧ z1.filename = z.filename ∧
      z1.image = z.image) ∧
    (∀ j, j ≠ i → (cs.set i { z with status := LOAD_inactive })[j]? = cs[j]?) := by
  have hlt := getElem?_lt_of_some _ _ _ hz
  have key : ∀ D' : Loader,
      diskload_file D' cs i = .ok (cs.set i { z with status := LOAD_inactive }) := by
    intro D'
    unfold diskload_file diskload_slot
    simp only [hz, hbail, ne_eq, not_false_eq_true, if_true]
  refine ⟨key D, fun D' => (key D').trans (key D).symm, ?_, ?_⟩
  · refine ⟨_, List.getElem?_set_self hlt, rfl, ?_, rfl, rfl, rfl, rfl, rfl⟩
    rw [hst]
    intro hc
    cases hc
  · intro j hj
    exact List.getElem?_set_ne (Ne.symm hj)

/-- C17. A command is consumed once. The locked section of the disk reader
hands the whole shared command to the local copy and leaves
`dc_shared.num_files = 0`, and so does a whole returning pass; on any state
with `dc_shared.num_files = 0` (a wake with no new submission) the snapshot is
empty and the pass returns the state unchanged. In particular a second pass
right after a returning pass changes nothing. -/
theorem diskload_consumes_once (D : Loader) (s s' : State) (h : diskload_task D s = .ok s') :
    (∃ r, diskload_snapshot s = .ok r ∧ r.2 = s.dc_shared ∧ r.1.dc_shared.num_files = 0) ∧
    s'.dc_shared.num_files = 0 ∧
    (∀ t : State, t.dc_shared.num_files = 0 →
      diskload_snapshot t = .ok (t, { files := [] }) ∧ diskload_task D t = .ok t) ∧
    diskload_task D s' = .ok s' := by
  have empty : ∀ t : State, t.dc_shared.num_files = 0 →
      diskload_snapshot t = .ok (t, { files := [] }) ∧ diskload_task D t = .ok t := by
    intro t ht
    have hfiles : t.dc_shared.files = [] := List.length_eq_zero.1 ht
    have hdc : t.dc_shared = { files := [] } := by
      cases hd : t.dc_shared with
      | mk files =>
        rw [hd] at hfiles
        simp only at hfiles
        rw [hfiles]
    have hsnap : diskload_snapshot t = .ok (t, { files := [] }) := by
      unfold diskload_snapshot
      rw [hfiles]
      simp only [diskload_claim]
      rw [← hdc]
    refine ⟨hsnap, ?_⟩
    unfold diskload_task
    rw [hsnap]
    simp only [diskload_files]
  obtain ⟨hdc, _⟩ := diskload_task_spec D s s' h
  have h0 : s'.dc_shared.num_files = 0 := by rw [hdc]; rfl
  refine ⟨?_, h0, empty, (empty s' h0).2⟩
  unfold diskload_task at h
  cases hs : diskload_snapshot s with
  | error e => simp only [hs] at h; cases h
  | ok r =>
    refine ⟨r, rfl, ?_, ?_⟩
    · unfold diskload_snapshot at hs
      split at hs
      · cases hs
      · cases hs
        rfl
    · unfold diskload_snapshot at hs
      split at hs
      · cases hs
      · cases hs
        rfl

/-- C18. Read failures are local. When every slot of the command exists and
has a filename unless its `bail` flag is set, a pass of the disk reader
returns, whichever files can be read. Slots outside the command are unchanged.
A slot of the command ends as follows: with `bail` set, as before with status
inactive; when its file cannot be read, with status error_reading, the
message "can't open", `filedata` null and `len` 0; else with status
reading_done, its bytes and their length. For any other file system, the pass
returns too, and every slot of the command whose `bail` is set or whose own
file reads the same ends exactly the same. -/
theorem diskload_failure_is_local (D : Loader) (s : State)
    (hcmd : ∀ i ∈ s.dc_shared.files, ∃ z, s.cache[i]? = some z ∧
      (z.bail = 0 → z.filename.isSome = true)) :
    ∃ s', diskload_task D s = .ok s' ∧
      (∀ j, j ∉ s.dc_shared.files → s'.cache[j]? = s.cache[j]?) ∧
      (∀ i ∈ s.dc_shared.files, ∀ z, s.cache[i]? = some z →
        ∃ z1, s'.cache[i]? = some z1 ∧
          (z.bail ≠ 0 → z1 = { z with status := LOAD_inactive }) ∧
          (z.bail = 0 → ∃ name, z.filename = some name ∧
            (D.stb_file name = none →
              z1 = { z with error := some "can't open", filedata := none, len := 0,
                            status := LOAD_error_reading }) ∧
            (∀ data, D.stb_file name = some data →
              z1 = { z with error := none, filedata := some data, len := data.length,
                            status := LOAD_reading_done }))) ∧
      (∀ D' : Loader, ∃ t, diskload_task D' s = .ok t ∧
        ∀ i ∈ s.dc_shared.files, ∀ z, s.cache[i]? = some z →
          (z.bail ≠ 0 ∨ ∃ name, z.filename = some name ∧ D'.stb_file name = D.stb_file name) →
          t.cache[i]? = s'.cache[i]?) := by
  obtain ⟨s', hs'⟩ := diskload_task_total D s hcmd
  obtain ⟨_, _, _, _, _, _, hout, hin⟩ := diskload_task_spec D s s' hs'
  refine ⟨s', hs', hout, ?_, ?_⟩
  · intro i hi z hz
    obtain ⟨z1, hz1, hget⟩ := hin i hi z hz
    exact ⟨z1, hget, diskload_slot_cases D z z1 hz1⟩
  · intro D'
    obtain ⟨t, ht⟩ := diskload_task_total D' s hcmd
    obtain ⟨_, _, _, _, _, _, _, hin'⟩ := diskload_task_spec D' s t ht
    refine ⟨t, ht, ?_⟩
    intro i hi z hz hsame
    obtain ⟨z1, hz1, hget⟩ := hin i hi z hz
    obtain ⟨z2, hz2, hget'⟩ := hin' i hi z hz
    rw [hget, hget']
    obtain ⟨a1, a2⟩ := diskload_slot_cases D z z1 hz1
    obtain ⟨b1, b2⟩ := diskload_slot_cases D' z z2 hz2
    by_cases hb : z.bail ≠ 0
    · rw [a1 hb, b1 hb]
    · rcases hsame with hb' | ⟨name, hn, hD⟩
      · exact absurd hb' hb
      · obtain ⟨n1, hn1, c1, c2⟩ := a2 (not_not.1 hb)
        obtain ⟨n2, hn2, d1, d2⟩ := b2 (not_not.1 hb)
        rw [hn] at hn1 hn2
        cases hn1
        cases hn2
        cases hd : D.stb_file name with
        | none => rw [c1 hd, d1 (hD.trans hd)]
        | some data => rw [c2 data hd, d2 data (hD.trans hd)]

/-! ## The decoder -/

theorem make_image_pixel_total (image_n : Int) (i j k : Nat) (d : List Nat)
    (h : k + BPP ≤ d.length) :
    ∃ d1, make_image_pixel image_n i j k d = .ok d1 ∧ d1.length = d.length := by
  have hB : BPP = 4 := rfl
  rw [hB] at h
  unfold make_image_pixel
  rw [List.getElem?_eq_getElem (by omega : k < d.length),
    List.getElem?_eq_getElem (by omega : k + 2 < d.length)]
  simp only
  by_cases hn : image_n = 4
  · rw [if_pos hn]
    rw [List.getElem?_eq_getElem (by simp only [List.length_set]; omega),
      List.getElem?_eq_getElem (by simp only [List.length_set]; omega)]
    exact ⟨_, rfl, by simp only [List.length_set]⟩
  · rw [if_neg hn]
    exact ⟨_, rfl, by simp only [List.length_set]⟩

theorem make_image_cols_total (image_n : Int) (j m i k : Nat) (d : List Nat)
    (h : k + BPP * m ≤ d.length) :
    ∃ d1, make_image_cols image_n j m i k d = .ok (k + BPP * m, d1) ∧
      d1.length = d.length := by
  induction m generalizing i k d with
  | zero => exact ⟨d, rfl, rfl⟩
  | succ m ih =>
    unfold make_image_cols
    obtain ⟨d1, hd1, hl1⟩ := make_image_pixel_total image_n i j k d (by
      rw [Nat.mul_succ] at h; omega)
    rw [hd1]
    simp only
    obtain ⟨d2, hd2, hl2⟩ := ih (i + 1) (k + BPP) d1 (by
      rw [hl1, Nat.mul_succ] at *; omega)
    refine ⟨d2, ?_, by rw [hl2, hl1]⟩
    rw [hd2, Nat.mul_succ]
    congr 2
    omega

theorem make_image_rows_total (image_n : Int) (image_x m j k : Nat) (d : List Nat)
    (h : k + BPP * image_x * m ≤ d.length) :
    ∃ d1, make_image_rows image_n image_x m j k d = .ok d1 ∧ d1.length = d.length := by
  induction m generalizing j k d with
  | zero => exact ⟨d, rfl, rfl⟩
  | succ m ih =>
    unfold make_image_rows
    obtain ⟨d1, hd1, hl1⟩ := make_image_cols_total image_n j image_x 0 k d (by
      rw [Nat.mul_succ] at h; omega)
    rw [hd1]
    simp only
    obtain ⟨d2, hd2, hl2⟩ := ih (j + 1) (k + BPP * image_x) d1 (by
      rw [hl1, Nat.mul_succ] at *; omega)
    exact ⟨d2, hd2, by rw [hl2, hl1]⟩

/-- The function `make_image` returns when the buffer holds `BPP` bytes for
each of the `x * y` pixels; the image has the given dimensions, a stride of
`x * BPP`, frame 0, and a pixel buffer of the same length. -/
theorem make_image_total (image_x image_y : Nat) (image_data : List Nat) (image_n : Int)
    (h : image_x * image_y * BPP ≤ image_data.length) :
    ∃ im, make_image image_x image_y image_data image_n = .ok im ∧
      im.x = image_x ∧ im.y = image_y ∧ im.stride = image_x * BPP ∧ im.frame = 0 ∧
      im.had_alpha = (if image_n = 4 then 1 else 0) ∧
      im.pixels.length = image_data.length := by
  obtain ⟨d1, hd1, hl1⟩ := make_image_rows_total image_n image_x image_y 0 0 image_data (by
    have : BPP * image_x * image_y = image_x * image_y * BPP := by ring
    omega)
  unfold make_image
  rw [hd1]
  exact ⟨_, rfl, rfl, rfl, rfl, rfl, rfl, hl1⟩

/-- C20. The decode step. For a slot that holds raw bytes (as a slot claimed
by the decoder, in status decoding, does), the decode step returns; afterwards
`filedata` of the slot is null whether decoding succeeded or failed, and every
other slot is unchanged. When `stbi_load_from_memory` succeeds on the bytes
of the slot, `make_image` returns on the decoded pixels, and the slot is the
slot before with `filedata` null, that image, and status available. When it
fails, the slot is not available and its image is unchanged. -/
theorem decode_releases_bytes (D : Loader) (cs : List ImageFile) (f : Nat) (z : ImageFile)
    (buf : List Nat) (hz : cs[f]? = some z) (hbuf : z.filedata = some buf) :
    ∃ cs' z1, decode_file D cs f = .ok cs' ∧ cs'[f]? = some z1 ∧ z1.filedata = none ∧
      z1.filename = z.filename ∧ z1.lru = z.lru ∧
      (∀ j, j ≠ f → cs'[j]? = cs[j]?) ∧
      (∀ dec, D.stbi_load_from_memory buf z.len = .ok dec →
        ∃ im, make_image dec.x dec.y dec.data dec.n = .ok im ∧
          z1 = { z with filedata := none, image := some im, status := LOAD_available }) ∧
      (∀ reason, D.stbi_load_from_memory buf z.len = .error reason →
        z1.status ≠ LOAD_available ∧ z1.image = z.image ∧ z1.error = some reason) := by
  have hlt := getElem?_lt_of_some _ _ _ hz
  cases hd : D.stbi_load_from_memory buf z.len with
  | error reason =>
    refine ⟨cs.set f { z with filedata := none, error := some reason,
                              status := LOAD_error_reading },
      { z with filedata := none, error := some reason, status := LOAD_error_reading },
      ?_, List.getElem?_set_self hlt, ?_, ?_, ?_,
      fun j hj => List.getElem?_set_ne (Ne.symm hj), ?_, ?_⟩
    · unfold decode_file
      simp only [hz, hbuf, hd]
    · rfl
    · rfl
    · rfl
    · intro dec hdec
      cases hdec
    · intro r hr
      cases hr
      exact ⟨fun hc => LoadStatus.noConfusion hc, rfl, rfl⟩
  | ok dec =>
    obtain ⟨im, him, _⟩ := make_image_total dec.x dec.y dec.data dec.n (by
      rw [D.stbi_size buf z.len dec hd])
    refine ⟨cs.set f { z with filedata := none, image := some im, status := LOAD_available },
      { z with filedata := none, image := some im, status := LOAD_available },
      ?_, List.getElem?_set_self hlt, ?_, ?_, ?_,
      fun j hj => List.getElem?_set_ne (Ne.symm hj), ?_, ?_⟩
    · unfold decode_file
      simp only [hz, hbuf, hd, him]
    · rfl
    · rfl
    · rfl
    · intro dec' hdec
      cases hdec
      exact ⟨im, him, rfl⟩
    · intro r hr
      cases hr

/-! ## Checking consistency of a concrete state -/

theorem stb_sdict_get_mem (d : List (String × Nat)) (k : String) (i : Nat)
    (h : stb_sdict_get d k = some i) : ∃ e ∈ d, e.1 = k := by
  induction d with
  | nil => cases h
  | cons a rest ih =>
    unfold stb_sdict_get at h
    by_cases ha : a.1 = k
    · exact ⟨a, List.mem_cons_self a rest, ha⟩
    · rw [if_neg ha] at h
      obtain ⟨e, he, hk⟩ := ih h
      exact ⟨e, List.mem_cons_of_mem a he, hk⟩

theorem getD_of_getElem? (cs : List ImageFile) (i : Nat) (z : ImageFile)
    (h : cs[i]? = some z) : i < cs.length ∧ cs.getD i zero_slot = z := by
  refine ⟨getElem?_lt_of_some _ _ _ h, ?_⟩
  rw [List.getD_eq_getElem?_getD, h]
  rfl

/-- Consistency of the lookup from three checks over the slot indices and the
entries of the lookup. -/
theorem names_consistent_of_check (cs : List ImageFile) (d : List (String × Nat))
    (h1 : ∀ i, i < cs.length → ∀ j, j < cs.length →
      ((cs.getD i zero_slot).status ≠ LOAD_unused ∧
        (cs.getD j zero_slot).status ≠ LOAD_unused ∧
        (cs.getD i zero_slot).filename = (cs.getD j zero_slot).filename) → i = j)
    (h2 : ∀ i, i < cs.length → (cs.getD i zero_slot).status ≠ LOAD_unused →
      (cs.getD i zero_slot).filename.bind (stb_sdict_get d) = some i)
    (h3 : ∀ e ∈ d, ∃ i, i < cs.length ∧ stb_sdict_get d e.1 = some i ∧
      (cs.getD i zero_slot).status ≠ LOAD_unused ∧
      (cs.getD i zero_slot).filename = some e.1) :
    names_consistent cs d := by
  refine ⟨?_, ?_, ?_⟩
  · intro i j p q hp hq hpo hqo hpq
    obtain ⟨hi, gi⟩ := getD_of_getElem? cs i p hp
    obtain ⟨hj, gj⟩ := getD_of_getElem? cs j q hq
    exact h1 i hi j hj ⟨by rw [gi]; exact hpo, by rw [gj]; exact hqo, by rw [gi, gj]; exact hpq⟩
  · intro i z hz ho
    obtain ⟨hi, gi⟩ := getD_of_getElem? cs i z hz
    have := h2 i hi (by rw [gi]; exact ho)
    rw [gi] at this
    cases hn : z.filename with
    | none => rw [hn] at this; cases this
    | some k =>
      rw [hn] at this
      exact ⟨k, rfl, this⟩
  · intro k i hk
    obtain ⟨e, he, hek⟩ := stb_sdict_get_mem d k i hk
    obtain ⟨i', hi', hg, ho, hf⟩ := h3 e he
    rw [hek, hk] at hg
    cases hg
    rw [hek] at hf
    refine ⟨cs.getD i zero_slot, ?_, ho, hf⟩
    rw [List.getD_eq_getElem?_getD, List.getElem?_eq_getElem hi']
    rfl

/-! ## The decoder on a failed decode -/

/-- A failed decode ends with the status `LOAD_error_reading`, for every slot
holding raw bytes and every decoder. -/
theorem decode_file_failure (D : Loader) (cs : List ImageFile) (f : Nat) (z : ImageFile)
    (buf : List Nat) (reason : String) (hz : cs[f]? = some z) (hbuf : z.filedata = some buf)
    (hfail : D.stbi_load_from_memory buf z.len = .error reason) :
    decode_file D cs f =
      .ok (cs.set f { z with filedata := none, error := some reason,
                             status := LOAD_error_reading }) := by
  unfold decode_file
  simp only [hz, hbuf, hfail]

theorem except_map_ok {α β : Type} (e : Except Fault α) (f : α → β) (b : β)
    (h : e.map f = .ok b) : ∃ a, e = .ok a ∧ f a = b := by
  cases e with
  | error err => cases h
  | ok a =>
    refine ⟨a, rfl, ?_⟩
    simp only [Except.map] at h
    cases h
    rfl

/-! ## The claims on concrete states: allocation, advance, the workers -/

set_option maxRecDepth 100000 in
theorem pending_pass : diskload_task demo_loader pending_state = .ok pending_done := by
  decide

set_option maxRecDepth 100000 in
/-- C11, witness: in `browse_more` the file `e.png` (index 4, priority 3) has
no slot; slots 0 to 3 are occupied and slot 4 is the first unused one. The
call allocates slot 4. -/
theorem queue_disk_command_allocates_witness :
    (∃ z ∈ browse_more.cache, z.status = LOAD_unused) ∧
    (∃ (i : Nat) (z : ImageFile), browse_more.cache[i]? = some z ∧ z.status = LOAD_unused ∧
      (∀ (j : Nat) (w : ImageFile), j < i → browse_more.cache[j]? = some w →
        w.status ≠ LOAD_unused) ∧
      (∀ r, queue_disk_command demo_platform browse_more { files := [] } 4 false = .ok r →
        r.1.cache = browse_more.cache.set i
          { z with filename := some "e.png", status := LOAD_inactive, image := none,
                   bail := 0, lru := 3 } ∧
        stb_sdict_get r.1.file_cache "e.png" = some i ∧
        (∀ k, k ≠ "e.png" →
          stb_sdict_get r.1.file_cache k = stb_sdict_get browse_more.file_cache k) ∧
        r.2.files = [i] ∧ r.2.num_files = 1) ∧
      ∃ r, queue_disk_command demo_platform browse_more { files := [] } 4 false = .ok r) ∧
    (queue_disk_command demo_platform browse_more { files := [] } 4 false).map
        (fun r => (r.2.files, r.1.cache[4]?, stb_sdict_get r.1.file_cache "e.png")) =
      .ok ([4], some (inactive_slot "e.png" 3 0), some 4) := by
  obtain ⟨i, z, h1, h2, h3, h4, h5⟩ :=
    queue_disk_command_allocates demo_platform browse_more { files := [] } 4 false
      [⟨"a.png", 7⟩, ⟨"b.png", 8⟩, ⟨"c.png", 7⟩, ⟨"d.png", 6⟩, ⟨"e.png", 3⟩] ⟨"e.png", 3⟩
      (by decide) (by decide) (by decide) ⟨zero_slot, by decide, rfl⟩
  exact ⟨⟨zero_slot, by decide, rfl⟩, ⟨i, z, h1, h2, h3, h4, h5 (by decide)⟩, by decide⟩

/-- C12, witness: `spec_five` is consistent; `flush_cache` under the limits of
the spec instance evicts three of its five slots, `advance(1)` then allocates
three slots for `b.png`, `c.png` and `a.png`, and both end consistent. -/
theorem names_stay_consistent_witness :
    names_consistent spec_five.cache spec_five.file_cache ∧
    ∃ s1 s2, flush_cache demo_platform spec_limits spec_five = .ok s1 ∧
      names_consistent s1.cache s1.file_cache ∧
      advance demo_platform spec_limits spec_five 1 = .ok s2 ∧
      names_consistent s2.cache s2.file_cache ∧
      s2.file_cache =
        [("a.png", 2), ("c.png", 1), ("b.png", 0), ("p4.png", 3), ("p5.png", 4)] := by
  have hinv : names_consistent spec_five.cache spec_five.file_cache :=
    names_consistent_of_check _ _ (by decide) (by decide) (by decide)
  have h := names_stay_consistent demo_platform spec_limits spec_five hinv
  obtain ⟨s1, h1⟩ := flush_cache_total demo_platform spec_limits spec_five (by decide)
  obtain ⟨s2, h2, h3⟩ := except_map_ok (advance demo_platform spec_limits spec_five 1)
    (fun s => s.file_cache)
    [("a.png", 2), ("c.png", 1), ("b.png", 0), ("p4.png", 3), ("p5.png", 4)] (by decide)
  exact ⟨hinv, s1, s2, h1, h.2.1 s1 h1, h2, h.2.2 1 s2 h2, h3⟩

set_option maxRecDepth 100000 in
/-- C13, witness: `advance(1)` from `browse_state` (four files, counter 7):
the counter becomes 8, `b.png` at index 1 gets 8 and every other entry stays
below 8. -/
theorem advance_stamps_priorities_witness :
    (∀ f ∈ [(⟨"a.png", 7⟩ : FileInfo), ⟨"b.png", 6⟩, ⟨"c.png", 5⟩, ⟨"d.png", 6⟩],
      f.lru ≤ browse_state.lru_stamp) ∧
    ∃ fis', advance_move demo_platform browse_state 1 =
        .ok { browse_state with cur_loc := 1, fileinfo := some fis', lru_stamp := 8 } ∧
      (∃ s', advance demo_platform imv_limits browse_state 1 = .ok s' ∧
        s'.lru_stamp = 8 ∧ s'.cur_loc = 1 ∧ s'.fileinfo = some fis') ∧
      (∃ f, fis'[1]? = some f ∧ f.lru = 8) ∧
      (∀ (j : Nat) (f' : FileInfo), j ≠ 1 → fis'[j]? = some f' → f'.lru < 8) := by
  obtain ⟨fis', _, _, _, hm, hadv, hc, _, hlt⟩ :=
    advance_stamps_priorities demo_platform imv_limits browse_state 1
      [⟨"a.png", 7⟩, ⟨"b.png", 6⟩, ⟨"c.png", 5⟩, ⟨"d.png", 6⟩] 1 0 2
      (by decide) (by decide) (by decide) (by decide) (by decide) (by decide) (by decide)
      (by decide)
  obtain ⟨s', hs', _⟩ := except_map_ok (advance demo_platform imv_limits browse_state 1)
    (fun s => s.cur_loc) 1 (by decide)
  exact ⟨by decide, fis', hm, ⟨s', hs', hadv s' hs'⟩, hc, hlt⟩

set_option maxRecDepth 100000 in
/-- C14, witness: the instance of the spec. With the directory `a.png`,
`b.png`, `c.png`, index 0 and nothing cached, `advance(1)` submits the slots
0, 1, 2 holding `b.png` (priority 2), `c.png` (priority 1) and `a.png`
(priority 1), the counter having been 1. -/
theorem advance_submits_three_witness :
    (∃ s' i1 i2 i3 z1 z2 z3, advance demo_platform imv_limits spec_abc 1 = .ok s' ∧
      s'.dc_shared.files = [i1, i2, i3] ∧ s'.dc_shared.num_files = 3 ∧
      i1 ≠ i2 ∧ i1 ≠ i3 ∧ i2 ≠ i3 ∧
      spec_abc.cache[i1]? = some z1 ∧ z1.status = LOAD_unused ∧
      spec_abc.cache[i2]? = some z2 ∧ z2.status = LOAD_unused ∧
      spec_abc.cache[i3]? = some z3 ∧ z3.status = LOAD_unused ∧
      s'.cache[i1]? = some { z1 with filename := some "b.png", status := LOAD_inactive,
                                     image := none, bail := 0, lru := 2 } ∧
      s'.cache[i2]? = some { z2 with filename := some "c.png", status := LOAD_inactive,
                                     image := none, bail := 0, lru := 1 } ∧
      s'.cache[i3]? = some { z3 with filename := some "a.png", status := LOAD_inactive,
                                     image := none, bail := 0, lru := 1 } ∧
      s'.cur_loc = 1 ∧ s'.lru_stamp = 2 ∧ s'.filename = some "b.png") ∧
    (advance demo_platform imv_limits spec_abc 1).map
        (fun s => (s.dc_shared.files, s.cache[0]?, s.cache[1]?, s.cache[2]?)) =
      .ok ([0, 1, 2], some (inactive_slot "b.png" 2 0), some (inactive_slot "c.png" 1 0),
        some (inactive_slot "a.png" 1 0)) :=
  ⟨advance_submits_three demo_platform imv_limits spec_abc 1
      [⟨"a.png", 0⟩, ⟨"b.png", 0⟩, ⟨"c.png", 0⟩] 1 2 0 ⟨"b.png", 0⟩ ⟨"c.png", 0⟩ ⟨"a.png", 0⟩
      (by decide) (by decide) (by decide) (by decide) (by decide) (by decide) (by decide)
      (by decide) (by decide) (by decide) (by decide) (by decide) (by decide) (by decide)
      (by decide) (by decide) (by decide) (by decide),
   by decide⟩

set_option maxRecDepth 100000 in
/-- C15, witness: `advance(0)` from `reopen_state` submits slot 1 (`b.png`,
priority 8, `bail` clear) and sets `bail` on slot 2 (`c.png`, priority 6,
below the counter 8 minus one). -/
theorem advance_sets_cancel_flags_witness :
    ∃ s', advance demo_platform imv_limits reopen_state 0 = .ok s' ∧
      (∀ z ∈ s'.cache, z.lru < s'.lru_stamp - 1 → z.bail = 1) ∧
      (∃ r, advance_command demo_platform imv_limits reopen_state 0 = .ok r ∧
        (r.2.num_files ≠ 0 → s'.dc_shared = r.2) ∧
        ∀ i ∈ r.2.files, ∃ z, s'.cache[i]? = some z ∧ z.bail = 0 ∧
          s'.lru_stamp - 1 ≤ z.lru) ∧
      (s'.dc_shared.files, s'.lru_stamp, s'.cache[1]?.map (fun z => (z.lru, z.bail)),
        s'.cache[2]?.map (fun z => (z.lru, z.bail))) =
        ([1], 8, some (8, 0), some (6, 1)) := by
  obtain ⟨s', hs', hv⟩ := except_map_ok (advance demo_platform imv_limits reopen_state 0)
    (fun s => (s.dc_shared.files, s.lru_stamp, s.cache[1]?.map (fun z => (z.lru, z.bail)),
      s.cache[2]?.map (fun z => (z.lru, z.bail))))
    ([1], 8, some (8, 0), some (6, 1)) (by decide)
  have h := advance_sets_cancel_flags demo_platform imv_limits reopen_state s' 0
    (by decide) hs'
  exact ⟨s', hs', h.1, h.2, hv⟩

/-- C16, witness: slot 0 of `claimed_cache` is claimed and has `bail` set; the
file loop sets it to inactive, whatever the file system holds. -/
theorem diskload_bail_reverts_witness :
    diskload_file demo_loader claimed_cache 0 =
      .ok [{ reading_slot "c.png" 2 with bail := 1, status := LOAD_inactive },
        reading_slot "a.png" 8] ∧
    ∀ D' : Loader, diskload_file D' claimed_cache 0 = diskload_file demo_loader claimed_cache 0 :=
  have h := diskload_bail_reverts demo_loader claimed_cache 0
    { reading_slot "c.png" 2 with bail := 1 } rfl rfl (by decide)
  ⟨h.1, h.2.1⟩

set_option maxRecDepth 100000 in
/-- C17, witness: the pass on `pending_state` consumes its command of three
slots; a second pass on the result changes nothing. -/
theorem diskload_consumes_once_witness :
    diskload_task demo_loader pending_state = .ok pending_done ∧
    pending_state.dc_shared.num_files = 3 ∧ pending_done.dc_shared.num_files = 0 ∧
    diskload_task demo_loader pending_done = .ok pending_done :=
  have h := diskload_consumes_once demo_loader pending_state pending_done pending_pass
  ⟨pending_pass, by decide, h.2.1, h.2.2.2⟩

set_option maxRecDepth 100000 in
/-- C18, witness: in the command of `pending_state` the file `missing.png`
cannot be read. The pass returns; slot 1 ends in error_reading, slot 0 holds
the bytes of `a.png`, and slot 0 ends the same under every file system in
which `a.png` reads the same. -/
theorem diskload_failure_is_local_witness :
    diskload_task demo_loader pending_state = .ok pending_done ∧
    pending_done.cache[0]? = some (reading_done_slot "a.png" 8) ∧
    pending_done.cache[1]? =
      some { inactive_slot "missing.png" 7 0 with error := some "can't open",
                                                   status := LOAD_error_reading } ∧
    ∀ D' : Loader, D'.stb_file "a.png" = some [1, 2, 3] →
      ∃ t, diskload_task D' pending_state = .ok t ∧ t.cache[0]? = pending_done.cache[0]? := by
  obtain ⟨s', hs', _, _, hloc⟩ := diskload_failure_is_local demo_loader pending_state (by
    intro i hi
    have hi' : i = 0 ∨ i = 1 ∨ i = 2 := by simpa [pending_state] using hi
    rcases hi' with rfl | rfl | rfl
    · exact ⟨inactive_slot "a.png" 8 0, rfl, fun _ => rfl⟩
    · exact ⟨inactive_slot "missing.png" 7 0, rfl, fun _ => rfl⟩
    · exact ⟨inactive_slot "c.png" 2 1, rfl, fun _ => rfl⟩)
  rw [pending_pass] at hs'
  cases hs'
  refine ⟨pending_pass, by decide, by decide, ?_⟩
  intro D' hD'
  obtain ⟨t, ht, hsame⟩ := hloc D'
  exact ⟨t, ht, hsame 0 (by decide) (inactive_slot "a.png" 8 0) rfl
    (Or.inr ⟨"a.png", rfl, hD'.trans (by decide)⟩)⟩

/-- C19. Evaluation. Slot 1 of `decoding_cache` is claimed by the decoder and
holds bytes that `stbi_load_from_memory` rejects: the decode step publishes
the message and drops the bytes, and sets the status `LOAD_error_reading`,
which is not `LOAD_error_decoding`. -/
theorem decode_failure_sets_error_reading :
    decoding_cache[1]? = some (decoding_slot "bad.png" [7, 7] 7) ∧
    demo_loader.stbi_load_from_memory [7, 7] 2 = .error "unknown image type" ∧
    decode_file demo_loader decoding_cache 1 =
      .ok (decoding_cache.set 1
        { decoding_slot "bad.png" [7, 7] 7 with
          filedata := none, error := some "unknown image type",
          status := LOAD_error_reading }) ∧
    LOAD_error_reading ≠ LOAD_error_decoding := by
  decide

/-- C20, witness: slot 0 of `decoding_cache` holds the bytes `[1, 2, 3]`,
which decode to one half-transparent pixel `(10, 20, 30, 127)`; the step
leaves the slot available without raw bytes, with the image that `make_image`
builds: bytes swapped to BGR order and blended with the background. -/
theorem decode_releases_bytes_witness :
    (∃ cs' z1, decode_file demo_loader decoding_cache 0 = .ok cs' ∧ cs'[0]? = some z1 ∧
      z1.filedata = none) ∧
    make_image 1 1 [10, 20, 30, 127] 4 =
      .ok { x := 1, y := 1, stride := 4, frame := 0, pixels := [90, 25, 80, 127],
            had_alpha := 1 } ∧
    decode_file demo_loader decoding_cache 0 =
      .ok (decoding_cache.set 0
        { decoding_slot "a.png" [1, 2, 3] 8 with
          filedata := none,
          image := some { x := 1, y := 1, stride := 4, frame := 0,
                          pixels := [90, 25, 80, 127], had_alpha := 1 },
          status := LOAD_available }) := by
  obtain ⟨cs', z1, h1, h2, h3, _⟩ := decode_releases_bytes demo_loader decoding_cache 0
    (decoding_slot "a.png" [1, 2, 3] 8) [1, 2, 3] rfl rfl
  exact ⟨⟨cs', z1, h1, h2, h3⟩, by decide, by decide⟩

/-! ## wrap and the indices used by advance -/

/-- C27. `wrap` returns the index. For a file list of `n > 0` entries and
`z >= -n`, `wrap(z)` returns (its loop terminates) the value `z mod n`, which
lies in `[0, n)`, is congruent to `z` modulo `n`, and is the only such value.
Consequently, with `cur_loc` in `[0, n)` and `dir` in {-1, 0, 1}, the first
part of `advance(dir)` returns with `cur_loc` in `[0, n)`, the four neighbour
indices `wrap(cur_loc - 1)`, `wrap(cur_loc + 1)`, `wrap(cur_loc + dir)` and
`wrap(cur_loc - dir)` are returned and lie in `[0, n)`, and a returning
`advance(dir)` ends with that `cur_loc`. -/
theorem wrap_returns_index (fis : List FileInfo) (z : Int) (hn : 0 < fis.length)
    (hz : -(fis.length : Int) ≤ z) :
    ∃ r, wrap (some fis) z = .ok r ∧ r = z % (fis.length : Int) ∧ 0 ≤ r ∧ r < fis.length ∧
      (fis.length : Int) ∣ (z - r) ∧
      (∀ r', 0 ≤ r' → r' < (fis.length : Int) → (fis.length : Int) ∣ (z - r') → r' = r) ∧
      (∀ (P : Platform) (L : Limits) (s : State) (dir : Int), s.fileinfo = some fis →
        0 ≤ s.cur_loc → s.cur_loc < fis.length → (dir = -1 ∨ dir = 0 ∨ dir = 1) →
        ∃ s0, advance_move P s dir = .ok s0 ∧ 0 ≤ s0.cur_loc ∧ s0.cur_loc < fis.length ∧
          (∀ w, w = s0.cur_loc - 1 ∨ w = s0.cur_loc + 1 ∨ w = s0.cur_loc + dir ∨
              w = s0.cur_loc - dir →
            ∃ i, wrap s0.fileinfo w = .ok i ∧ 0 ≤ i ∧ i < fis.length) ∧
          (∀ s', advance P L s dir = .ok s' → s'.cur_loc = s0.cur_loc)) := by
  have hnz : (0 : Int) < (fis.length : Int) := by exact_mod_cast hn
  have hne : (fis.length : Int) ≠ 0 := ne_of_gt hnz
  refine ⟨z % (fis.length : Int), wrap_spec fis hn z hz, rfl, Int.emod_nonneg _ hne,
    Int.emod_lt_of_pos _ hnz, ?_, ?_, ?_⟩
  · exact Int.dvd_sub_of_emod_eq rfl
  · intro r' h0 h1 hdvd
    have h2 : z % (fis.length : Int) = r' % (fis.length : Int) :=
      (Int.emod_eq_emod_iff_emod_sub_eq_zero).2 (Int.emod_eq_zero_of_dvd hdvd)
    rw [h2, Int.emod_eq_of_lt h0 h1]
  · intro P L s dir hfis hc0 hc1 hdir
    have hzd : -(fis.length : Int) ≤ s.cur_loc + dir := by
      rcases hdir with h | h | h <;> rw [h] <;> omega
    obtain ⟨fis', hlen, hmove, _⟩ := advance_move_full P s dir fis hfis hn hzd
    have hlen' : (fis'.length : Int) = (fis.length : Int) := by rw [hlen]
    obtain ⟨s0, hs0, q2, q3⟩ : ∃ s0 : State, advance_move P s dir = .ok s0 ∧
        s0.fileinfo = some fis' ∧ s0.cur_loc = (s.cur_loc + dir) % (fis.length : Int) :=
      ⟨_, hmove, rfl, rfl⟩
    have c0 : 0 ≤ s0.cur_loc := by rw [q3]; exact Int.emod_nonneg _ hne
    have c1 : s0.cur_loc < fis.length := by rw [q3]; exact Int.emod_lt_of_pos _ hnz
    refine ⟨s0, hs0, c0, c1, ?_, ?_⟩
    · intro w hw
      have hwz : -(fis'.length : Int) ≤ w := by
        rw [hlen']
        rcases hdir with h | h | h <;> rcases hw with h' | h' | h' | h' <;> omega
      rw [q2]
      refine ⟨w % (fis'.length : Int), wrap_spec fis' (by omega) w hwz, ?_, ?_⟩
      · exact Int.emod_nonneg _ (by omega)
      · rw [hlen']
        exact Int.emod_lt_of_pos _ hnz
    · intro s' hs'
      obtain ⟨s1, h0, _, e2, _⟩ := advance_other P L s s' dir hs'
      rw [hs0] at h0
      cases h0
      exact e2

/-! ## decoder_choose: the retry keeps the discarded candidate -/

theorem evict_first_spins (fuel k : Nat) (hk : 1 ≤ k) :
    decoder_choose_from evict_first fuel k (evict_first 0 two_ready) (some 0, 9) =
      .error Fault.diverges := by
  induction fuel generalizing k with
  | zero => rfl
  | succ m ih =>
    unfold decoder_choose_from
    have hscan : decoder_scan (evict_first 0 two_ready) 0 (some 0, 9) = (some 0, 9) := by
      decide
    have henv : evict_first k (evict_first 0 two_ready) = evict_first 0 two_ready := by
      unfold evict_first
      rw [if_neg (by omega)]
    simp only [hscan, henv]
    have hslot : (evict_first 0 two_ready)[0]? = some (evicted (reading_done_slot "a.png" 9)) := by
      decide
    simp only [hslot]
    rw [if_neg (by decide)]
    exact ih (k + 1) (by omega)

/-- C25. Evaluation. The scan finds slot 0 (`a.png`, priority 9); the main
thread evicts it before the locked re-check, so the candidate fails the
re-check and selection restarts. Slot 1 (`b.png`, priority 5) is reading_done
at the time of every new scan, and a selection on that table alone claims it;
but the restarted selection keeps the discarded candidate and its priority 9,
never takes slot 1, and never returns, however many restarts are allowed. -/
theorem decoder_choose_retry_spins :
    decoder_scan two_ready 0 (none, 0) = (some 0, 9) ∧
    (evict_first 0 two_ready)[1]? = some (reading_done_slot "b.png" 5) ∧
    decoder_choose quiet 1 (evict_first 0 two_ready) =
      .ok (some 1, (evict_first 0 two_ready).set 1
        { reading_done_slot "b.png" 5 with status := LOAD_decoding }) ∧
    ∀ fuel, decoder_choose evict_first fuel two_ready = .error Fault.diverges := by
  refine ⟨by decide, by decide, by decide, ?_⟩
  intro fuel
  cases fuel with
  | zero => rfl
  | succ m =>
    unfold decoder_choose decoder_choose_from
    have hscan : decoder_scan two_ready 0 (none, 0) = (some 0, 9) := by decide
    simp only [hscan]
    have hslot : (evict_first 0 two_ready)[0]? = some (evicted (reading_done_slot "a.png" 9)) := by
      decide
    simp only [hslot]
    rw [if_neg (by decide)]
    exact evict_first_spins m 1 (le_refl 1)

/-! ## Evaluations: the command of advance and eviction by flush_cache -/

set_option maxRecDepth 100000 in
/-- C28. Evaluation. In `two_files_state` the directory holds two files and
slot 1 (`b.png`) is inactive. `advance(1)` moves to `a.png`, whose two
neighbours are both `b.png`: each of the two neighbour calls of
`queue_disk_command` finds slot 1 inactive and appends it, so the submitted
command is `[1, 1]`. -/
theorem advance_submits_slot_twice :
    two_files_state.fileinfo = some [⟨"a.png", 1⟩, ⟨"b.png", 2⟩] ∧
    two_files_state.cache[1]? = some (inactive_slot "b.png" 2 0) ∧
    (advance demo_platform imv_limits two_files_state 1).map
        (fun s => (s.cur_loc, s.dc_shared.files, s.dc_shared.num_files)) =
      .ok (0, [1, 1], 2) ∧
    ¬ List.Nodup [1, 1] := by
  decide

set_option maxRecDepth 100000 in
/-- C29. Evaluation. In `queued_state` the unconsumed command is `[1]` and
slot 1 is inactive without raw bytes. The byte budget is exceeded and slot 1
has the lowest priority of the slots the main thread owns, so `flush_cache`
evicts it: the command still refers to slot 1, which is now unused. The same
holds after `advance(0)`, which queues nothing and leaves the command in
place. The disk reader then claims the unused slot and, finding `bail` set,
leaves it inactive without a filename. -/
theorem flush_cache_evicts_queued_slot :
    queued_state.dc_shared.files = [1] ∧
    queued_state.cache[1]? = some (inactive_slot "x.png" 5 0) ∧
    (flush_cache demo_platform imv_limits queued_state).map
        (fun s => (s.dc_shared.files, s.cache[1]?)) =
      .ok ([1], some (evicted (inactive_slot "x.png" 5 0))) ∧
    (evicted (inactive_slot "x.png" 5 0)).status = LOAD_unused ∧
    (advance demo_platform imv_limits queued_state 0).map
        (fun s => (s.dc_shared.files, s.cache[1]?)) =
      .ok ([1], some (evicted (inactive_slot "x.png" 5 0))) ∧
    ((flush_cache demo_platform imv_limits queued_state).bind
        (diskload_task demo_loader)).map (fun s => s.cache[1]?) =
      .ok (some { evicted (inactive_slot "x.png" 5 0) with status := LOAD_inactive }) := by
  decide

set_option maxRecDepth 100000 in
/-- C30. Evaluation. In `lagging_state` the display source is slot 0
(`b.png`, available, `source` equal to its image). The byte budget is
exceeded, four slots are occupied, and slot 0 has the lowest priority, so
`flush_cache` evicts it: afterwards slot 0 is unused and has no image, while
`source_c` still refers to slot 0 and `source` still holds the image that was
freed. -/
theorem flush_cache_evicts_display_source :
    lagging_state.source_c = some 0 ∧
    lagging_state.cache[0]? = some (available_slot "b.png" 5) ∧
    lagging_state.source = (available_slot "b.png" 5).image ∧
    (flush_cache demo_platform imv_limits lagging_state).map
        (fun s => (s.source_c, s.source, s.cache[0]?)) =
      .ok (some 0, some pixel_image, some (evicted (available_slot "b.png" 5))) ∧
    (evicted (available_slot "b.png" 5)).status = LOAD_unused ∧
    (evicted (available_slot "b.png" 5)).image = none := by
  decide

/-! ## The error notification -/

theorem error_scan_none (l : List ImageFile) (i : Nat) (acc : Option Nat × Int)
    (h : ∀ z ∈ l, MAIN_OWNS z = true → z.status.code ≥ LOAD_error_reading.code →
      z.lru ≤ acc.2) :
    error_scan l i acc = acc := by
  induction l generalizing i with
  | nil => rfl
  | cons z rest ih =>
    have hz := h z (List.mem_cons_self _ _)
    unfold error_scan
    rw [if_neg (by intro hc; have := hz hc.2.1 hc.2.2; omega)]
    exact ih (i + 1) (fun w hw => h w (List.mem_cons_of_mem _ hw))

theorem error_scan_some (l : List ImageFile) (i : Nat) (acc : Option Nat × Int)
    (h : ∃ z ∈ l, MAIN_OWNS z = true ∧ z.status.code ≥ LOAD_error_reading.code ∧
      acc.2 < z.lru) :
    ∃ j z, l[j]? = some z ∧ MAIN_OWNS z = true ∧ z.status.code ≥ LOAD_error_reading.code ∧
      acc.2 < z.lru ∧
      (∀ w ∈ l, MAIN_OWNS w = true → w.status.code ≥ LOAD_error_reading.code →
        w.lru ≤ z.lru) ∧
      error_scan l i acc = (some (i + j), z.lru) := by
  induction l generalizing i acc with
  | nil => obtain ⟨z, hz, _⟩ := h; cases hz
  | cons a rest ih =>
    unfold error_scan
    by_cases ha : a.lru > acc.2 ∧ MAIN_OWNS a = true ∧
        a.status.code ≥ LOAD_error_reading.code
    · rw [if_pos ha]
      by_cases hr : ∃ z ∈ rest, MAIN_OWNS z = true ∧
          z.status.code ≥ LOAD_error_reading.code ∧ a.lru < z.lru
      · obtain ⟨j, z, hj, hm, hs, hlt, hmax, hres⟩ := ih (i + 1) (some i, a.lru) hr
        refine ⟨j + 1, z, by simpa using hj, hm, hs, ?_, ?_, ?_⟩
        · have := ha.1; simp only at hlt; omega
        · intro w hw hwm hws
          rcases List.mem_cons.1 hw with rfl | hw
          · simp only at hlt; omega
          · exact hmax w hw hwm hws
        · rw [hres]; congr 2; omega
      · have hle : ∀ w ∈ rest, MAIN_OWNS w = true →
            w.status.code ≥ LOAD_error_reading.code → w.lru ≤ a.lru := by
          intro w hw hwm hws
          by_contra hc
          exact hr ⟨w, hw, hwm, hws, by omega⟩
        refine ⟨0, a, by simp, ha.2.1, ha.2.2, ha.1, ?_, ?_⟩
        · intro w hw hwm hws
          rcases List.mem_cons.1 hw with rfl | hw
          · exact le_refl _
          · exact hle w hw hwm hws
        · rw [error_scan_none rest (i + 1) (some i, a.lru) hle]; simp
    · rw [if_neg ha]
      have hr : ∃ z ∈ rest, MAIN_OWNS z = true ∧
          z.status.code ≥ LOAD_error_reading.code ∧ acc.2 < z.lru := by
        obtain ⟨z, hz, hm, hs, hlt⟩ := h
        rcases List.mem_cons.1 hz with rfl | hz
        · exact absurd ⟨hlt, hm, hs⟩ ha
        · exact ⟨z, hz, hm, hs, hlt⟩
      obtain ⟨j, z, hj, hm, hs, hlt, hmax, hres⟩ := ih (i + 1) acc hr
      refine ⟨j + 1, z, by simpa using hj, hm, hs, hlt, ?_, ?_⟩
      · intro w hw hwm hws
        rcases List.mem_cons.1 hw with rfl | hw
        · by_cases hwl : w.lru > acc.2
          · exact absurd ⟨hwl, hwm, hws⟩ ha
          · omega
        · exact hmax w hw hwm hws
      · rw [hres]; congr 2; omega

/-- The statuses the error scan accepts: owned by the main thread and at
least `LOAD_error_reading`. -/
theorem finished_iff (z : ImageFile) :
    (MAIN_OWNS z = true ∧ z.status.code ≥ LOAD_error_reading.code) ↔
      (z.status = LOAD_error_reading ∨ z.status = LOAD_error_decoding ∨
        z.status = LOAD_available) := by
  unfold MAIN_OWNS
  cases hs : z.status <;> simp [LoadStatus.code]

theorem set_error_total (s : State) (b : Nat) (z : ImageFile) (hz : s.cache[b]? = some z)
    (hf : z.filename.isSome = true) (he : z.error.isSome = true) :
    ∃ s', set_error s b = .ok s' := by
  unfold set_error
  rw [hz]
  cases hn : z.filename with
  | none => rw [hn] at hf; cases hf
  | some fn =>
    cases hm : z.error with
    | none => rw [hm] at he; cases he
    | some err =>
      simp only [hn, hm]
      exact ⟨_, rfl⟩

/-- When no finished slot (status error_reading, error_decoding or available)
has a priority above 0 the scan of the error notification leaves `best` null,
and the read of `best->status` is a fault of the model. -/
theorem on_error_no_candidate (s : State)
    (h : ∀ z ∈ s.cache, (z.status = LOAD_error_reading ∨ z.status = LOAD_error_decoding ∨
          z.status = LOAD_available) → z.lru ≤ 0) :
    on_error s = .error Fault.undefined_behaviour := by
  have hres := error_scan_none s.cache 0 (none, 0) (by
    intro z hz hm hs
    exact h z hz ((finished_iff z).1 ⟨hm, hs⟩))
  unfold on_error
  simp only [hres]

/-- C21 (amended). The error notification. Call a slot finished when its
status is error_reading, error_decoding or available. When some finished slot
has a priority above 0, the handler picks a finished slot `b` whose priority
is the highest among the finished slots; slots that are not finished are not
considered, whatever their priority. If `b` is available the state is
unchanged (the image shown and the error text in particular); if `b` holds an
error the result is that of `set_error(b)`, and the handler returns, with `b`
the display source and no image shown, when `b` has a filename and an error
message. -/
theorem on_error_surfaces_best_finished (s : State)
    (h : ∃ z ∈ s.cache, (z.status = LOAD_error_reading ∨ z.status = LOAD_error_decoding ∨
          z.status = LOAD_available) ∧ 0 < z.lru) :
    ∃ b z, s.cache[b]? = some z ∧
      (z.status = LOAD_error_reading ∨ z.status = LOAD_error_decoding ∨
        z.status = LOAD_available) ∧ 0 < z.lru ∧
      (∀ w ∈ s.cache, (w.status = LOAD_error_reading ∨ w.status = LOAD_error_decoding ∨
        w.status = LOAD_available) → w.lru ≤ z.lru) ∧
      (z.status = LOAD_available → on_error s = .ok s) ∧
      (z.status ≠ LOAD_available → on_error s = set_error s b ∧
        (z.filename.isSome = true → z.error.isSome = true →
          ∃ s', on_error s = .ok s' ∧ s'.source_c = some b ∧ s'.source = none ∧
            s'.display.cur = none ∧ s'.cache = s.cache)) := by
  obtain ⟨j, z, hj, hm, hs, hlt, hmax, hres⟩ := error_scan_some s.cache 0 (none, 0) (by
    obtain ⟨z, hz, hst, hl⟩ := h
    exact ⟨z, hz, ((finished_iff z).2 hst).1, ((finished_iff z).2 hst).2, hl⟩)
  rw [zero_add] at hres
  have hfin := (finished_iff z).1 ⟨hm, hs⟩
  refine ⟨j, z, hj, hfin, hlt, ?_, ?_, ?_⟩
  · intro w hw hst
    exact hmax w hw ((finished_iff w).2 hst).1 ((finished_iff w).2 hst).2
  · intro hav
    unfold on_error
    simp only [hres, hj]
    rw [if_neg (by rw [hav]; decide)]
  · intro hnav
    have herr : z.status = LOAD_error_reading ∨ z.status = LOAD_error_decoding := by
      rcases hfin with h1 | h1 | h1
      · exact Or.inl h1
      · exact Or.inr h1
      · exact absurd h1 hnav
    have heq : on_error s = set_error s j := by
      unfold on_error
      simp only [hres, hj]
      rw [if_pos herr]
    refine ⟨heq, ?_⟩
    intro hf he
    obtain ⟨s', hs'⟩ := set_error_total s j z hj hf he
    refine ⟨s', heq.trans hs', ?_⟩
    unfold set_error at hs'
    rw [hj] at hs'
    cases hn : z.filename with
    | none => rw [hn] at hf; cases hf
    | some fn =>
      cases hmsg : z.error with
      | none => rw [hmsg] at he; cases he
      | some err =>
        simp only [hn, hmsg] at hs'
        cases hs'
        exact ⟨rfl, rfl, rfl, rfl⟩

/-! ## The decoded notification -/

/-- The scan of the decoded notification returns when every slot the lookup
maps to exists. -/
theorem decoded_scan_total (cs : List ImageFile) (d : List (String × Nat))
    (hlook : ∀ k i, stb_sdict_get d k = some i → i < cs.length)
    (l : List FileInfo) (acc : Option Nat × Int) : ∃ r, decoded_scan cs d l acc = .ok r := by
  induction l generalizing acc with
  | nil => exact ⟨acc, rfl⟩
  | cons f rest ih =>
    unfold decoded_scan
    split
    · split
      · exact ih acc
      · rename_i zi hzi
        rw [List.getElem?_eq_getElem (hlook _ _ hzi)]
        simp only
        split
        · exact ih _
        · exact ih acc
    · exact ih acc

/-- What the scan of the decoded notification returns: the priority it
carries never goes down; without a file of higher priority that has an
available slot the locals are unchanged; otherwise `best` is the available
slot of such a file of highest priority, and the priority carried is the
priority of that file. -/
theorem decoded_scan_spec (cs : List ImageFile) (d : List (String × Nat))
    (l : List FileInfo) (acc r : Option Nat × Int) (h : decoded_scan cs d l acc = .ok r) :
    acc.2 ≤ r.2 ∧
    ((∀ f ∈ l, acc.2 < f.lru → ∀ b z, stb_sdict_get d f.filename = some b →
        cs[b]? = some z → z.status ≠ LOAD_available) → r = acc) ∧
    ((∃ f ∈ l, acc.2 < f.lru ∧ ∃ b z, stb_sdict_get d f.filename = some b ∧
        cs[b]? = some z ∧ z.status = LOAD_available) →
      ∃ f ∈ l, acc.2 < f.lru ∧ ∃ b z, stb_sdict_get d f.filename = some b ∧
        cs[b]? = some z ∧ z.status = LOAD_available ∧ r = (some b, f.lru) ∧
        ∀ g ∈ l, (∃ b' z', stb_sdict_get d g.filename = some b' ∧ cs[b']? = some z' ∧
          z'.status = LOAD_available) → g.lru ≤ f.lru) := by
  induction l generalizing acc with
  | nil =>
    cases h
    refine ⟨le_refl _, fun _ => rfl, ?_⟩
    rintro ⟨f, hf, _⟩
    cases hf
  | cons a rest ih =>
    unfold decoded_scan at h
    -- does the head replace the locals?
    by_cases hcand : acc.2 < a.lru ∧ ∃ b z, stb_sdict_get d a.filename = some b ∧
        cs[b]? = some z ∧ z.status = LOAD_available
    · obtain ⟨hlt, b, z, hb, hz, hav⟩ := hcand
      rw [if_pos hlt] at h
      simp only [hb, hz, hav, if_true] at h
      obtain ⟨hle, hnone, hsome⟩ := ih (some b, a.lru) h
      simp only at hle hnone hsome
      refine ⟨by omega, ?_, ?_⟩
      · intro hno
        exact absurd hav (hno a (List.mem_cons_self _ _) hlt b z hb hz)
      · intro _
        by_cases hr : ∃ f ∈ rest, a.lru < f.lru ∧ ∃ b z, stb_sdict_get d f.filename = some b ∧
            cs[b]? = some z ∧ z.status = LOAD_available
        · obtain ⟨f, hf, hfl, b', z', hb', hz', hav', hr', hmax⟩ := hsome hr
          refine ⟨f, List.mem_cons_of_mem _ hf, by omega, b', z', hb', hz', hav', hr', ?_⟩
          intro g hg hgc
          rcases List.mem_cons.1 hg with rfl | hg
          · omega
          · exact hmax g hg hgc
        · have hacc := hnone (by
            intro f hf hfl b' z' hb' hz' hav'
            exact hr ⟨f, hf, hfl, b', z', hb', hz', hav'⟩)
          refine ⟨a, List.mem_cons_self _ _, hlt, b, z, hb, hz, hav, hacc, ?_⟩
          intro g hg hgc
          rcases List.mem_cons.1 hg with rfl | hg
          · exact le_refl _
          · by_contra hc
            obtain ⟨b', z', hb', hz', hav'⟩ := hgc
            exact hr ⟨g, hg, by omega, b', z', hb', hz', hav'⟩
    · have hskip : decoded_scan cs d rest acc = .ok r := by
        by_cases hlt : a.lru > acc.2
        · rw [if_pos hlt] at h
          split at h
          · exact h
          · rename_i zi hzi
            split at h
            · cases h
            · rename_i z hz
              split at h
              · rename_i hav
                exact absurd ⟨hlt, zi, z, hzi, hz, hav⟩ hcand
              · exact h
        · rw [if_neg hlt] at h
          exact h
      obtain ⟨hle, hnone, hsome⟩ := ih acc hskip
      refine ⟨hle, ?_, ?_⟩
      · intro hno
        exact hnone (fun f hf => hno f (List.mem_cons_of_mem _ hf))
      · rintro ⟨f, hf, hfl, b, z, hb, hz, hav⟩
        have hfr : f ∈ rest := by
          rcases List.mem_cons.1 hf with rfl | hf
          · exact absurd ⟨hfl, b, z, hb, hz, hav⟩ hcand
          · exact hf
        obtain ⟨f', hf', hfl', b', z', hb', hz', hav', hr', hmax⟩ :=
          hsome ⟨f, hfr, hfl, b, z, hb, hz, hav⟩
        refine ⟨f', List.mem_cons_of_mem _ hf', hfl', b', z', hb', hz', hav', hr', ?_⟩
        intro g hg hgc
        rcases List.mem_cons.1 hg with rfl | hg
        · by_contra hc
          exact hcand ⟨by omega, hgc⟩
        · exact hmax g hg hgc

theorem update_source_source (P : Platform) (s s2 : State) (q : Nat)
    (h : update_source P s q = .ok s2) :
    ∃ z, s.cache[q]? = some z ∧ s2.source = z.image ∧ s2.source_c = some q ∧
      s2.best_lru = (if z.lru > s.best_lru then z.lru else s.best_lru) := by
  unfold update_source at h
  cases hz : s.cache[q]? with
  | none => simp [hz] at h
  | some z =>
    simp only [hz] at h
    cases hi : z.image with
    | none =>
      simp only [hi, Except.ok.injEq] at h
      subst h
      exact ⟨z, rfl, hi.symm, rfl, rfl⟩
    | some im =>
      simp only [hi, Except.ok.injEq] at h
      subst h
      exact ⟨z, rfl, hi.symm, rfl, rfl⟩

theorem update_source_total (P : Platform) (s : State) (q : Nat) (z : ImageFile)
    (hz : s.cache[q]? = some z) : ∃ s2, update_source P s q = .ok s2 := by
  unfold update_source
  rw [hz]
  simp only
  cases hi : z.image with
  | none => exact ⟨_, rfl⟩
  | some im => exact ⟨_, rfl⟩

/-- A returning `flush_cache` leaves the display source, the priority of the
best image shown and the display globals as they were. -/
theorem flush_cache_display (P : Platform) (L : Limits) (s s' : State)
    (h : flush_cache P L s = .ok s') :
    s'.source_c = s.source_c ∧ s'.source = s.source ∧ s'.best_lru = s.best_lru ∧
      s'.display = s.display := by
  obtain ⟨_, hcase | ⟨l1, l2, _, _, hs, _, _⟩⟩ := flush_cache_spec P L s s' h
  · rw [hcase.1]; exact ⟨rfl, rfl, rfl, rfl⟩
  · rw [hs]; exact ⟨rfl, rfl, rfl, rfl⟩

/-- The steps of a returning decoded notification. -/
theorem on_decoded_split (P : Platform) (L : Limits) (s s' : State)
    (h : on_decoded P L s = .ok s') :
    ∃ r s2, decoded_scan s.cache s.file_cache (s.fileinfo.getD []) (none, s.best_lru) = .ok r ∧
      ((r.1 = none ∧ s2 = { s with best_lru := r.2 }) ∨
        (∃ b, r.1 = some b ∧ update_source P { s with best_lru := r.2 } b = .ok s2)) ∧
      flush_cache P L s2 = .ok s' := by
  unfold on_decoded at h
  split at h
  · cases h
  · rename_i r hr
    simp only at h
    split at h
    · cases h
    · rename_i s2 hs2
      refine ⟨r, s2, hr, ?_, h⟩
      cases hb : r.1 with
      | none =>
        left
        rw [hb] at hs2
        simp only [Except.ok.injEq] at hs2
        exact ⟨rfl, hs2.symm⟩
      | some b =>
        right
        rw [hb] at hs2
        exact ⟨b, rfl, hs2⟩

/-- The decoded notification never lowers the priority of the best image
shown. -/
theorem on_decoded_mono (P : Platform) (L : Limits) (s s' : State)
    (h : on_decoded P L s = .ok s') : s.best_lru ≤ s'.best_lru := by
  obtain ⟨r, s2, hr, hcase, hf⟩ := on_decoded_split P L s s' h
  obtain ⟨hle, _, _⟩ := decoded_scan_spec _ _ _ _ _ hr
  simp only at hle
  obtain ⟨_, _, e3, _⟩ := flush_cache_display P L s2 s' hf
  rw [e3]
  rcases hcase with ⟨_, hs2⟩ | ⟨b, _, hu⟩
  · rw [hs2]; exact hle
  · obtain ⟨z, _, _, _, hb⟩ := update_source_source P _ s2 b hu
    rw [hb]
    simp only
    split <;> omega

/-- The decoded notification. When every slot the lookup maps to exists and
the payload of every slot agrees with its status, the handler returns. If
some file of the list has a priority above `best_lru` and an available slot,
the display source becomes the available slot of such a file of highest
priority (no file with an available slot has a higher priority), `source` is
the image of that slot, and `best_lru` is at least the priority of that file.
Otherwise the display source, `source`, `best_lru` and the display globals
are unchanged. A returning run never lowers `best_lru`, along every sequence
of decoded notifications, whatever changes in between without touching
`best_lru`. Nothing is said about the priority of the source shown before:
`set_error` installs a source without raising `best_lru`. -/
theorem on_decoded_best_available (P : Platform) (L : Limits) (s : State)
    (hlook : ∀ k i, stb_sdict_get s.file_cache k = some i → i < s.cache.length)
    (hok : ∀ z ∈ s.cache, slot_ok z = true) :
    (∃ s', on_decoded P L s = .ok s' ∧ s.best_lru ≤ s'.best_lru ∧
      ((∀ f ∈ s.fileinfo.getD [], s.best_lru < f.lru → ∀ b z,
          stb_sdict_get s.file_cache f.filename = some b → s.cache[b]? = some z →
          z.status ≠ LOAD_available) →
        s'.source_c = s.source_c ∧ s'.source = s.source ∧ s'.best_lru = s.best_lru ∧
          s'.display = s.display) ∧
      ((∃ f ∈ s.fileinfo.getD [], s.best_lru < f.lru ∧ ∃ b z,
          stb_sdict_get s.file_cache f.filename = some b ∧ s.cache[b]? = some z ∧
          z.status = LOAD_available) →
        ∃ f ∈ s.fileinfo.getD [], s.best_lru < f.lru ∧ ∃ b z,
          stb_sdict_get s.file_cache f.filename = some b ∧ s.cache[b]? = some z ∧
          z.status = LOAD_available ∧
          (∀ g ∈ s.fileinfo.getD [], (∃ b' z', stb_sdict_get s.file_cache g.filename = some b' ∧
            s.cache[b']? = some z' ∧ z'.status = LOAD_available) → g.lru ≤ f.lru) ∧
          s'.source_c = some b ∧ s'.source = z.image ∧ f.lru ≤ s'.best_lru)) ∧
    (∀ ss : List State,
      List.Chain' (fun a b => ∃ a' : State, a'.best_lru = a.best_lru ∧
        on_decoded P L a' = .ok b) ss →
      List.Chain' (fun a b => a.best_lru ≤ b.best_lru) ss) := by
  constructor
  · obtain ⟨r, hr⟩ := decoded_scan_total s.cache s.file_cache hlook (s.fileinfo.getD [])
      (none, s.best_lru)
    obtain ⟨hle, hnone, hsome⟩ := decoded_scan_spec _ _ _ _ _ hr
    simp only at hle hnone hsome
    -- the state after the optional call of update_source
    obtain ⟨s2, hs2, hc2⟩ : ∃ s2,
        ((r.1 = none ∧ s2 = { s with best_lru := r.2 }) ∨
          (∃ b, r.1 = some b ∧ update_source P { s with best_lru := r.2 } b = .ok s2)) ∧
        s2.cache = s.cache := by
      cases hb : r.1 with
      | none => exact ⟨_, Or.inl ⟨rfl, rfl⟩, rfl⟩
      | some b =>
        have hex : ∃ z, s.cache[b]? = some z := by
          by_cases hc : ∃ f ∈ s.fileinfo.getD [], s.best_lru < f.lru ∧ ∃ b z,
              stb_sdict_get s.file_cache f.filename = some b ∧ s.cache[b]? = some z ∧
              z.status = LOAD_available
          · obtain ⟨f, _, _, b', z, _, hz, _, hr', _⟩ := hsome hc
            rw [hr'] at hb
            cases hb
            exact ⟨z, hz⟩
          · have := hnone (by
              intro f hf hfl b' z' hb' hz' hav
              exact hc ⟨f, hf, hfl, b', z', hb', hz', hav⟩)
            rw [this] at hb
            cases hb
        obtain ⟨z, hz⟩ := hex
        obtain ⟨s2, hu⟩ := update_source_total P { s with best_lru := r.2 } b z hz
        exact ⟨s2, Or.inr ⟨b, rfl, hu⟩, (update_source_cache P _ s2 b hu).1⟩
    obtain ⟨s', hf⟩ := flush_cache_total P L s2 (by rw [hc2]; exact hok)
    have hrun : on_decoded P L s = .ok s' := by
      unfold on_decoded
      simp only [hr]
      rcases hs2 with ⟨hb, hs2⟩ | ⟨b, hb, hu⟩
      · simp only [hb]
        rw [← hs2]
        exact hf
      · simp only [hb, hu]
        exact hf
    obtain ⟨e1, e2, e3, e4⟩ := flush_cache_display P L s2 s' hf
    refine ⟨s', hrun, on_decoded_mono P L s s' hrun, ?_, ?_⟩
    · intro hno
      have hacc := hnone hno
      rw [e1, e2, e3, e4]
      rcases hs2 with ⟨_, hs2⟩ | ⟨b, hb, _⟩
      · rw [hs2, hacc]
        exact ⟨rfl, rfl, rfl, rfl⟩
      · rw [hacc] at hb
        cases hb
    · intro hc
      obtain ⟨f, hf', hfl, b, z, hb, hz, hav, hr', hmax⟩ := hsome hc
      refine ⟨f, hf', hfl, b, z, hb, hz, hav, hmax, ?_⟩
      rw [e1, e2, e3]
      rcases hs2 with ⟨hb2, _⟩ | ⟨b2, hb2, hu⟩
      · rw [hr'] at hb2
        cases hb2
      · rw [hr'] at hb2 hu
        cases hb2
        obtain ⟨z2, hz2, h1, h2, h3⟩ := update_source_source P _ s2 b hu
        simp only at hz2 h3
        rw [hz] at hz2
        cases hz2
        refine ⟨h2, h1, ?_⟩
        rw [h3]
        split <;> omega
  · intro ss hchain
    induction ss with
    | nil => exact List.chain'_nil
    | cons a rest ih =>
      cases rest with
      | nil => exact List.chain'_singleton a
      | cons b rest' =>
        rw [List.chain'_cons] at hchain ⊢
        obtain ⟨⟨a', ha', hrun⟩, hrest⟩ := hchain
        refine ⟨?_, ih hrest⟩
        rw [← ha']
        exact on_decoded_mono P L a' b hrun

/-! ## The row ranges of the resize subtasks -/

theorem bilinear_ranges_from_start (dest_y resize_threads m i j0 j1 : Nat) :
    ∀ r ∈ bilinear_ranges_from dest_y resize_threads m i (j0, j1), r.1 = j0 := by
  induction m generalizing i j1 with
  | zero =>
    intro r hr
    simp [bilinear_ranges_from] at hr
  | succ m ih =>
    intro r hr
    unfold bilinear_ranges_from at hr
    rcases List.mem_cons.1 hr with rfl | hr
    · rfl
    · exact ih (i + 1) j0 r hr

/-- Every row range that `image_resize_bilinear` hands out starts at row 0:
the local `j0` is never advanced. -/
theorem bilinear_ranges_start (dest_y resize_threads : Nat) :
    ∀ r ∈ bilinear_ranges dest_y resize_threads, r.1 = 0 :=
  bilinear_ranges_from_start dest_y resize_threads resize_threads 0 0 0

theorem cubic_start_mono (out_y resize_threads m n : Nat) (h : m ≤ n) :
    out_y * m / resize_threads ≤ out_y * n / resize_threads :=
  Nat.div_le_div_right (Nat.mul_le_mul_left out_y h)

/-- The ranges of the cubic passes partition the rows: for a positive thread
count every row below `out_y` lies in the range of exactly one subtask. -/
theorem cubic_ranges_partition (out_y resize_threads row : Nat) (hT : 0 < resize_threads)
    (hrow : row < out_y) :
    ∃ n, n < resize_threads ∧ (cubic_x_range out_y resize_threads n).1 ≤ row ∧
      row < (cubic_x_range out_y resize_threads n).2 ∧
      cubic_y_range out_y resize_threads n = cubic_x_range out_y resize_threads n ∧
      ∀ m, m < resize_threads → (cubic_x_range out_y resize_threads m).1 ≤ row →
        row < (cubic_x_range out_y resize_threads m).2 → m = n := by
  have hex : ∃ n, row < out_y * (n + 1) / resize_threads := by
    refine ⟨resize_threads - 1, ?_⟩
    have h1 : resize_threads - 1 + 1 = resize_threads := by omega
    rw [h1, Nat.mul_div_cancel _ hT]
    exact hrow
  classical
  obtain ⟨n, hn, hmin⟩ : ∃ n, row < out_y * (n + 1) / resize_threads ∧
      ∀ m, m < n → ¬ row < out_y * (m + 1) / resize_threads :=
    ⟨Nat.find hex, Nat.find_spec hex, fun m hm => Nat.find_min hex hm⟩
  have hnT : n < resize_threads := by
    by_contra hc
    have h1 : resize_threads - 1 < n := by omega
    apply hmin (resize_threads - 1) h1
    have h2 : resize_threads - 1 + 1 = resize_threads := by omega
    rw [h2, Nat.mul_div_cancel _ hT]
    exact hrow
  have hlow : out_y * n / resize_threads ≤ row := by
    cases n with
    | zero => simp
    | succ k =>
      have := hmin k (by omega)
      omega
  refine ⟨n, hnT, hlow, hn, rfl, ?_⟩
  intro m _ hm1 hm2
  simp only [cubic_x_range] at hm1 hm2
  by_contra hne
  rcases Nat.lt_or_gt_of_ne hne with hlt | hgt
  · exact hmin m hlt hm2
  · have := cubic_start_mono out_y resize_threads (n + 1) m (by omega)
    omega

/-- C26. Evaluation. For a destination of 4 rows and 2 resize threads
`image_resize_bilinear` hands out the row ranges `[0, 2)` and `[0, 4)`: rows
0 and 1 are in both, so the ranges are not disjoint. The cubic passes, for the
same height and thread count, use `[0, 2)` and `[2, 4)`. -/
theorem bilinear_ranges_overlap :
    bilinear_ranges 4 2 = [(0, 2), (0, 4)] ∧
    range_rows (0, 2) = [0, 1] ∧ range_rows (0, 4) = [0, 1, 2, 3] ∧
    (0 ∈ range_rows (0, 2) ∧ 0 ∈ range_rows (0, 4)) ∧
    cubic_x_range 4 2 0 = (0, 2) ∧ cubic_x_range 4 2 1 = (2, 4) ∧
    cubic_y_range 4 2 0 = (0, 2) ∧ cubic_y_range 4 2 1 = (2, 4) := by
  decide

/-! ## The order of writes in the worker threads -/

theorem apply_events_append (a b : List SlotEvent) (z : ImageFile) :
    apply_events (a ++ b) z = apply_events b (apply_events a z) := by
  induction a generalizing z with
  | nil => rfl
  | cons e rest ih =>
    simp only [List.cons_append, apply_events]
    exact ih _

/-- When all payload writes come first, then the barrier, the status write
and the notification, every initial part of the sequence that contains the
status write leaves the slot with its final contents. -/
theorem status_write_sees_payload (ws : List SlotEvent) (st : LoadStatus) (z : ImageFile)
    (hws : ∀ e ∈ ws, e.is_payload = true) (p : List SlotEvent)
    (hp : p <+: ws ++ [SlotEvent.barrier, SlotEvent.set_status st, SlotEvent.notify])
    (hmem : SlotEvent.set_status st ∈ p) :
    apply_events p z =
      apply_events (ws ++ [SlotEvent.barrier, SlotEvent.set_status st, SlotEvent.notify]) z := by
  have hnot : SlotEvent.set_status st ∉ ws := by
    intro hc
    have := hws _ hc
    simp [SlotEvent.is_payload] at this
  rw [List.prefix_iff_eq_take] at hp
  rw [List.take_append_eq_append_take] at hp
  -- how much of the three last steps is in `p`
  generalize hk : p.length - ws.length = k at hp
  have hsub : ∀ e ∈ List.take p.length ws, e ∈ ws := fun e he => List.mem_of_mem_take he
  rcases k with _ | _ | _ | k
  · rw [hp] at hmem
    simp only [List.take_zero, List.append_nil] at hmem
    exact absurd (hsub _ hmem) hnot
  · rw [hp] at hmem
    simp only [List.take_succ_cons, List.take_zero, List.mem_append, List.mem_singleton] at hmem
    rcases hmem with h | h
    · exact absurd (hsub _ h) hnot
    · cases h
  · have hlen : ws.length ≤ p.length := by omega
    rw [List.take_of_length_le hlen] at hp
    rw [hp]
    simp only [List.take_succ_cons, List.take_zero]
    rw [apply_events_append, apply_events_append]
    rfl
  · have hlen : ws.length ≤ p.length := by omega
    rw [List.take_of_length_le hlen] at hp
    rw [hp]
    simp only [List.take_succ_cons, List.take_nil]

theorem diskload_slot_events_sound (D : Loader) (z : ImageFile) :
    diskload_slot D z = (diskload_slot_events D z).map (fun es => apply_events es z) := by
  obtain ⟨fn, fd, len, img, err, st, bail, lru⟩ := z
  unfold diskload_slot diskload_slot_events
  simp only
  by_cases hb : bail ≠ 0
  · simp only [if_pos hb]
    rfl
  · simp only [if_neg hb]
    cases fn with
    | none => rfl
    | some name =>
      simp only
      cases hd : D.stb_file name with
      | none => rfl
      | some data => rfl

theorem decode_slot_events_sound (D : Loader) (cs : List ImageFile) (f : Nat) (z : ImageFile)
    (hz : cs[f]? = some z) :
    decode_file D cs f =
      (decode_slot_events D z).map (fun es => cs.set f (apply_events es z)) := by
  obtain ⟨fn, fd, len, img, err, st, bail, lru⟩ := z
  unfold decode_file decode_slot_events
  rw [hz]
  simp only
  cases fd with
  | none => rfl
  | some buf =>
    simp only
    cases hd : D.stbi_load_from_memory buf len with
    | error reason => rfl
    | ok dec =>
      simp only
      cases hm : make_image dec.x dec.y dec.data dec.n with
      | error e => rfl
      | ok im => rfl

/-- C24. Publish before status. The statements of each worker transition,
taken in source order, when replayed give exactly the slot that the
transition produces. For the disk reader they are either the single write
`status = LOAD_inactive` (the cancelled case, which publishes nothing), or
payload writes only, then `barrier()`, then the write of the status
reading_done or error_reading, then the notification. For the decoder they
are payload writes only, then `barrier()`, then the write of the status
available or an error status, then the notification. In both, every initial
part of the sequence that contains the status write produces the final slot:
whoever sees the new status, writes becoming visible in this order, sees the
complete payload. -/
theorem publish_before_status (D : Loader) (z : ImageFile) :
    (∀ z1, diskload_slot D z = .ok z1 →
      ∃ es, diskload_slot_events D z = .ok es ∧ apply_events es z = z1 ∧
        (es = [SlotEvent.set_status LOAD_inactive] ∨
          ∃ ws st, es = ws ++ [SlotEvent.barrier, SlotEvent.set_status st, SlotEvent.notify] ∧
            (st = LOAD_reading_done ∨ st = LOAD_error_reading) ∧
            (∀ e ∈ ws, e.is_payload = true) ∧
            ∀ p, p <+: es → SlotEvent.set_status st ∈ p → apply_events p z = z1)) ∧
    (∀ cs f cs', cs[f]? = some z → decode_file D cs f = .ok cs' →
      ∃ es, decode_slot_events D z = .ok es ∧ cs' = cs.set f (apply_events es z) ∧
        ∃ ws st, es = ws ++ [SlotEvent.barrier, SlotEvent.set_status st, SlotEvent.notify] ∧
          (st = LOAD_available ∨ st = LOAD_error_reading ∨ st = LOAD_error_decoding) ∧
          (∀ e ∈ ws, e.is_payload = true) ∧
          ∀ p, p <+: es → SlotEvent.set_status st ∈ p →
            apply_events p z = apply_events es z) := by
  constructor
  · intro z1 h
    rw [diskload_slot_events_sound] at h
    obtain ⟨es, hes, hz1⟩ := except_map_ok _ _ _ h
    refine ⟨es, hes, hz1, ?_⟩
    unfold diskload_slot_events at hes
    split at hes
    · cases hes
      exact Or.inl rfl
    · split at hes
      · cases hes
      · split at hes
        · cases hes
          right
          have hws : ∀ e ∈ [SlotEvent.set_error (some "can't open"), SlotEvent.set_filedata none, SlotEvent.set_len 0],
              SlotEvent.is_payload e = true := by
            intro e he
            simp only [List.mem_cons, List.mem_singleton, List.not_mem_nil, or_false] at he
            rcases he with rfl | rfl | rfl <;> rfl
          refine ⟨[SlotEvent.set_error (some "can't open"), SlotEvent.set_filedata none, SlotEvent.set_len 0],
            LOAD_error_reading, rfl, Or.inr rfl, hws, ?_⟩
          intro p hp hmem
          rw [← hz1]
          exact status_write_sees_payload _ LOAD_error_reading z hws p hp hmem
        · rename_i data _
          cases hes
          right
          have hws : ∀ e ∈ [SlotEvent.set_error none, SlotEvent.set_filedata (some data), SlotEvent.set_len data.length],
              SlotEvent.is_payload e = true := by
            intro e he
            simp only [List.mem_cons, List.mem_singleton, List.not_mem_nil, or_false] at he
            rcases he with rfl | rfl | rfl <;> rfl
          refine ⟨[SlotEvent.set_error none, SlotEvent.set_filedata (some data), SlotEvent.set_len data.length],
            LOAD_reading_done, rfl, Or.inl rfl, hws, ?_⟩
          intro p hp hmem
          rw [← hz1]
          exact status_write_sees_payload _ LOAD_reading_done z hws p hp hmem
  · intro cs f cs' hz h
    rw [decode_slot_events_sound D cs f z hz] at h
    obtain ⟨es, hes, hcs'⟩ := except_map_ok _ _ _ h
    refine ⟨es, hes, hcs'.symm, ?_⟩
    unfold decode_slot_events at hes
    split at hes
    · cases hes
    · split at hes
      · rename_i reason _
        cases hes
        have hws : ∀ e ∈ [SlotEvent.set_filedata none, SlotEvent.set_error (some reason)],
            SlotEvent.is_payload e = true := by
          intro e he
          simp only [List.mem_cons, List.mem_singleton, List.not_mem_nil, or_false] at he
          rcases he with rfl | rfl <;> rfl
        refine ⟨[SlotEvent.set_filedata none, SlotEvent.set_error (some reason)],
          LOAD_error_reading, rfl, Or.inr (Or.inl rfl), hws, ?_⟩
        intro p hp hmem
        exact status_write_sees_payload _ LOAD_error_reading z hws p hp hmem
      · split at hes
        · cases hes
        · rename_i im _
          cases hes
          have hws : ∀ e ∈ [SlotEvent.set_filedata none, SlotEvent.set_image (some im)],
              SlotEvent.is_payload e = true := by
            intro e he
            simp only [List.mem_cons, List.mem_singleton, List.not_mem_nil, or_false] at he
            rcases he with rfl | rfl <;> rfl
          refine ⟨[SlotEvent.set_filedata none, SlotEvent.set_image (some im)],
            LOAD_available, rfl, Or.inl rfl, hws, ?_⟩
          intro p hp hmem
          exact status_write_sees_payload _ LOAD_available z hws p hp hmem

/-! ## The resize steps of the main loop -/

/-- A non-immediate `queue_resize` that returns has either met a failed
allocation and changed nothing, or marked the slot `src_c` resizing and filled
`pending_resize` for it. -/
theorem queue_resize_cases (resizer : Int → Int → Image → Image) (dest_ok : Bool) (lp : Loop)
    (w h : Int) (src_c : Option Nat) (l1 : Loop)
    (h1 : queue_resize resizer dest_ok lp w h src_c false = .ok l1) :
    (dest_ok = false ∧ l1 = lp) ∨
    (dest_ok = true ∧
      ∃ q z src fn, src_c = some q ∧ lp.st.cache[q]? = some z ∧ z.image = some src ∧
        z.filename = some fn ∧
        l1 = { lp with
                st := { lp.st with
                  cache := lp.st.cache.set q { z with status := LOAD_resizing } },
                pending_resize := { lp.pending_resize with
                  image := none, image_c := some q, filename := some fn } }) := by
  unfold queue_resize at h1
  split at h1
  · cases h1
  · rename_i q
    split at h1
    · cases h1
    · rename_i z hz
      split at h1
      · cases h1
      · rename_i src hi
        split at h1
        · rename_i hd
          cases h1
          exact Or.inl ⟨hd, rfl⟩
        · rename_i hd
          simp only [Bool.false_eq_true, if_false] at h1
          split at h1
          · cases h1
          · rename_i fn hf
            simp only [Except.ok.injEq] at h1
            refine Or.inr ⟨?_, q, z, src, fn, rfl, hz, hi, hf, h1.symm⟩
            cases dest_ok
            · exact absurd rfl hd
            · rfl

/-- What the first block of the main loop does when it returns: nothing to the
slots and to `pending_resize`; or, with no resize pending and the allocation
successful, it hands the slot `source_c` to the resizer; or, with no resize
pending and the allocation failed, it leaves `pending_resize.size` set to the
request and nothing else changed. -/
theorem start_resize_spec (resizer : Int → Int → Image → Image) (dest_ok : Bool)
    (lp l1 : Loop) (h1 : start_resize resizer dest_ok lp = .ok l1) :
    (l1.pending_resize = lp.pending_resize ∧ l1.st.cache = lp.st.cache) ∨
    (dest_ok = true ∧ lp.pending_resize.size.w = 0 ∧ lp.st.display.qs.w ≠ 0 ∧
      ∃ q z, lp.st.source_c = some q ∧ lp.st.cache[q]? = some z ∧
        l1.st.cache = lp.st.cache.set q { z with status := LOAD_resizing } ∧
        l1.pending_resize.image_c = some q ∧ l1.pending_resize.image = none ∧
        l1.pending_resize.size = lp.st.display.qs) ∨
    (dest_ok = false ∧ lp.pending_resize.size.w = 0 ∧ lp.st.display.qs.w ≠ 0 ∧
      l1.st.cache = lp.st.cache ∧
      l1.pending_resize = { lp.pending_resize with size := lp.st.display.qs }) := by
  unfold start_resize at h1
  simp only at h1
  split at h1
  · rename_i hcond
    split at h1
    · cases h1
    · rename_i l2 hr
      simp only [Except.ok.injEq] at h1
      subst h1
      split at hr
      · split at hr
        · cases hr
        · rename_i cc hcc
          split at hr
          · cases hr
            exact Or.inl ⟨rfl, rfl⟩
          · rcases queue_resize_cases _ _ _ _ _ _ _ hr with ⟨hd, hl2⟩ |
              ⟨hd, q, z, src, fn, hsc, hz, _, _, hl2⟩
            · subst hl2
              exact Or.inr (Or.inr ⟨hd, hcond.2, hcond.1, rfl, rfl⟩)
            · subst hl2
              exact Or.inr (Or.inl ⟨hd, hcond.2, hcond.1, q, z, hsc, hz, rfl, rfl, rfl, rfl⟩)
      · cases hr
        exact Or.inl ⟨rfl, rfl⟩
  · cases h1
    exact Or.inl ⟨rfl, rfl⟩

/-- With a resize pending the first block of the main loop changes nothing. -/
theorem start_resize_pending (resizer : Int → Int → Image → Image) (dest_ok : Bool) (lp : Loop)
    (hp : lp.pending_resize.size.w ≠ 0) : start_resize resizer dest_ok lp = .ok lp := by
  unfold start_resize
  have hcond : ¬ (lp.st.display.qs.w ≠ 0 ∧ lp.pending_resize.size.w = 0) := fun hc => hp hc.2
  simp only [if_neg hcond]

/-- Marking one slot resizing in a table without resizing slots leaves that
slot the only resizing one. -/
theorem set_resizing_unique (cs : List ImageFile) (q : Nat) (z : ImageFile)
    (hz : cs[q]? = some z) (hnone : ∀ w ∈ cs, w.status ≠ LOAD_resizing) :
    (cs.set q { z with status := LOAD_resizing })[q]? = some { z with status := LOAD_resizing } ∧
    ∀ (j : Nat) (w : ImageFile), (cs.set q { z with status := LOAD_resizing })[j]? = some w →
      w.status = LOAD_resizing → j = q := by
  have hlt : q < cs.length := by
    rcases Nat.lt_or_ge q cs.length with h | h
    · exact h
    · rw [List.getElem?_eq_none h] at hz; cases hz
  refine ⟨by simp [List.getElem?_set, hlt], ?_⟩
  intro j w hw hs
  by_contra hne
  rw [List.getElem?_set_ne (Ne.symm hne)] at hw
  exact hnone w (List.getElem?_mem hw) hs

/-- Giving back the only resizing slot leaves no resizing slot. -/
theorem set_available_none (cs : List ImageFile) (q : Nat) (z : ImageFile)
    (huniq : ∀ (j : Nat) (w : ImageFile), cs[j]? = some w → w.status = LOAD_resizing → j = q) :
    ∀ w ∈ cs.set q { z with status := LOAD_available }, w.status ≠ LOAD_resizing := by
  intro w hw hs
  obtain ⟨j, hj⟩ := List.getElem?_of_mem hw
  by_cases hjq : j = q
  · subst hjq
    by_cases hlt : j < cs.length
    · simp [List.getElem?_set, hlt] at hj
      rw [← hj] at hs
      cases hs
    · simp [List.getElem?_set, hlt] at hj
  · rw [List.getElem?_set_ne (Ne.symm hjq)] at hj
    exact hjq (huniq j w hj hs)

/-- The first block of the main loop keeps the bookkeeping consistent when
the allocation succeeds. -/
theorem start_resize_consistent (resizer : Int → Int → Image → Image) (lp l1 : Loop)
    (h0 : resize_consistent lp) (h1 : start_resize resizer true lp = .ok l1) :
    resize_consistent l1 := by
  rcases start_resize_spec resizer true lp l1 h1 with ⟨hp, hc⟩ |
    ⟨_, hw0, hqs, q, z, _, hz, hc, hic, _, hsz⟩ | ⟨hd, _⟩
  · unfold resize_consistent at h0 ⊢
    rw [hp, hc]
    exact h0
  · have hnone := h0.1 hw0
    obtain ⟨hq1, hq2⟩ := set_resizing_unique lp.st.cache q z hz hnone
    unfold resize_consistent
    rw [hsz, hc]
    refine ⟨fun h => absurd h hqs, fun _ => ⟨q, _, hic, hq1, rfl, hq2⟩⟩
  · cases hd

/-- What the second block of the main loop does when the bookkeeping is
consistent: with a resize pending and its image delivered it returns, gives
the slot back and clears the pending resize; otherwise it changes nothing. -/
theorem complete_resize_spec (lp : Loop) (h0 : resize_consistent lp) :
    (∀ im, lp.pending_resize.size.w ≠ 0 → lp.pending_resize.image = some im →
      ∃ l1 q z, complete_resize lp = .ok l1 ∧ lp.pending_resize.image_c = some q ∧
        lp.st.cache[q]? = some z ∧ z.status = LOAD_resizing ∧
        l1.st.cache = lp.st.cache.set q { z with status := LOAD_available } ∧
        l1.pending_resize.size.w = 0 ∧ l1.pending_resize.image_c = some q ∧
        l1.st.display.cur = some im ∧
        l1.st.display.cur_filename = lp.pending_resize.filename ∧
        ∀ w ∈ l1.st.cache, w.status ≠ LOAD_resizing) ∧
    (lp.pending_resize.size.w = 0 ∨ lp.pending_resize.image = none →
      complete_resize lp = .ok lp) := by
  constructor
  · intro im hw him
    obtain ⟨q, z, hic, hz, hs, huniq⟩ := h0.2 hw
    have hrun : ∃ l1, complete_resize lp = .ok l1 ∧
        l1.st.cache = lp.st.cache.set q { z with status := LOAD_available } ∧
        l1.pending_resize.size.w = 0 ∧ l1.pending_resize.image_c = some q ∧
        l1.st.display.cur = some im ∧
        l1.st.display.cur_filename = lp.pending_resize.filename := by
      unfold complete_resize
      simp only [hw, ne_eq, not_false_eq_true, if_true, him, hic, hz]
      exact ⟨_, rfl, rfl, rfl, rfl, rfl, rfl⟩
    obtain ⟨l1, hl1, hc1, hw1, hic1, hcur, hfn⟩ := hrun
    refine ⟨l1, q, z, hl1, hic, hz, hs, hc1, hw1, hic1, hcur, hfn, ?_⟩
    rw [hc1]
    exact set_available_none lp.st.cache q z huniq
  · intro h
    unfold complete_resize
    rcases h with h | h
    · simp only [h, ne_eq, not_true_eq_false, if_false]
    · by_cases hw : lp.pending_resize.size.w ≠ 0
      · simp only [if_pos hw, h]
      · simp only [if_neg hw]

/-- The second block of the main loop keeps the bookkeeping consistent. -/
theorem complete_resize_consistent (lp l1 : Loop)
    (h0 : resize_consistent lp) (h1 : complete_resize lp = .ok l1) :
    resize_consistent l1 := by
  obtain ⟨hdone, hidle⟩ := complete_resize_spec lp h0
  by_cases hw : lp.pending_resize.size.w = 0
  · rw [hidle (Or.inl hw)] at h1
    cases h1
    exact h0
  · cases him : lp.pending_resize.image with
    | none =>
      rw [hidle (Or.inr him)] at h1
      cases h1
      exact h0
    | some im =>
      obtain ⟨l2, q, z, hl2, _, _, _, _, hw2, _, _, _, hnone⟩ := hdone im hw him
      rw [hl2] at h1
      cases h1
      exact ⟨fun _ => hnone, fun h => absurd hw2 h⟩

/-- Every event of the main loop other than a start block whose allocation
fails keeps the bookkeeping consistent. -/
theorem loop_step_consistent (resizer : Int → Int → Image → Image) (e : LoopEvent)
    (lp l1 : Loop) (he : e ≠ LoopEvent.start false) (h0 : resize_consistent lp)
    (h1 : loop_step resizer e lp = .ok l1) :
    resize_consistent l1 := by
  cases e with
  | start dest_ok =>
    cases dest_ok with
    | false => exact absurd rfl he
    | true => exact start_resize_consistent resizer lp l1 h0 h1
  | complete => exact complete_resize_consistent lp l1 h0 h1
  | delivered im =>
    unfold loop_step at h1
    by_cases hw : lp.pending_resize.size.w ≠ 0
    · simp only [if_pos hw, Except.ok.injEq] at h1
      subst h1
      exact h0
    · simp only [if_neg hw, Except.ok.injEq] at h1
      subst h1
      exact h0
  | request q =>
    unfold loop_step at h1
    simp only [Except.ok.injEq] at h1
    subst h1
    exact h0

/-- Every sequence of events of the main loop in which no allocation fails
keeps the bookkeeping consistent. -/
theorem loop_run_consistent (resizer : Int → Int → Image → Image) (evs : List LoopEvent) :
    ∀ (lp l1 : Loop), (∀ e ∈ evs, e ≠ LoopEvent.start false) → resize_consistent lp →
      loop_run resizer evs lp = .ok l1 → resize_consistent l1 := by
  induction evs with
  | nil =>
    intro lp l1 _ h0 h1
    unfold loop_run at h1
    cases h1
    exact h0
  | cons e rest ih =>
    intro lp l1 hev h0 h1
    unfold loop_run at h1
    cases hs : loop_step resizer e lp with
    | error f => simp only [hs] at h1; cases h1
    | ok l2 =>
      simp only [hs] at h1
      exact ih l2 l1 (fun e' he' => hev e' (List.mem_cons_of_mem e he'))
        (loop_step_consistent resizer e lp l2 (hev e (List.mem_cons_self e rest)) h0 hs) h1

/-- What the second block of the main loop does when it returns: nothing, or
it sets the slot `pending_resize.image_c` available and clears
`pending_resize.size.w`. -/
theorem complete_resize_cases (lp l1 : Loop) (h1 : complete_resize lp = .ok l1) :
    l1 = lp ∨
    (lp.pending_resize.size.w ≠ 0 ∧
      ∃ q z im, lp.pending_resize.image = some im ∧ lp.pending_resize.image_c = some q ∧
        lp.st.cache[q]? = some z ∧
        l1.st.cache = lp.st.cache.set q { z with status := LOAD_available } ∧
        l1.pending_resize.size.w = 0 ∧ l1.st.display.cur = some im) := by
  unfold complete_resize at h1
  split at h1
  · rename_i hw
    split at h1
    · cases h1
      exact Or.inl rfl
    · rename_i im him
      split at h1
      · cases h1
      · rename_i q hic
        split at h1
        · cases h1
        · rename_i z hz
          simp only [Except.ok.injEq] at h1
          subst h1
          exact Or.inr ⟨hw, q, z, im, him, hic, hz, rfl, rfl, rfl⟩
  · cases h1
    exact Or.inl rfl

/-- Every event of the main loop, a failed allocation included, leaves every
resizing slot the slot of the pending resize. -/
theorem loop_step_owned (resizer : Int → Int → Image → Image) (e : LoopEvent)
    (lp l1 : Loop) (h0 : resize_owned lp) (h1 : loop_step resizer e lp = .ok l1) :
    resize_owned l1 := by
  cases e with
  | start dest_ok =>
    rcases start_resize_spec resizer dest_ok lp l1 h1 with ⟨hp, hc⟩ |
      ⟨_, hw0, hqs, q, z, _, hz, hc, hic, _, hsz⟩ | ⟨_, hw0, hqs, hc, hp⟩
    · intro j w hj hs
      rw [hc] at hj
      rw [hp]
      exact h0 j w hj hs
    · intro j w hj hs
      rw [hc] at hj
      by_cases hjq : j = q
      · subst hjq
        exact ⟨by rw [hsz]; exact hqs, hic⟩
      · rw [List.getElem?_set_ne (Ne.symm hjq)] at hj
        exact absurd hw0 (h0 j w hj hs).1
    · intro j w hj hs
      rw [hc] at hj
      exact absurd hw0 (h0 j w hj hs).1
  | complete =>
    rcases complete_resize_cases lp l1 h1 with h | ⟨_, q, z, im, _, hic, hz, hc, _, _⟩
    · rw [h]
      exact h0
    · intro j w hj hs
      rw [hc] at hj
      by_cases hjq : j = q
      · subst hjq
        by_cases hlt : j < lp.st.cache.length
        · simp [List.getElem?_set, hlt] at hj
          rw [← hj] at hs
          cases hs
        · simp [List.getElem?_set, hlt] at hj
      · rw [List.getElem?_set_ne (Ne.symm hjq)] at hj
        have h2 := (h0 j w hj hs).2
        rw [hic] at h2
        cases h2
        exact absurd rfl hjq
  | delivered im =>
    unfold loop_step at h1
    by_cases hw : lp.pending_resize.size.w ≠ 0
    · simp only [if_pos hw, Except.ok.injEq] at h1
      subst h1
      exact h0
    · simp only [if_neg hw, Except.ok.injEq] at h1
      subst h1
      exact h0
  | request q =>
    unfold loop_step at h1
    simp only [Except.ok.injEq] at h1
    subst h1
    exact h0

/-- In every state the main loop reaches, whatever the outcome of the
allocations, every resizing slot is the slot of the pending resize; so at most
one slot is resizing. -/
theorem loop_run_owned (resizer : Int → Int → Image → Image) (evs : List LoopEvent) :
    ∀ (lp l1 : Loop), resize_owned lp → loop_run resizer evs lp = .ok l1 →
      resize_owned l1 ∧
      ∀ (i j : Nat) (zi zj : ImageFile), l1.st.cache[i]? = some zi → l1.st.cache[j]? = some zj →
        zi.status = LOAD_resizing → zj.status = LOAD_resizing → i = j := by
  induction evs with
  | nil =>
    intro lp l1 h0 h1
    unfold loop_run at h1
    cases h1
    refine ⟨h0, ?_⟩
    intro i j zi zj hi hj hsi hsj
    have h1 := (h0 i zi hi hsi).2
    have h2 := (h0 j zj hj hsj).2
    rw [h1] at h2
    cases h2
    rfl
  | cons e rest ih =>
    intro lp l1 h0 h1
    unfold loop_run at h1
    cases hs : loop_step resizer e lp with
    | error f => simp only [hs] at h1; cases h1
    | ok l2 =>
      simp only [hs] at h1
      exact ih l2 l1 (loop_step_owned resizer e lp l2 h0 hs) h1

/-- A pending resize without a result stays pending: when
`pending_resize.size.w` is not 0 and `pending_resize.image` is null, no
sequence of start blocks, complete blocks and window requests changes
`pending_resize` or the slots. -/
theorem pending_without_result_stays (resizer : Int → Int → Image → Image)
    (evs : List LoopEvent) :
    ∀ (lp : Loop), lp.pending_resize.size.w ≠ 0 → lp.pending_resize.image = none →
      (∀ e ∈ evs, ∀ im, e ≠ LoopEvent.delivered im) →
      ∃ l1, loop_run resizer evs lp = .ok l1 ∧ l1.pending_resize = lp.pending_resize ∧
        l1.st.cache = lp.st.cache := by
  induction evs with
  | nil =>
    intro lp _ _ _
    exact ⟨lp, rfl, rfl, rfl⟩
  | cons e rest ih =>
    intro lp hw him hev
    have hrest : ∀ e' ∈ rest, ∀ im, e' ≠ LoopEvent.delivered im :=
      fun e' he' => hev e' (List.mem_cons_of_mem e he')
    have hstep : ∃ l2, loop_step resizer e lp = .ok l2 ∧
        l2.pending_resize = lp.pending_resize ∧ l2.st.cache = lp.st.cache := by
      cases e with
      | start dest_ok => exact ⟨lp, start_resize_pending resizer dest_ok lp hw, rfl, rfl⟩
      | complete =>
        refine ⟨lp, ?_, rfl, rfl⟩
        unfold loop_step complete_resize
        simp only [hw, ne_eq, not_false_eq_true, if_true, him]
      | delivered im => exact absurd rfl (hev _ (List.mem_cons_self _ rest) im)
      | request q => exact ⟨_, rfl, rfl, rfl⟩
    obtain ⟨l2, hl2, hp2, hc2⟩ := hstep
    obtain ⟨l1, hl1, hp1, hc1⟩ := ih l2 (by rw [hp2]; exact hw) (by rw [hp2]; exact him) hrest
    refine ⟨l1, ?_, hp1.trans hp2, hc1.trans hc2⟩
    unfold loop_run
    simp only [hl2]
    exact hl1

/-- The resize bookkeeping when no allocation fails. In every state the main
loop reaches from a consistent one by start blocks whose allocation succeeds,
complete blocks, deliveries of the resizer and window requests, a slot has
status resizing exactly when a resize is pending for it; the start block
changes nothing while a resize is pending; the complete block, once the image
is delivered, returns, gives the slot back as available, clears the pending
resize and leaves no slot resizing, and otherwise changes nothing. -/
theorem resize_consistent_reached (resizer : Int → Int → Image → Image)
    (evs : List LoopEvent) (lp0 lp : Loop) (hev : ∀ e ∈ evs, e ≠ LoopEvent.start false)
    (h0 : resize_consistent lp0) (hrun : loop_run resizer evs lp0 = .ok lp) :
    (∀ (j : Nat) (w : ImageFile), lp.st.cache[j]? = some w →
      (w.status = LOAD_resizing ↔
        (lp.pending_resize.size.w ≠ 0 ∧ lp.pending_resize.image_c = some j))) ∧
    (∀ dest_ok, lp.pending_resize.size.w ≠ 0 → start_resize resizer dest_ok lp = .ok lp) ∧
    (∀ im, lp.pending_resize.size.w ≠ 0 → lp.pending_resize.image = some im →
      ∃ l1 q z, complete_resize lp = .ok l1 ∧ lp.pending_resize.image_c = some q ∧
        lp.st.cache[q]? = some z ∧ z.status = LOAD_resizing ∧
        l1.st.cache = lp.st.cache.set q { z with status := LOAD_available } ∧
        l1.pending_resize.size.w = 0 ∧ l1.pending_resize.image_c = some q ∧
        l1.st.display.cur = some im ∧
        l1.st.display.cur_filename = lp.pending_resize.filename ∧
        ∀ w ∈ l1.st.cache, w.status ≠ LOAD_resizing) ∧
    (lp.pending_resize.size.w = 0 ∨ lp.pending_resize.image = none →
      complete_resize lp = .ok lp) := by
  have hc : resize_consistent lp := loop_run_consistent resizer evs lp0 lp hev h0 hrun
  obtain ⟨hdone, hidle⟩ := complete_resize_spec lp hc
  refine ⟨?_, fun d => start_resize_pending resizer d lp, hdone, hidle⟩
  intro j w hw
  constructor
  · intro hs
    by_cases hp : lp.pending_resize.size.w = 0
    · exact absurd hs (hc.1 hp w (List.getElem?_mem hw))
    · obtain ⟨q, z, hic, _, _, huniq⟩ := hc.2 hp
      have hjq := huniq j w hw hs
      subst hjq
      exact ⟨hp, hic⟩
  · rintro ⟨hp, hic⟩
    obtain ⟨q, z, hic2, hz, hs, _⟩ := hc.2 hp
    rw [hic] at hic2
    cases hic2
    rw [hw] at hz
    cases hz
    exact hs

/-! ## The notification handlers, the resize steps and the workers on concrete states -/

/-- A lookup whose entries all point below `n` returns only slots below `n`. -/
theorem stb_sdict_get_bound (d : List (String × Nat)) (n : Nat) (h : ∀ e ∈ d, e.2 < n) :
    ∀ k i, stb_sdict_get d k = some i → i < n := by
  induction d with
  | nil => intro k i hk; cases hk
  | cons a rest ih =>
    intro k i hk
    unfold stb_sdict_get at hk
    by_cases ha : a.1 = k
    · rw [if_pos ha] at hk
      cases hk
      exact h a (List.mem_cons_self a rest)
    · rw [if_neg ha] at hk
      exact ih (fun e he => h e (List.mem_cons_of_mem a he)) k i hk

set_option maxRecDepth 100000 in
/-- C21, counterexample. In `loading_state` slot 0 (`b.png`, being read) has
priority 8, the highest of the occupied slots, and the slot holding an error
(slot 1, `c.png`) has priority 7; the image of `a.png` is shown and the error
text is empty. The error notification replaces the image shown by the error of
slot 1. -/
theorem on_error_surfaces_lower_priority :
    loading_state.cache[0]? = some (reading_slot "b.png" 8) ∧
    loading_state.cache[1]? = some (error_slot "c.png" 7) ∧
    (∀ z ∈ loading_state.cache, z.status ≠ LOAD_unused → z.lru ≤ (reading_slot "b.png" 8).lru) ∧
    (error_slot "c.png" 7).lru < (reading_slot "b.png" 8).lru ∧
    loading_state.display.cur = some pixel_image ∧
    loading_state.display.display_error = "" ∧
    on_error loading_state = .ok { loading_state with
      source_c := some 1, source := none,
      display := { loading_state.display with
        cur := none, cur_filename := some "c.png",
        display_error := "File:\nc.png\nError:\ncan't open\n" } } := by
  decide

set_option maxRecDepth 100000 in
/-- C21, witness: in `loading_state` the finished slots are slot 1 (error,
priority 7) and slot 2 (available, priority 7); the handler surfaces the error
of slot 1. -/
theorem on_error_surfaces_best_finished_witness :
    (∃ z ∈ loading_state.cache, (z.status = LOAD_error_reading ∨
      z.status = LOAD_error_decoding ∨ z.status = LOAD_available) ∧ 0 < z.lru) ∧
    (∃ b z, loading_state.cache[b]? = some z ∧ 0 < z.lru ∧
      (z.status = LOAD_available → on_error loading_state = .ok loading_state) ∧
      (z.status ≠ LOAD_available → on_error loading_state = set_error loading_state b)) ∧
    on_error loading_state = set_error loading_state 1 := by
  have hex : ∃ z ∈ loading_state.cache, (z.status = LOAD_error_reading ∨
      z.status = LOAD_error_decoding ∨ z.status = LOAD_available) ∧ 0 < z.lru :=
    ⟨error_slot "c.png" 7, by decide, Or.inl rfl, by decide⟩
  obtain ⟨b, z, hz, _, hpos, _, hav, hnav⟩ := on_error_surfaces_best_finished loading_state hex
  exact ⟨hex, ⟨b, z, hz, hpos, hav, fun h => (hnav h).1⟩, by decide⟩

set_option maxRecDepth 100000 in
/-- The decoded notification on `loaded_state`: the image shown has priority
7 and `b.png` (priority 8, slot 0) is available; the handler makes slot 0 the
display source and raises `best_lru` to 8. -/
theorem on_decoded_best_available_loaded :
    (∀ k i, stb_sdict_get loaded_state.file_cache k = some i → i < loaded_state.cache.length) ∧
    (∀ z ∈ loaded_state.cache, slot_ok z = true) ∧
    loaded_state.source_c = some 2 ∧ loaded_state.best_lru = 7 ∧
    ∃ s', on_decoded demo_platform imv_limits loaded_state = .ok s' ∧
      loaded_state.best_lru ≤ s'.best_lru ∧ s'.source_c = some 0 ∧ s'.best_lru = 8 := by
  have hlook := stb_sdict_get_bound loaded_state.file_cache loaded_state.cache.length
    (by decide)
  have hok : ∀ z ∈ loaded_state.cache, slot_ok z = true := by decide
  obtain ⟨s', hs', hle, _, _⟩ :=
    (on_decoded_best_available demo_platform imv_limits loaded_state hlook hok).1
  have hev : (on_decoded demo_platform imv_limits loaded_state).map
      (fun s => (s.source_c, s.best_lru)) = .ok (some 0, 8) := by decide
  rw [hs'] at hev
  have hpair : (s'.source_c, s'.best_lru) = (some 0, 8) := Except.ok.inj hev
  exact ⟨hlook, hok, rfl, rfl, s', hs', hle, congrArg Prod.fst hpair, congrArg Prod.snd hpair⟩

set_option maxRecDepth 100000 in
/-- C22. Evaluation. In `raced_state` the image of `a.png` is shown and
`best_lru` is 8; `b.png` (slot 1, priority 9) is available and the current
file `c.png` (slot 2, priority 10) holds an error. The error notification
comes first and shows the error of `c.png`: the display source is slot 2,
priority 10, and `best_lru` is still 8. The decoded notification then finds
`b.png` above `best_lru` and makes slot 1 the display source: the priority of
the source shown falls from 10 to 9, and the image of the previous file is
shown in place of the error of the current one. With the same slots and the
two notifications in the other order the error of `c.png` is what stays
shown. -/
theorem on_decoded_lowers_shown_priority :
    raced_state.best_lru = 8 ∧
    raced_state.cache[1]? = some (available_slot "b.png" 9) ∧
    raced_state.cache[2]? = some (error_slot "c.png" 10) ∧
    on_error raced_state = .ok error_shown_state ∧
    error_shown_state.source_c = some 2 ∧ error_shown_state.best_lru = 8 ∧
    error_shown_state.cache = raced_state.cache ∧
    on_decoded demo_platform imv_limits error_shown_state = .ok image_shown_state ∧
    image_shown_state.source_c = some 1 ∧ image_shown_state.best_lru = 9 ∧
    image_shown_state.display.cur_filename = some "b.png" ∧
    image_shown_state.cache = raced_state.cache ∧
    (available_slot "b.png" 9).lru < (error_slot "c.png" 10).lru ∧
    (on_decoded demo_platform imv_limits raced_state).bind on_error =
      .ok { error_shown_state with best_lru := 9 } :=
  ⟨by decide, by decide, by decide, by decide, by decide, by decide, by decide, by decide,
    by decide, by decide, by decide, by decide, by decide, by decide⟩

set_option maxRecDepth 100000 in
/-- The resize steps on `idle_loop` when the allocation succeeds: the request
and the start block lead to `resizing_loop`, where exactly slot 2 is resizing
and a second start block changes nothing; once the image is delivered the
complete block returns, gives slot 2 back and leaves no slot resizing. -/
theorem resize_consistent_reached_idle :
    resize_consistent idle_loop ∧
    loop_run demo_resizer [LoopEvent.request demo_request, LoopEvent.start true] idle_loop =
      .ok resizing_loop ∧
    (∀ (j : Nat) (w : ImageFile), resizing_loop.st.cache[j]? = some w →
      (w.status = LOAD_resizing ↔
        (resizing_loop.pending_resize.size.w ≠ 0 ∧
          resizing_loop.pending_resize.image_c = some j))) ∧
    start_resize demo_resizer true resizing_loop = .ok resizing_loop ∧
    loop_run demo_resizer
      [LoopEvent.request demo_request, LoopEvent.start true, LoopEvent.delivered pixel_image]
      idle_loop = .ok delivered_loop ∧
    (∃ l1 q z, complete_resize delivered_loop = .ok l1 ∧
      delivered_loop.pending_resize.image_c = some q ∧
      delivered_loop.st.cache[q]? = some z ∧ z.status = LOAD_resizing ∧
      l1.st.cache = delivered_loop.st.cache.set q { z with status := LOAD_available } ∧
      l1.pending_resize.size.w = 0 ∧ ∀ w ∈ l1.st.cache, w.status ≠ LOAD_resizing) := by
  have h0 : resize_consistent idle_loop := ⟨fun _ => by decide, fun h => absurd rfl h⟩
  have hrun : loop_run demo_resizer [LoopEvent.request demo_request, LoopEvent.start true]
      idle_loop = .ok resizing_loop := by decide
  have hrun2 : loop_run demo_resizer
      [LoopEvent.request demo_request, LoopEvent.start true, LoopEvent.delivered pixel_image]
      idle_loop = .ok delivered_loop := by decide
  have h := resize_consistent_reached demo_resizer _ idle_loop resizing_loop (by decide) h0 hrun
  have h2 := resize_consistent_reached demo_resizer _ idle_loop delivered_loop (by decide) h0
    hrun2
  obtain ⟨l1, q, z, hl1, hic, hz, hs, hc, hw, _, _, _, hnone⟩ :=
    h2.2.2.1 pixel_image (by decide) rfl
  exact ⟨h0, hrun, h.1, h.2.1 true (by decide), hrun2, l1, q, z, hl1, hic, hz, hs, hc, hw, hnone⟩

set_option maxRecDepth 100000 in
/-- C23. Evaluation. In `idle_loop` no resize is pending and no slot is
resizing. A request arrives and the start block runs, but `bmp_alloc` fails in
`queue_resize`: the result `stuck_loop` has `pending_resize.size.w` set to the
request (a resize is pending) while no slot is resizing and
`pending_resize.image` is null, so the bookkeeping is no longer consistent. A
further request, start block and complete block change neither
`pending_resize` nor the slots: the request is never taken up. When the same
happens after an earlier resize has completed (`resized_loop`), the result
`stale_loop` still holds the image and the slot of that earlier resize, and
the complete block takes the resize for finished: it returns with
`pending_resize.size.w` cleared, the image of the earlier resize as the image
shown and no filename for it, though nothing was resized. -/
theorem failed_alloc_leaves_resize_pending :
    idle_loop.pending_resize.size.w = 0 ∧
    (∀ z ∈ idle_loop.st.cache, z.status ≠ LOAD_resizing) ∧
    loop_run demo_resizer [LoopEvent.request demo_request, LoopEvent.start false] idle_loop =
      .ok stuck_loop ∧
    stuck_loop.pending_resize.size.w ≠ 0 ∧
    stuck_loop.pending_resize.image = none ∧
    (∀ z ∈ stuck_loop.st.cache, z.status ≠ LOAD_resizing) ∧
    ¬ resize_consistent stuck_loop ∧
    (loop_run demo_resizer
        [LoopEvent.request demo_request, LoopEvent.start true, LoopEvent.complete]
        stuck_loop).map (fun l => (l.pending_resize, l.st.cache)) =
      .ok (stuck_loop.pending_resize, stuck_loop.st.cache) ∧
    loop_run demo_resizer
      [LoopEvent.request demo_request, LoopEvent.start true,
        LoopEvent.delivered resized_image, LoopEvent.complete] idle_loop = .ok resized_loop ∧
    loop_run demo_resizer [LoopEvent.request demo_request, LoopEvent.start false]
      resized_loop = .ok stale_loop ∧
    stale_loop.pending_resize.size.w ≠ 0 ∧
    stale_loop.pending_resize.image = some resized_image ∧
    (∀ z ∈ stale_loop.st.cache, z.status ≠ LOAD_resizing) ∧
    (complete_resize stale_loop).map
        (fun l => (l.pending_resize.size.w, l.st.display.cur, l.st.display.cur_filename)) =
      .ok (0, some resized_image, none) := by
  have hnone : ∀ z ∈ stuck_loop.st.cache, z.status ≠ LOAD_resizing := by decide
  have hbad : ¬ resize_consistent stuck_loop := by
    intro hc
    obtain ⟨q, z, _, hz, hs, _⟩ := hc.2 (by decide)
    exact hnone z (List.getElem?_mem hz) hs
  exact ⟨by decide, by decide, by decide, by decide, by decide, hnone, hbad, by decide,
    by decide, by decide, by decide, by decide, by decide, by decide⟩

set_option maxRecDepth 100000 in
/-- C24, witness: the disk reader on the claimed slot of `a.png`, which the
file system holds: the payload writes, the barrier, the status write and the
notification, in this order. -/
theorem publish_before_status_witness :
    diskload_slot demo_loader (reading_slot "a.png" 8) = .ok (reading_done_slot "a.png" 8) ∧
    diskload_slot_events demo_loader (reading_slot "a.png" 8) =
      .ok [SlotEvent.set_error none, SlotEvent.set_filedata (some [1, 2, 3]),
        SlotEvent.set_len 3, SlotEvent.barrier, SlotEvent.set_status LOAD_reading_done,
        SlotEvent.notify] ∧
    ∃ es, diskload_slot_events demo_loader (reading_slot "a.png" 8) = .ok es ∧
      apply_events es (reading_slot "a.png" 8) = reading_done_slot "a.png" 8 ∧
      (es = [SlotEvent.set_status LOAD_inactive] ∨
        ∃ ws st, es = ws ++ [SlotEvent.barrier, SlotEvent.set_status st, SlotEvent.notify] ∧
          (st = LOAD_reading_done ∨ st = LOAD_error_reading) ∧
          (∀ e ∈ ws, e.is_payload = true) ∧
          ∀ p, p <+: es → SlotEvent.set_status st ∈ p →
            apply_events p (reading_slot "a.png" 8) = reading_done_slot "a.png" 8) :=
  ⟨by decide, by decide,
    (publish_before_status demo_loader (reading_slot "a.png" 8)).1
      (reading_done_slot "a.png" 8) (by decide)⟩

/-- C27, witness: in a list of three files `wrap(-1)` returns 2. -/
theorem wrap_returns_index_witness :
    wrap (some [⟨"a.png", 7⟩, ⟨"b.png", 8⟩, ⟨"c.png", 7⟩]) (-1) = .ok 2 ∧
    ∃ r, wrap (some [⟨"a.png", 7⟩, ⟨"b.png", 8⟩, ⟨"c.png", 7⟩]) (-1) = .ok r ∧
      0 ≤ r ∧ r < 3 ∧ (3 : Int) ∣ (-1 - r) := by
  obtain ⟨r, hr, _, h0, h1, hd, _⟩ :=
    wrap_returns_index [⟨"a.png", 7⟩, ⟨"b.png", 8⟩, ⟨"c.png", 7⟩] (-1) (by decide) (by decide)
  exact ⟨by decide, r, hr, h0, h1, hd⟩

end Imv
